import Mathlib

/-!
# Verification of the redgrep derivative engine

A shallow embedding of the regular-expression engine declared in
`src/regexp.h` (Brzozowski derivatives extended with complement and
conjunction).  The repository ships only the header; the bodies of
`Normalised`, `Nullability`, `Derivative`, `Partitions`, `Match` and
`Compile` are modelled from the specification (`spec.md`, §4), while the
data model (`Expression`, its accessors and the builders) follows the
header directly.

Runes are modelled as `Int` (the source uses a 32-bit signed integer
holding a Unicode scalar value); rune sets are `Finset Int`; strings are
the lists of runes obtained after UTF-8 decoding.
-/

set_option maxHeartbeats 1000000

namespace redgrep

/-- The expression tree of `src/regexp.h` (`enum Kind` plus payloads).
Every node of a compound kind carries the `norm` flag of the source's
`Expression::norm_`; nullary kinds other than `CharacterClass` carry no
flag because the normaliser never rewrites them.  `Concatenation` has
exactly two subexpressions (head and tail), as in the header. -/
inductive Exp where
  | emptySet : Exp
  | emptyString : Exp
  | anyCharacter : Exp
  | character (c : Int) : Exp
  | characterClass (s : Finset Int) (norm : Bool) : Exp
  | kleeneClosure (x : Exp) (norm : Bool) : Exp
  | concatenation (h t : Exp) (norm : Bool) : Exp
  | complement (x : Exp) (norm : Bool) : Exp
  | conjunction (xs : List Exp) (norm : Bool) : Exp
  | disjunction (xs : List Exp) (norm : Bool) : Exp

namespace Exp

/-- `Expression::kind()`, as the declaration-order index of `enum Kind`. -/
def kindOf : Exp → Nat
  | emptySet => 0
  | emptyString => 1
  | anyCharacter => 2
  | character _ => 3
  | characterClass _ _ => 4
  | kleeneClosure _ _ => 5
  | concatenation _ _ _ => 6
  | complement _ _ => 7
  | conjunction _ _ => 8
  | disjunction _ _ => 9

/-- `Expression::norm()`.  Nullary kinds without a flag are trivially
in normal form. -/
def normF : Exp → Bool
  | emptySet => true
  | emptyString => true
  | anyCharacter => true
  | character _ => true
  | characterClass _ f => f
  | kleeneClosure _ f => f
  | concatenation _ _ f => f
  | complement _ f => f
  | conjunction _ f => f
  | disjunction _ f => f

/-- `Expression::subexpressions()`. -/
def subexpressions : Exp → List Exp
  | kleeneClosure x _ => [x]
  | concatenation h t _ => [h, t]
  | complement x _ => [x]
  | conjunction xs _ => xs
  | disjunction xs _ => xs
  | _ => []

/-- `Expression::head()` (= `subexpressions().front()`). -/
def head (e : Exp) : Exp := e.subexpressions.headD emptySet

/-- `Expression::tail()` (= `subexpressions().back()`). -/
def tail (e : Exp) : Exp := e.subexpressions.getLastD emptySet

end Exp

/-- Builder `EmptySet()`. -/
def EmptySet : Exp := .emptySet

/-- Builder `EmptyString()`. -/
def EmptyString : Exp := .emptyString

/-- Builder `AnyCharacter()`. -/
def AnyCharacter : Exp := .anyCharacter

/-- Builder `Character(r)`. -/
def Character (c : Int) : Exp := .character c

/-- Builder `CharacterClass(s)`: builders mark their result non-normal. -/
def CharacterClass (s : Finset Int) : Exp := .characterClass s false

/-- Inline builder `KleeneClosure(x)` = `KleeneClosure({x}, false)`. -/
def KleeneClosure (x : Exp) : Exp := .kleeneClosure x false

/-- Inline builder `Concatenation(x, y)` = `Concatenation({x, y}, false)`. -/
def Concatenation (x y : Exp) : Exp := .concatenation x y false

/-- The variadic builder `Concatenation(x, y, z...)`, which
right-associates at construction:
`Concatenation(x, y, z...) = Concatenation({x, Concatenation(y, z...)}, false)`.
The trailing arguments `z...` are modelled as a list. -/
def ConcatenationN (x y : Exp) : List Exp → Exp
  | [] => .concatenation x y false
  | z :: zs => .concatenation x (ConcatenationN y z zs) false

/-- Inline builder `Complement(x)`. -/
def Complement (x : Exp) : Exp := .complement x false

/-- Variadic builder `Conjunction(x, y, z...)` (children as a list). -/
def Conjunction (xs : List Exp) : Exp := .conjunction xs false

/-- Variadic builder `Disjunction(x, y, z...)` (children as a list). -/
def Disjunction (xs : List Exp) : Exp := .disjunction xs false

/-- `InvalidRune()`: the reserved default-transition key. -/
def InvalidRune : Int := -1

/-- Recognises the `EmptySet` expression. -/
def isEmptySet : Exp → Bool
  | .emptySet => true
  | _ => false

/-- Recognises the `EmptyString` expression. -/
def isEmptyString : Exp → Bool
  | .emptyString => true
  | _ => false

/-- Recognises a `Concatenation` expression. -/
def isConcat : Exp → Bool
  | .concatenation _ _ _ => true
  | _ => false

/-- Recognises `Complement(EmptySet)` (the universal language Σ*),
regardless of its `norm` flag. -/
def isSigmaStar : Exp → Bool
  | .complement .emptySet _ => true
  | _ => false

/-- Three-way comparison of runes, yielding −1, 0 or +1. -/
def cmpInt (a b : Int) : Int :=
  if a < b then -1 else if b < a then 1 else 0

/-- Lexicographic three-way comparison of rune lists (the order used by
`std::set<Rune>`'s `operator<` on the sorted element sequences). -/
def cmpIntList : List Int → List Int → Int
  | [], [] => 0
  | [], _ :: _ => -1
  | _ :: _, [] => 1
  | a :: as, b :: bs => if cmpInt a b = 0 then cmpIntList as bs else cmpInt a b

mutual

/-- `Compare(x, y)` from `src/regexp.h:112`: −1, 0 or +1 as `x` is less
than, equal to or greater than `y`.  Modelled from the spec (§4.1): order
first by `Kind` in declaration order, then by payload (rune value,
lexicographic sorted rune sets, or lexicographic subexpression lists
under recursive `Compare`); the `norm` flag does not participate. -/
def Compare (x y : Exp) : Int :=
  if Exp.kindOf x < Exp.kindOf y then -1
  else if Exp.kindOf y < Exp.kindOf x then 1
  else
    match x, y with
    | .character a, .character b => cmpInt a b
    | .characterClass s _, .characterClass t _ =>
        cmpIntList (s.sort (· ≤ ·)) (t.sort (· ≤ ·))
    | .kleeneClosure a _, .kleeneClosure b _ => Compare a b
    | .concatenation h1 t1 _, .concatenation h2 t2 _ =>
        if Compare h1 h2 = 0 then Compare t1 t2 else Compare h1 h2
    | .complement a _, .complement b _ => Compare a b
    | .conjunction xs _, .conjunction ys _ => CompareList xs ys
    | .disjunction xs _, .disjunction ys _ => CompareList xs ys
    | _, _ => 0

/-- Lexicographic comparison of subexpression lists under `Compare`. -/
def CompareList : List Exp → List Exp → Int
  | [], [] => 0
  | [], _ :: _ => -1
  | _ :: _, [] => 1
  | x :: xs, y :: ys => if Compare x y = 0 then CompareList xs ys else Compare x y

end

/-- Sorts children under the total order `Compare` (spec §4.2). -/
def sortExps (l : List Exp) : List Exp :=
  l.insertionSort (fun x y => Compare x y ≤ 0)

/-- Removes the runners-up of a run of adjacent duplicates following
`x` (`Compare` equality), keeping `x` itself (spec §4.2). -/
def dedupFrom (x : Exp) : List Exp → List Exp
  | [] => [x]
  | y :: rest => if Compare x y = 0 then dedupFrom x rest else x :: dedupFrom y rest

/-- Removes adjacent duplicates (`Compare` equality) from a sorted child
list, keeping the first of each run (spec §4.2, idempotence rule). -/
def dedupAdj : List Exp → List Exp
  | [] => []
  | x :: rest => dedupFrom x rest

/-- One-level flattening of a `Conjunction` child (spec §4.2). -/
def conjFactors : Exp → List Exp
  | .conjunction xs _ => xs
  | e => [e]

/-- One-level flattening of a `Disjunction` child (spec §4.2). -/
def disjFactors : Exp → List Exp
  | .disjunction xs _ => xs
  | e => [e]

/-- Flattens every `Conjunction` child of the list into the list. -/
def flattenConj : List Exp → List Exp
  | [] => []
  | x :: xs => conjFactors x ++ flattenConj xs

/-- Flattens every `Disjunction` child of the list into the list. -/
def flattenDisj : List Exp → List Exp
  | [] => []
  | x :: xs => disjFactors x ++ flattenDisj xs

/-- Detects a child `x` together with its complement in the list
(`Compare` equality, spec §4.2 boolean identities). -/
def hasComplPair (l : List Exp) : Bool :=
  l.any fun x => l.any fun y => Compare y (.complement x false) = 0

/-- Modelled from the spec: the missing `regexp.cc` normalisation of a
`CharacterClass` payload (§3 invariants): an empty class collapses to
`EmptySet`, a singleton to `Character`; otherwise the class is kept. -/
def mkCharClass (s : Finset Int) : Exp :=
  match s.sort (· ≤ ·) with
  | [] => .emptySet
  | [c] => .character c
  | _ => .characterClass s true

/-- Modelled from the spec: the missing `regexp.cc` rewrite rules for
`KleeneClosure` over an already-normalised body (§4.2). -/
def mkKleene (x : Exp) : Exp :=
  match x with
  | .emptySet => .emptyString
  | .emptyString => .emptyString
  | .kleeneClosure _ _ => x
  | .complement .emptySet _ => x
  | _ => .kleeneClosure x true

/-- Modelled from the spec: the missing `regexp.cc` rewrite rule
`C(C(y)) → y` for `Complement` over a normalised body (§4.2). -/
def mkComplement (x : Exp) : Exp :=
  match x with
  | .complement y _ => y
  | _ => .complement x true

/-- The factor list of a concatenation spine. -/
def concatFactors : Exp → List Exp
  | .concatenation h t _ => concatFactors h ++ concatFactors t
  | e => [e]

/-- Rebuilds a non-empty factor list as a right-associated spine of
normalised `Concatenation` nodes. -/
def buildConcat : Exp → List Exp → Exp
  | x, [] => x
  | x, y :: ys => .concatenation x (buildConcat y ys) true

/-- Modelled from the spec: the missing `regexp.cc` rewrite rules for a
concatenation factor list (§4.2): any `EmptySet` factor absorbs;
`EmptyString` factors are dropped; the rest is right-associated. -/
def mkConcatList (fs : List Exp) : Exp :=
  if fs.any isEmptySet then .emptySet
  else
    match fs.filter (fun f => !isEmptyString f) with
    | [] => .emptyString
    | x :: xs => buildConcat x xs

/-- Modelled from the spec: the missing `regexp.cc` normalisation of a
`Concatenation` over normalised children (§4.2): flatten both spines,
then apply `mkConcatList`. -/
def mkConcat (h t : Exp) : Exp :=
  mkConcatList (concatFactors h ++ concatFactors t)

/-- The boolean identities of the ∧-lattice (spec §4.2), applied to an
already flattened, sorted and deduplicated child list: any `EmptySet`
child absorbs; `Complement(EmptySet)` children are dropped; a child
together with its complement collapses to `EmptySet`; a single
remaining child is returned bare, none yields `Complement(EmptySet)`. -/
def conjIdent (l : List Exp) : Exp :=
  if l.any isEmptySet then .emptySet
  else if hasComplPair (l.filter fun x => !isSigmaStar x) then .emptySet
  else
    match l.filter fun x => !isSigmaStar x with
    | [] => .complement .emptySet true
    | [x] => x
    | x :: y :: rest => .conjunction (x :: y :: rest) true

/-- The boolean identities of the ∨-lattice (spec §4.2), dual to
`conjIdent`. -/
def disjIdent (l : List Exp) : Exp :=
  if l.any isSigmaStar then .complement .emptySet true
  else if hasComplPair (l.filter fun x => !isEmptySet x) then .complement .emptySet true
  else
    match l.filter fun x => !isEmptySet x with
    | [] => .emptySet
    | [x] => x
    | x :: y :: rest => .disjunction (x :: y :: rest) true

/-- Modelled from the spec: the missing `regexp.cc` normalisation of a
`Conjunction` over normalised children (§4.2): flatten, sort, remove
adjacent duplicates, then the boolean identities of the ∧-lattice. -/
def mkConj (xs : List Exp) : Exp :=
  conjIdent (dedupAdj (sortExps (flattenConj xs)))

/-- Modelled from the spec: the missing `regexp.cc` normalisation of a
`Disjunction` over normalised children (§4.2). -/
def mkDisj (xs : List Exp) : Exp :=
  disjIdent (dedupAdj (sortExps (flattenDisj xs)))

mutual

/-- Modelled from the spec: the missing `regexp.cc` body of
`Normalised(exp)` (§4.2).  The rewrite rules are applied bottom-up; if
the `norm` flag is already set the expression is returned unchanged. -/
def Normalised : Exp → Exp
  | .emptySet => .emptySet
  | .emptyString => .emptyString
  | .anyCharacter => .anyCharacter
  | .character c => .character c
  | .characterClass s f => if f then .characterClass s f else mkCharClass s
  | .kleeneClosure x f => if f then .kleeneClosure x f else mkKleene (Normalised x)
  | .concatenation h t f =>
      if f then .concatenation h t f else mkConcat (Normalised h) (Normalised t)
  | .complement x f => if f then .complement x f else mkComplement (Normalised x)
  | .conjunction xs f => if f then .conjunction xs f else mkConj (normList xs)
  | .disjunction xs f => if f then .disjunction xs f else mkDisj (normList xs)

/-- `Normalised` mapped over a child list. -/
def normList : List Exp → List Exp
  | [] => []
  | x :: xs => Normalised x :: normList xs

end

mutual

/-- Modelled from the spec: the missing `regexp.cc` body of
`Nullability(exp)` (§4.3): returns `EmptyString` or `EmptySet`. -/
def Nullability : Exp → Exp
  | .emptySet => .emptySet
  | .emptyString => .emptyString
  | .anyCharacter => .emptySet
  | .character _ => .emptySet
  | .characterClass _ _ => .emptySet
  | .kleeneClosure _ _ => .emptyString
  | .concatenation h t _ =>
      Normalised (.conjunction [Nullability h, Nullability t] false)
  | .complement x _ =>
      if isEmptyString (Nullability x) then .emptySet else .emptyString
  | .conjunction xs _ => Normalised (.conjunction (nullList xs) false)
  | .disjunction xs _ => Normalised (.disjunction (nullList xs) false)

/-- `Nullability` mapped over a child list. -/
def nullList : List Exp → List Exp
  | [] => []
  | x :: xs => Nullability x :: nullList xs

end

mutual

/-- Modelled from the spec: the missing `regexp.cc` body of
`Derivative(exp, character)` (§4.4): the Brzozowski derivative with
respect to one rune.  The table of §4.4 is applied verbatim; results
are not normalised here (§4.5–§4.7 apply `Normalised` at each use). -/
def Derivative : Exp → Int → Exp
  | .emptySet, _ => .emptySet
  | .emptyString, _ => .emptySet
  | .anyCharacter, _ => .emptyString
  | .character c, a => if a = c then .emptyString else .emptySet
  | .characterClass s _, a => if a ∈ s then .emptyString else .emptySet
  | .kleeneClosure x f, a =>
      .concatenation (Derivative x a) (.kleeneClosure x f) false
  | .concatenation h t _, a =>
      .disjunction [.concatenation (Derivative h a) t false,
                    .concatenation (Nullability h) (Derivative t a) false] false
  | .complement x _, a => .complement (Derivative x a) false
  | .conjunction xs _, a => .conjunction (derivList xs a) false
  | .disjunction xs _, a => .disjunction (derivList xs a) false

/-- `Derivative` mapped over a child list. -/
def derivList : List Exp → Int → List Exp
  | [], _ => []
  | x :: xs, a => Derivative x a :: derivList xs a

end

/-- One step of the direct matcher: `e ← Normalised(Derivative(e, a))`. -/
def matchStep (e : Exp) (a : Int) : Exp := Normalised (Derivative e a)

/-- Modelled from the spec: the missing `regexp.cc` body of
`Match(exp, str)` (§4.6), over the decoded rune sequence: iterated
normalised derivation, then the final nullability test. -/
def Match (e : Exp) (s : List Int) : Bool :=
  isEmptyString (Nullability (s.foldl matchStep e))

/-- A partition of the rune alphabet Σ: the exception set of the
implicit Σ-covering default class, together with the explicit classes.
This models the source's `list<set<Rune>>` whose first element is
"Σ-based" (it stores the runes *excluded* from the default class) and
whose remaining elements are "∅-based" explicit rune sets. -/
abbrev Partition := Finset Int × List (Finset Int)

/-- Modelled from the spec: refinement of two partitions (§4.5):
pairwise intersections, the default of the result being the
intersection of the defaults; empty intersections are discarded. -/
def refinePart (p q : Partition) : Partition :=
  (p.1 ∪ q.1,
   (p.2.map (· \ q.1) ++ q.2.map (· \ p.1) ++
      (p.2.map fun A => q.2.map fun B => A ∩ B).flatten).filter (· ≠ ∅))

mutual

/-- Modelled from the spec: the missing `regexp.cc` body of
`Partitions(exp, &partitions)` (§4.5): the equivalence classes of runes
that yield the same normalised derivative. -/
def Partitions : Exp → Partition
  | .emptySet => (∅, [])
  | .emptyString => (∅, [])
  | .anyCharacter => (∅, [])
  | .character c => ({c}, [{c}])
  | .characterClass s _ => if s = ∅ then (∅, []) else (s, [s])
  | .kleeneClosure x _ => Partitions x
  | .concatenation h t _ =>
      if isEmptyString (Nullability h) then refinePart (Partitions h) (Partitions t)
      else Partitions h
  | .complement x _ => Partitions x
  | .conjunction xs _ => partList xs
  | .disjunction xs _ => partList xs

/-- Iterated refinement of the partitions of a child list. -/
def partList : List Exp → Partition
  | [] => (∅, [])
  | x :: xs => refinePart (Partitions x) (partList xs)

end

/-- A class of a partition: `(true, s)` is the Σ-covering default class
(every rune not in `s`), `(false, s)` is the explicit class `s`. -/
abbrev RuneClass := Bool × Finset Int

/-- Membership of a rune in a partition class. -/
def cMem (a : Int) : RuneClass → Bool
  | (true, s) => decide (a ∉ s)
  | (false, s) => decide (a ∈ s)

/-- The classes of `Partitions e` in output order: the Σ-covering
default first, then the explicit classes. -/
def classesOf (e : Exp) : List RuneClass :=
  (true, (Partitions e).1) :: (Partitions e).2.map fun c => (false, c)

/-- The deterministic finite automaton of `src/regexp.h:207`.  The
`map` members are modelled as association lists with first-match
lookup. -/
structure DFA where
  transition : List ((Nat × Int) × Nat)
  accepting : List (Nat × Bool)
deriving DecidableEq

/-- First-match association-list lookup for the transition table. -/
def lookupT : List ((Nat × Int) × Nat) → Nat × Int → Option Nat
  | [], _ => none
  | (k, v) :: rest, k' => if k = k' then some v else lookupT rest k'

/-- First-match association-list lookup for the accepting table. -/
def lookupA : List (Nat × Bool) → Nat → Bool
  | [], _ => false
  | (k, v) :: rest, k' => if k = k' then v else lookupA rest k'

/-- The index of the first state `Compare`-equal to `e`, if any
(expressions are container keys under `Compare`). -/
def internIdx : List Exp → Exp → Option Nat
  | [], _ => none
  | s :: rest, e => if Compare s e = 0 then some 0 else (internIdx rest e).map (· + 1)

/-- Interns `e` into the state list, returning its index and the
(possibly extended) state list. -/
def intern (states : List Exp) (e : Exp) : Nat × List Exp :=
  match internIdx states e with
  | some i => (i, states)
  | none => (states.length, states ++ [e])

/-- A representative rune of the Σ-covering default class: one more
than the largest excluded rune. -/
def defaultRep (d : Finset Int) : Int :=
  if h : d.Nonempty then d.max' h + 1 else 0

/-- The smallest representative rune of an explicit class. -/
def classRep (c : Finset Int) : Int :=
  if h : c.Nonempty then c.min' h else 0

/-- The ascending enumeration of a multiset of runes (the iteration
order of the C++ `std::set<Rune>`), written with a structural sort so
that it evaluates. -/
def sortM (m : Multiset Int) : List Int :=
  Quot.liftOn m (fun l => l.insertionSort (· ≤ ·)) fun a b hab =>
    List.eq_of_perm_of_sorted
      ((List.perm_insertionSort _ a).trans
        (List.Perm.trans hab (List.perm_insertionSort _ b).symm))
      (List.sorted_insertionSort _ a) (List.sorted_insertionSort _ b)

/-- The ascending enumeration of a rune set. -/
def sortRunes (c : Finset Int) : List Int :=
  sortM c.val

/-- The transitions recorded for one explicit class: one per rune. -/
def addTrans (q : Nat) (c : Finset Int) (tgt : Nat) : List ((Nat × Int) × Nat) :=
  (sortRunes c).map fun r => ((q, r), tgt)

/-- Processes the explicit classes of one state: interns each class's
normalised derivative (taken at the class's smallest representative)
and records a transition for every rune of the class. -/
def processClasses (eq : Exp) (q : Nat) :
    List (Finset Int) → List Exp → List Exp × List ((Nat × Int) × Nat)
  | [], states => (states, [])
  | c :: cs, states =>
      let p := intern states (Normalised (Derivative eq (classRep c)))
      let rest := processClasses eq q cs p.2
      (rest.1, addTrans q c p.1 ++ rest.2)

/-- Processes one worklist state `q` (spec §4.7 step 2): the default
transition (keyed by `InvalidRune`) first, then the explicit classes,
then the accepting bit. -/
def compileState (states : List Exp) (q : Nat) :
    List Exp × List ((Nat × Int) × Nat) × (Nat × Bool) :=
  let eq := states.getD q .emptySet
  let p := Partitions eq
  let dflt := intern states (Normalised (Derivative eq (defaultRep p.1)))
  let rest := processClasses eq q p.2 dflt.2
  (rest.1, ((q, InvalidRune), dflt.1) :: rest.2, (q, isEmptyString (Nullability eq)))

/-- The worklist loop of `Compile` (spec §4.7), with explicit fuel:
`states` is the interning table (indices are state ids) and `q` the
number of already-processed states. -/
def compileLoop : Nat → List Exp → Nat → List ((Nat × Int) × Nat) → List (Nat × Bool) →
    Option (Nat × DFA)
  | 0, _, _, _, _ => none
  | fuel + 1, states, q, tr, acc =>
      if q < states.length then
        let step := compileState states q
        compileLoop fuel step.1 (q + 1) (tr ++ step.2.1) (acc ++ [step.2.2])
      else
        some (states.length, ⟨tr, acc⟩)

/-- Modelled from the spec: the missing `regexp.cc` body of
`Compile(exp, &dfa)` (§4.7): enumerates the normalised derivatives
reachable from `Normalised(exp)` and returns the number of states with
the DFA.  Termination (spec §4.7, Brzozowski) is represented by fuel:
`none` means the fuel ran out before the worklist drained. -/
def Compile (fuel : Nat) (e : Exp) : Option (Nat × DFA) :=
  compileLoop fuel [Normalised e] 0 [] []

/-- One step of the DFA matcher (spec §4.8): look up the transition for
the rune; if absent, use the `InvalidRune` default transition. -/
def dfaNext (dfa : DFA) (q : Nat) (a : Int) : Nat :=
  match lookupT dfa.transition (q, a) with
  | some q' => q'
  | none => (lookupT dfa.transition (q, InvalidRune)).getD 0

/-- Modelled from the spec: the missing `regexp.cc` body of
`Match(dfa, str)` (§4.8): run the table from state 0, accept iff the
final state is accepting. -/
def MatchDFA (dfa : DFA) (s : List Int) : Bool :=
  lookupA dfa.accepting (s.foldl (dfaNext dfa) 0)

mutual

/-- Structural well-formedness contract of the data model (spec §3 and
§7): `Conjunction` and `Disjunction` carry at least two children, and
rune payloads hold Unicode scalar values (hence non-negative; the
sentinel −1 never appears inside a `Character` or `CharacterClass`). -/
def wf : Exp → Bool
  | .emptySet => true
  | .emptyString => true
  | .anyCharacter => true
  | .character c => decide (0 ≤ c)
  | .characterClass s _ => decide (∀ r ∈ s, 0 ≤ r)
  | .kleeneClosure x _ => wf x
  | .concatenation h t _ => wf h && wf t
  | .complement x _ => wf x
  | .conjunction xs _ => decide (2 ≤ xs.length) && wfList xs
  | .disjunction xs _ => decide (2 ≤ xs.length) && wfList xs

/-- `wf` over a child list. -/
def wfList : List Exp → Bool
  | [] => true
  | x :: xs => wf x && wfList xs

end

mutual

/-- Every `norm` flag in the expression is unset: the form produced by
the public builders, which "mark them non-normal by default" (§4.1);
normalised results are produced only by the normaliser. -/
def normFree : Exp → Bool
  | .emptySet => true
  | .emptyString => true
  | .anyCharacter => true
  | .character _ => true
  | .characterClass _ f => !f
  | .kleeneClosure x f => !f && normFree x
  | .concatenation h t f => !f && normFree h && normFree t
  | .complement x f => !f && normFree x
  | .conjunction xs f => !f && normFreeList xs
  | .disjunction xs f => !f && normFreeList xs

/-- `normFree` over a child list. -/
def normFreeList : List Exp → Bool
  | [] => true
  | x :: xs => normFree x && normFreeList xs

end

mutual

/-- Every `norm` flag in the expression is set: the form produced by
the normaliser. -/
def allNorm : Exp → Bool
  | .emptySet => true
  | .emptyString => true
  | .anyCharacter => true
  | .character _ => true
  | .characterClass _ f => f
  | .kleeneClosure x f => f && allNorm x
  | .concatenation h t f => f && allNorm h && allNorm t
  | .complement x f => f && allNorm x
  | .conjunction xs f => f && allNormList xs
  | .disjunction xs f => f && allNormList xs

/-- `allNorm` over a child list. -/
def allNormList : List Exp → Bool
  | [] => true
  | x :: xs => allNorm x && allNormList xs

end

mutual

/-- The canonical-structure invariant of concatenations (spec §3):
every `Concatenation` subexpression is right-associated, i.e. its head
is never itself a `Concatenation`. -/
def concatCanon : Exp → Bool
  | .emptySet => true
  | .emptyString => true
  | .anyCharacter => true
  | .character _ => true
  | .characterClass _ _ => true
  | .kleeneClosure x _ => concatCanon x
  | .concatenation h t _ => !isConcat h && concatCanon h && concatCanon t
  | .complement x _ => concatCanon x
  | .conjunction xs _ => concatCanonList xs
  | .disjunction xs _ => concatCanonList xs

/-- `concatCanon` over a child list. -/
def concatCanonList : List Exp → Bool
  | [] => true
  | x :: xs => concatCanon x && concatCanonList xs

end

mutual

/-- Clears every `norm` flag: two expressions are structurally
identical except for their `norm` flags iff their `erase` images are
equal. -/
def erase : Exp → Exp
  | .emptySet => .emptySet
  | .emptyString => .emptyString
  | .anyCharacter => .anyCharacter
  | .character c => .character c
  | .characterClass s _ => .characterClass s false
  | .kleeneClosure x _ => .kleeneClosure (erase x) false
  | .concatenation h t _ => .concatenation (erase h) (erase t) false
  | .complement x _ => .complement (erase x) false
  | .conjunction xs _ => .conjunction (eraseList xs) false
  | .disjunction xs _ => .disjunction (eraseList xs) false

/-- `erase` over a child list. -/
def eraseList : List Exp → List Exp
  | [] => []
  | x :: xs => erase x :: eraseList xs

end

/-- Nested structural induction for `Exp` with list children exposed
through membership. -/
theorem expInd (motive : Exp → Prop)
    (hes : motive .emptySet) (hee : motive .emptyString) (hac : motive .anyCharacter)
    (hch : ∀ c, motive (.character c))
    (hcc : ∀ s f, motive (.characterClass s f))
    (hkl : ∀ x f, motive x → motive (.kleeneClosure x f))
    (hcat : ∀ h t f, motive h → motive t → motive (.concatenation h t f))
    (hcmp : ∀ x f, motive x → motive (.complement x f))
    (hconj : ∀ xs f, (∀ x ∈ xs, motive x) → motive (.conjunction xs f))
    (hdisj : ∀ xs f, (∀ x ∈ xs, motive x) → motive (.disjunction xs f)) :
    ∀ e, motive e
  | .emptySet => hes
  | .emptyString => hee
  | .anyCharacter => hac
  | .character c => hch c
  | .characterClass s f => hcc s f
  | .kleeneClosure x f =>
      hkl x f (expInd motive hes hee hac hch hcc hkl hcat hcmp hconj hdisj x)
  | .concatenation h t f =>
      hcat h t f (expInd motive hes hee hac hch hcc hkl hcat hcmp hconj hdisj h)
        (expInd motive hes hee hac hch hcc hkl hcat hcmp hconj hdisj t)
  | .complement x f =>
      hcmp x f (expInd motive hes hee hac hch hcc hkl hcat hcmp hconj hdisj x)
  | .conjunction xs f =>
      hconj xs f fun x hx =>
        have : sizeOf x < sizeOf xs := List.sizeOf_lt_of_mem hx
        expInd motive hes hee hac hch hcc hkl hcat hcmp hconj hdisj x
  | .disjunction xs f =>
      hdisj xs f fun x hx =>
        have : sizeOf x < sizeOf xs := List.sizeOf_lt_of_mem hx
        expInd motive hes hee hac hch hcc hkl hcat hcmp hconj hdisj x
termination_by e => sizeOf e

theorem normList_eq (xs : List Exp) : normList xs = xs.map Normalised := by
  induction xs with
  | nil => rfl
  | cons x xs ih => simp [normList, ih]

theorem nullList_eq (xs : List Exp) : nullList xs = xs.map Nullability := by
  induction xs with
  | nil => rfl
  | cons x xs ih => simp [nullList, ih]

theorem derivList_eq (xs : List Exp) (a : Int) :
    derivList xs a = xs.map (Derivative · a) := by
  induction xs with
  | nil => rfl
  | cons x xs ih => simp [derivList, ih]

theorem eraseList_eq (xs : List Exp) : eraseList xs = xs.map erase := by
  induction xs with
  | nil => rfl
  | cons x xs ih => simp [eraseList, ih]

theorem wfList_iff {xs : List Exp} : wfList xs = true ↔ ∀ x ∈ xs, wf x = true := by
  induction xs with
  | nil => simp [wfList]
  | cons x xs ih => simp [wfList, ih]

theorem normFreeList_iff {xs : List Exp} :
    normFreeList xs = true ↔ ∀ x ∈ xs, normFree x = true := by
  induction xs with
  | nil => simp [normFreeList]
  | cons x xs ih => simp [normFreeList, ih]

theorem allNormList_iff {xs : List Exp} :
    allNormList xs = true ↔ ∀ x ∈ xs, allNorm x = true := by
  induction xs with
  | nil => simp [allNormList]
  | cons x xs ih => simp [allNormList, ih]

theorem concatCanonList_iff {xs : List Exp} :
    concatCanonList xs = true ↔ ∀ x ∈ xs, concatCanon x = true := by
  induction xs with
  | nil => simp [concatCanonList]
  | cons x xs ih => simp [concatCanonList, ih]

/-- If the `norm` flag is already set, `Normalised` returns the
expression unchanged (spec §4.2). -/
theorem Normalised_normF : ∀ {e : Exp}, e.normF = true → Normalised e = e := by
  intro e h
  cases e <;> simp [Exp.normF] at h <;> simp [Normalised, h]

theorem allNorm_normF {e : Exp} (h : allNorm e = true) : e.normF = true := by
  cases e <;> simp [allNorm] at h <;> simp [Exp.normF] <;> tauto

theorem mem_sortExps {l : List Exp} {x : Exp} : x ∈ sortExps l ↔ x ∈ l :=
  (List.perm_insertionSort _ l).mem_iff

theorem dedupFrom_subset :
    ∀ {l : List Exp} {x z : Exp}, z ∈ dedupFrom x l → z = x ∨ z ∈ l := by
  intro l
  induction l with
  | nil => intro x z hz; simp [dedupFrom] at hz; exact Or.inl hz
  | cons y rest ih =>
      intro x z hz
      rw [dedupFrom] at hz
      by_cases h : Compare x y = 0
      · rw [if_pos h] at hz
        rcases ih hz with h' | h'
        · exact Or.inl h'
        · exact Or.inr (List.mem_cons_of_mem _ h')
      · rw [if_neg h] at hz
        rcases List.mem_cons.mp hz with h' | h'
        · exact Or.inl h'
        · rcases ih h' with h'' | h''
          · exact Or.inr (List.mem_cons.mpr (Or.inl h''))
          · exact Or.inr (List.mem_cons_of_mem _ h'')

theorem dedupAdj_subset : ∀ {l : List Exp} {x : Exp}, x ∈ dedupAdj l → x ∈ l := by
  intro l x hz
  cases l with
  | nil => simp [dedupAdj] at hz
  | cons y rest =>
      rw [dedupAdj] at hz
      rcases dedupFrom_subset hz with h | h
      · exact List.mem_cons.mpr (Or.inl h)
      · exact List.mem_cons_of_mem _ h

theorem concatFactors_pred (p : Exp → Bool)
    (hk : ∀ h t f, p (.concatenation h t f) = true → p h = true ∧ p t = true) :
    ∀ {x : Exp}, p x = true → ∀ y ∈ concatFactors x, p y = true := by
  intro x
  induction x using expInd with
  | hcat h t f ih1 ih2 =>
      intro hp y hy
      rw [concatFactors] at hy
      rcases List.mem_append.mp hy with h' | h'
      · exact ih1 (hk _ _ _ hp).1 y h'
      · exact ih2 (hk _ _ _ hp).2 y h'
  | hes => intro hp y hy; simp [concatFactors] at hy; simpa [hy]
  | hee => intro hp y hy; simp [concatFactors] at hy; simpa [hy]
  | hac => intro hp y hy; simp [concatFactors] at hy; simpa [hy]
  | hch c => intro hp y hy; simp [concatFactors] at hy; simpa [hy]
  | hcc s f => intro hp y hy; simp [concatFactors] at hy; simpa [hy]
  | hkl x f ih => intro hp y hy; simp [concatFactors] at hy; simpa [hy]
  | hcmp x f ih => intro hp y hy; simp [concatFactors] at hy; simpa [hy]
  | hconj xs f ih => intro hp y hy; simp [concatFactors] at hy; simpa [hy]
  | hdisj xs f ih => intro hp y hy; simp [concatFactors] at hy; simpa [hy]

theorem concatFactors_not_concat :
    ∀ {x : Exp}, ∀ y ∈ concatFactors x, isConcat y = false := by
  intro x
  induction x using expInd with
  | hcat h t f ih1 ih2 =>
      intro y hy
      rw [concatFactors] at hy
      rcases List.mem_append.mp hy with h' | h'
      · exact ih1 y h'
      · exact ih2 y h'
  | hes => intro y hy; simp [concatFactors] at hy; simp [hy, isConcat]
  | hee => intro y hy; simp [concatFactors] at hy; simp [hy, isConcat]
  | hac => intro y hy; simp [concatFactors] at hy; simp [hy, isConcat]
  | hch c => intro y hy; simp [concatFactors] at hy; simp [hy, isConcat]
  | hcc s f => intro y hy; simp [concatFactors] at hy; simp [hy, isConcat]
  | hkl x f ih => intro y hy; simp [concatFactors] at hy; simp [hy, isConcat]
  | hcmp x f ih => intro y hy; simp [concatFactors] at hy; simp [hy, isConcat]
  | hconj xs f ih => intro y hy; simp [concatFactors] at hy; simp [hy, isConcat]
  | hdisj xs f ih => intro y hy; simp [concatFactors] at hy; simp [hy, isConcat]

theorem concatFactors_allNorm {x : Exp} (h : allNorm x = true) :
    ∀ y ∈ concatFactors x, allNorm y = true :=
  concatFactors_pred allNorm
    (by
      intro a b f hp
      simp only [allNorm, Bool.and_eq_true] at hp
      exact ⟨hp.1.2, hp.2⟩) h

theorem conjFactors_allNorm {x : Exp} (h : allNorm x = true) :
    ∀ y ∈ conjFactors x, allNorm y = true := by
  cases x <;> simp [conjFactors] <;> try simpa using h
  case conjunction xs f =>
    simp [allNorm] at h
    exact allNormList_iff.mp h.2

theorem disjFactors_allNorm {x : Exp} (h : allNorm x = true) :
    ∀ y ∈ disjFactors x, allNorm y = true := by
  cases x <;> simp [disjFactors] <;> try simpa using h
  case disjunction xs f =>
    simp [allNorm] at h
    exact allNormList_iff.mp h.2

theorem flattenConj_allNorm {l : List Exp} (h : ∀ x ∈ l, allNorm x = true) :
    ∀ y ∈ flattenConj l, allNorm y = true := by
  induction l with
  | nil => simp [flattenConj]
  | cons x xs ih =>
      intro y hy
      rw [flattenConj] at hy
      rcases List.mem_append.mp hy with h' | h'
      · exact conjFactors_allNorm (h x (List.mem_cons_self _ _)) y h'
      · exact ih (fun z hz => h z (List.mem_cons_of_mem _ hz)) y h'

theorem flattenDisj_allNorm {l : List Exp} (h : ∀ x ∈ l, allNorm x = true) :
    ∀ y ∈ flattenDisj l, allNorm y = true := by
  induction l with
  | nil => simp [flattenDisj]
  | cons x xs ih =>
      intro y hy
      rw [flattenDisj] at hy
      rcases List.mem_append.mp hy with h' | h'
      · exact disjFactors_allNorm (h x (List.mem_cons_self _ _)) y h'
      · exact ih (fun z hz => h z (List.mem_cons_of_mem _ hz)) y h'

theorem mkCharClass_allNorm (s : Finset Int) : allNorm (mkCharClass s) = true := by
  rw [mkCharClass]
  rcases h : s.sort (· ≤ ·) with _ | ⟨c, _ | ⟨d, l⟩⟩ <;> simp [allNorm]

theorem mkKleene_allNorm {x : Exp} (h : allNorm x = true) :
    allNorm (mkKleene x) = true := by
  cases x <;> simp_all [mkKleene, allNorm]
  case complement y f =>
    cases y <;> simp_all [mkKleene, allNorm]

theorem mkComplement_allNorm {x : Exp} (h : allNorm x = true) :
    allNorm (mkComplement x) = true := by
  cases x <;> simp_all [mkComplement, allNorm]

theorem buildConcat_allNorm :
    ∀ {ys : List Exp} {x : Exp}, allNorm x = true → (∀ y ∈ ys, allNorm y = true) →
      allNorm (buildConcat x ys) = true := by
  intro ys
  induction ys with
  | nil => intro x hx _; simpa [buildConcat]
  | cons y ys ih =>
      intro x hx hys
      rw [buildConcat]
      have h2 := ih (hys y (List.mem_cons_self _ _))
        fun z hz => hys z (List.mem_cons_of_mem _ hz)
      simp [allNorm, hx, h2]

theorem mkConcatList_allNorm {fs : List Exp} (h : ∀ y ∈ fs, allNorm y = true) :
    allNorm (mkConcatList fs) = true := by
  rw [mkConcatList]
  split
  · simp [allNorm]
  · split
    · simp [allNorm]
    · next x xs heq =>
        have hsub : ∀ y ∈ x :: xs, allNorm y = true := by
          intro y hy
          rw [← heq] at hy
          exact h y (List.mem_filter.mp hy).1
        exact buildConcat_allNorm (hsub x (List.mem_cons_self _ _))
          fun z hz => hsub z (List.mem_cons_of_mem _ hz)

theorem mkConcat_allNorm {a b : Exp} (ha : allNorm a = true) (hb : allNorm b = true) :
    allNorm (mkConcat a b) = true := by
  rw [mkConcat]
  refine mkConcatList_allNorm ?_
  intro y hy
  rcases List.mem_append.mp hy with h' | h'
  · exact concatFactors_allNorm ha y h'
  · exact concatFactors_allNorm hb y h'

theorem conjIdent_allNorm {l : List Exp} (h : ∀ x ∈ l, allNorm x = true) :
    allNorm (conjIdent l) = true := by
  rw [conjIdent]
  split
  · simp [allNorm]
  · split
    · simp [allNorm]
    · split
      · simp [allNorm]
      · next x heq =>
          have hx : x ∈ l.filter fun z => !isSigmaStar z := by
            rw [heq]; exact List.mem_cons_self _ _
          exact h x (List.mem_filter.mp hx).1
      · next x y rest heq =>
          have hsub : ∀ z ∈ x :: y :: rest, allNorm z = true := by
            intro z hz
            rw [← heq] at hz
            exact h z (List.mem_filter.mp hz).1
          simp only [allNorm, Bool.true_and]
          exact allNormList_iff.mpr hsub

theorem disjIdent_allNorm {l : List Exp} (h : ∀ x ∈ l, allNorm x = true) :
    allNorm (disjIdent l) = true := by
  rw [disjIdent]
  split
  · simp [allNorm]
  · split
    · simp [allNorm]
    · split
      · simp [allNorm]
      · next x heq =>
          have hx : x ∈ l.filter fun z => !isEmptySet z := by
            rw [heq]; exact List.mem_cons_self _ _
          exact h x (List.mem_filter.mp hx).1
      · next x y rest heq =>
          have hsub : ∀ z ∈ x :: y :: rest, allNorm z = true := by
            intro z hz
            rw [← heq] at hz
            exact h z (List.mem_filter.mp hz).1
          simp only [allNorm, Bool.true_and]
          exact allNormList_iff.mpr hsub

theorem mkConj_allNorm {xs : List Exp} (h : ∀ x ∈ xs, allNorm x = true) :
    allNorm (mkConj xs) = true := by
  rw [mkConj]
  refine conjIdent_allNorm ?_
  intro x hx
  exact flattenConj_allNorm h x (mem_sortExps.mp (dedupAdj_subset hx))

theorem mkDisj_allNorm {xs : List Exp} (h : ∀ x ∈ xs, allNorm x = true) :
    allNorm (mkDisj xs) = true := by
  rw [mkDisj]
  refine disjIdent_allNorm ?_
  intro x hx
  exact flattenDisj_allNorm h x (mem_sortExps.mp (dedupAdj_subset hx))

/-- The normaliser marks every node of its result as normal when run on
a builder-produced (norm-flag-free) expression. -/
theorem normFree_allNorm : ∀ {e : Exp}, normFree e = true → allNorm (Normalised e) = true := by
  intro e
  induction e using expInd with
  | hes => intro _; simp [Normalised, allNorm]
  | hee => intro _; simp [Normalised, allNorm]
  | hac => intro _; simp [Normalised, allNorm]
  | hch c => intro _; simp [Normalised, allNorm]
  | hcc s f =>
      intro h
      simp [normFree] at h
      simp [Normalised, h, mkCharClass_allNorm]
  | hkl x f ih =>
      intro h
      simp [normFree] at h
      simp only [Normalised, h.1, if_false, Bool.false_eq_true]
      exact mkKleene_allNorm (ih h.2)
  | hcat a b f ih1 ih2 =>
      intro h
      simp [normFree] at h
      obtain ⟨⟨hf, ha⟩, hb⟩ := h
      simp only [Normalised, hf, if_false, Bool.false_eq_true]
      exact mkConcat_allNorm (ih1 ha) (ih2 hb)
  | hcmp x f ih =>
      intro h
      simp [normFree] at h
      simp only [Normalised, h.1, if_false, Bool.false_eq_true]
      exact mkComplement_allNorm (ih h.2)
  | hconj xs f ih =>
      intro h
      simp [normFree] at h
      simp only [Normalised, h.1, if_false, Bool.false_eq_true]
      refine mkConj_allNorm ?_
      rw [normList_eq]
      intro x hx
      rcases List.mem_map.mp hx with ⟨y, hy, rfl⟩
      exact ih y hy (normFreeList_iff.mp h.2 y hy)
  | hdisj xs f ih =>
      intro h
      simp [normFree] at h
      simp only [Normalised, h.1, if_false, Bool.false_eq_true]
      refine mkDisj_allNorm ?_
      rw [normList_eq]
      intro x hx
      rcases List.mem_map.mp hx with ⟨y, hy, rfl⟩
      exact ih y hy (normFreeList_iff.mp h.2 y hy)

/-- A fully normal-flagged expression is a fixed point of the
normaliser. -/
theorem allNorm_fixed {e : Exp} (h : allNorm e = true) : Normalised e = e :=
  Normalised_normF (allNorm_normF h)

/-- C4: Normalisation is idempotent on builder-produced expressions
(those whose `norm` flags are unset, as the public builders guarantee,
spec §4.1): `Normalised (Normalised e) = Normalised e` structurally;
moreover, whenever the `norm` flag of `e` is already set, `Normalised`
returns `e` unchanged. -/
theorem claim_C4 :
    (∀ e, normFree e = true → Normalised (Normalised e) = Normalised e) ∧
    (∀ e : Exp, e.normF = true → Normalised e = e) :=
  ⟨fun _ h => allNorm_fixed (normFree_allNorm h),
   fun _ h => Normalised_normF h⟩

/-- Witness for C4 at concrete inputs. -/
theorem claim_C4_witness :
    (normFree (Concatenation (Character 97) (KleeneClosure (Character 98))) = true ∧
      Normalised (Normalised (Concatenation (Character 97) (KleeneClosure (Character 98)))) =
        Normalised (Concatenation (Character 97) (KleeneClosure (Character 98)))) ∧
    ((Exp.kleeneClosure (Character 98) true).normF = true ∧
      Normalised (Exp.kleeneClosure (Character 98) true) =
        Exp.kleeneClosure (Character 98) true) :=
  ⟨⟨by decide, claim_C4.1 _ (by decide)⟩, ⟨rfl, claim_C4.2 _ rfl⟩⟩

/-- C10: every `Concatenation` produced by the public builders has
exactly two subexpressions (head and tail) and is marked non-normal;
the variadic builder right-associates at construction, so for three or
more arguments the tail is itself a two-child `Concatenation`. -/
theorem claim_C10 :
    (∀ x y zs, (ConcatenationN x y zs).subexpressions.length = 2 ∧
      (ConcatenationN x y zs).normF = false) ∧
    (∀ x y z zs, ConcatenationN x y (z :: zs) =
        Exp.concatenation x (ConcatenationN y z zs) false ∧
      isConcat (ConcatenationN y z zs) = true ∧
      (ConcatenationN y z zs).subexpressions.length = 2) := by
  constructor
  · intro x y zs
    cases zs <;> simp [ConcatenationN, Exp.subexpressions, Exp.normF]
  · intro x y z zs
    refine ⟨rfl, ?_, ?_⟩
    · cases zs <;> simp [ConcatenationN, isConcat]
    · cases zs <;> simp [ConcatenationN, Exp.subexpressions]

theorem cmpInt_eq_zero {a b : Int} : cmpInt a b = 0 ↔ a = b := by
  unfold cmpInt; split_ifs <;> simp <;> omega

theorem cmpInt_eq_neg {a b : Int} : cmpInt a b = -1 ↔ a < b := by
  unfold cmpInt; split_ifs <;> simp <;> omega

theorem cmpInt_swap (a b : Int) : cmpInt b a = -cmpInt a b := by
  unfold cmpInt; split_ifs <;> omega

theorem cmpIntList_eq_zero : ∀ {l m : List Int}, cmpIntList l m = 0 ↔ l = m
  | [], [] => by simp [cmpIntList]
  | [], _ :: _ => by simp [cmpIntList]
  | _ :: _, [] => by simp [cmpIntList]
  | a :: as, b :: bs => by
      rw [cmpIntList]
      by_cases h : cmpInt a b = 0
      · have hab := cmpInt_eq_zero.mp h
        simp [hab, cmpInt_eq_zero, cmpIntList_eq_zero]
      · have hab : ¬a = b := fun hh => h (cmpInt_eq_zero.mpr hh)
        simp [h, hab]

theorem cmpIntList_swap : ∀ (l m : List Int), cmpIntList m l = -cmpIntList l m
  | [], [] => by simp [cmpIntList]
  | [], _ :: _ => by simp [cmpIntList]
  | _ :: _, [] => by simp [cmpIntList]
  | a :: as, b :: bs => by
      rw [cmpIntList, cmpIntList]
      by_cases h : cmpInt a b = 0
      · have h' : cmpInt b a = 0 := by rw [cmpInt_swap, h]; norm_num
        simp [h, h', cmpIntList_swap as bs]
      · have h' : ¬cmpInt b a = 0 := by
          rw [cmpInt_swap, neg_eq_zero]; exact h
        simp [h, h', cmpInt_swap a b]

theorem cmpIntList_trans :
    ∀ {l m n : List Int}, cmpIntList l m = -1 → cmpIntList m n = -1 →
      cmpIntList l n = -1
  | [], [], _ => by simp [cmpIntList]
  | [], _ :: _, [] => by simp [cmpIntList]
  | [], _ :: _, _ :: _ => by simp [cmpIntList]
  | _ :: _, [], _ => by simp [cmpIntList]
  | _ :: _, _ :: _, [] => by simp [cmpIntList]
  | a :: as, b :: bs, c :: cs => by
      intro h1 h2
      rw [cmpIntList] at h1 h2 ⊢
      by_cases hab : cmpInt a b = 0
      · rw [if_pos hab] at h1
        have hab' := cmpInt_eq_zero.mp hab
        by_cases hbc : cmpInt b c = 0
        · rw [if_pos hbc] at h2
          have hbc' := cmpInt_eq_zero.mp hbc
          rw [if_pos (cmpInt_eq_zero.mpr (hab'.trans hbc'))]
          exact cmpIntList_trans h1 h2
        · rw [if_neg hbc] at h2
          have : cmpInt a c = -1 := by rw [hab']; exact h2
          simp [this]
      · rw [if_neg hab] at h1
        by_cases hbc : cmpInt b c = 0
        · have hbc' := cmpInt_eq_zero.mp hbc
          have : cmpInt a c = -1 := by rw [← hbc']; exact h1
          simp [this]
        · rw [if_neg hbc] at h2
          have : cmpInt a c = -1 :=
            cmpInt_eq_neg.mpr ((cmpInt_eq_neg.mp h1).trans (cmpInt_eq_neg.mp h2))
          simp [this]

theorem sort_inj_iff {s t : Finset Int} :
    s.sort (· ≤ ·) = t.sort (· ≤ ·) ↔ s = t := by
  constructor
  · intro h
    ext a
    rw [← Finset.mem_sort (α := Int) (· ≤ ·), h, Finset.mem_sort]
  · intro h; rw [h]

theorem kindOf_erase (x : Exp) : (erase x).kindOf = x.kindOf := by
  cases x <;> simp [erase, Exp.kindOf]

theorem compare_of_kind_lt {x y : Exp} (h : x.kindOf < y.kindOf) : Compare x y = -1 := by
  rw [Compare.eq_def]
  simp [h]

theorem compare_of_kind_gt {x y : Exp} (h : y.kindOf < x.kindOf) : Compare x y = 1 := by
  rw [Compare.eq_def]
  simp [h, Nat.lt_asymm h]

theorem compare_neg_kind_le {x y : Exp} (h : Compare x y = -1) : x.kindOf ≤ y.kindOf := by
  by_contra hc
  rw [compare_of_kind_gt (Nat.lt_of_not_le hc)] at h
  exact absurd h (by norm_num)

theorem compare_zero_kind_eq {x y : Exp} (h : Compare x y = 0) : x.kindOf = y.kindOf := by
  rcases Nat.lt_trichotomy x.kindOf y.kindOf with hk | hk | hk
  · rw [compare_of_kind_lt hk] at h; exact absurd h (by norm_num)
  · exact hk
  · rw [compare_of_kind_gt hk] at h; exact absurd h (by norm_num)

theorem compareList_erase {xs : List Exp}
    (ih : ∀ x ∈ xs, ∀ y, Compare (erase x) (erase y) = Compare x y) :
    ∀ ys, CompareList (eraseList xs) (eraseList ys) = CompareList xs ys := by
  induction xs with
  | nil => intro ys; cases ys <;> simp [eraseList, CompareList]
  | cons x xs ihl =>
      intro ys
      cases ys with
      | nil => simp [eraseList, CompareList]
      | cons y ys =>
          simp only [eraseList, CompareList]
          rw [ih x (List.mem_cons_self _ _) y,
            ihl (fun z hz => ih z (List.mem_cons_of_mem _ hz)) ys]

/-- `Compare` never reads the `norm` flags: comparing the flag-erased
expressions yields the same result. -/
theorem compare_erase : ∀ (x y : Exp), Compare (erase x) (erase y) = Compare x y := by
  intro x
  induction x using expInd with
  | hes => intro y; cases y <;> simp [Compare, erase, Exp.kindOf]
  | hee => intro y; cases y <;> simp [Compare, erase, Exp.kindOf]
  | hac => intro y; cases y <;> simp [Compare, erase, Exp.kindOf]
  | hch c => intro y; cases y <;> simp [Compare, erase, Exp.kindOf]
  | hcc s f => intro y; cases y <;> simp [Compare, erase, Exp.kindOf]
  | hkl x f ih => intro y; cases y <;> simp [Compare, erase, Exp.kindOf, ih]
  | hcat h t f ih1 ih2 => intro y; cases y <;> simp [Compare, erase, Exp.kindOf, ih1, ih2]
  | hcmp x f ih => intro y; cases y <;> simp [Compare, erase, Exp.kindOf, ih]
  | hconj xs f ih =>
      intro y
      cases y <;> simp [Compare, erase, Exp.kindOf, compareList_erase ih]
  | hdisj xs f ih =>
      intro y
      cases y <;> simp [Compare, erase, Exp.kindOf, compareList_erase ih]

theorem compareList_refl {xs : List Exp}
    (ih : ∀ x ∈ xs, Compare x x = 0) : CompareList xs xs = 0 := by
  induction xs with
  | nil => simp [CompareList]
  | cons x xs ihl =>
      simp only [CompareList]
      rw [if_pos (ih x (List.mem_cons_self _ _))]
      exact ihl fun z hz => ih z (List.mem_cons_of_mem _ hz)

theorem compare_refl : ∀ x : Exp, Compare x x = 0 := by
  intro x
  induction x using expInd with
  | hes => simp [Compare, Exp.kindOf]
  | hee => simp [Compare, Exp.kindOf]
  | hac => simp [Compare, Exp.kindOf]
  | hch c => simp [Compare, Exp.kindOf, cmpInt_eq_zero]
  | hcc s f => simp [Compare, Exp.kindOf, cmpIntList_eq_zero]
  | hkl x f ih => simp [Compare, Exp.kindOf, ih]
  | hcat h t f ih1 ih2 => simp [Compare, Exp.kindOf, ih1, ih2]
  | hcmp x f ih => simp [Compare, Exp.kindOf, ih]
  | hconj xs f ih => simp [Compare, Exp.kindOf, compareList_refl ih]
  | hdisj xs f ih => simp [Compare, Exp.kindOf, compareList_refl ih]

theorem compareList_eq_zero {xs : List Exp}
    (ih : ∀ x ∈ xs, ∀ y, Compare x y = 0 ↔ erase x = erase y) :
    ∀ ys, CompareList xs ys = 0 ↔ eraseList xs = eraseList ys := by
  induction xs with
  | nil => intro ys; cases ys <;> simp [CompareList, eraseList]
  | cons x xs ihl =>
      intro ys
      cases ys with
      | nil => simp [CompareList, eraseList]
      | cons y ys =>
          simp only [CompareList, eraseList]
          by_cases h : Compare x y = 0
          · have hxy := (ih x (List.mem_cons_self _ _) y).mp h
            simp [h, hxy, ihl (fun z hz => ih z (List.mem_cons_of_mem _ hz)) ys]
          · have hxy : ¬erase x = erase y :=
              fun hh => h ((ih x (List.mem_cons_self _ _) y).mpr hh)
            simp [h, hxy]

/-- `Compare` defines structural equality up to `norm` flags. -/
theorem compare_eq_zero : ∀ (x y : Exp), Compare x y = 0 ↔ erase x = erase y := by
  intro x
  induction x using expInd with
  | hes => intro y; cases y <;> simp [Compare, erase, Exp.kindOf]
  | hee => intro y; cases y <;> simp [Compare, erase, Exp.kindOf]
  | hac => intro y; cases y <;> simp [Compare, erase, Exp.kindOf]
  | hch c => intro y; cases y <;> simp [Compare, erase, Exp.kindOf, cmpInt_eq_zero]
  | hcc s f =>
      intro y
      cases y <;> simp [Compare, erase, Exp.kindOf, cmpIntList_eq_zero, sort_inj_iff]
  | hkl x f ih => intro y; cases y <;> simp [Compare, erase, Exp.kindOf, ih]
  | hcat a b f ih1 ih2 =>
      intro y
      cases y with
      | concatenation a' b' f' =>
          simp only [Compare, erase, Exp.kindOf, lt_self_iff_false, if_false,
            Exp.concatenation.injEq, and_true]
          by_cases h : Compare a a' = 0
          · have := (ih1 a').mp h
            simp [h, this, ih2 b']
          · have hne : ¬erase a = erase a' := fun hh => h ((ih1 a').mpr hh)
            simp [h, hne]
      | emptySet => simp [Compare, erase, Exp.kindOf]
      | emptyString => simp [Compare, erase, Exp.kindOf]
      | anyCharacter => simp [Compare, erase, Exp.kindOf]
      | character c => simp [Compare, erase, Exp.kindOf]
      | characterClass s g => simp [Compare, erase, Exp.kindOf]
      | kleeneClosure z g => simp [Compare, erase, Exp.kindOf]
      | complement z g => simp [Compare, erase, Exp.kindOf]
      | conjunction zs g => simp [Compare, erase, Exp.kindOf]
      | disjunction zs g => simp [Compare, erase, Exp.kindOf]
  | hcmp x f ih => intro y; cases y <;> simp [Compare, erase, Exp.kindOf, ih]
  | hconj xs f ih =>
      intro y
      cases y <;> simp [Compare, erase, Exp.kindOf, compareList_eq_zero ih]
  | hdisj xs f ih =>
      intro y
      cases y <;> simp [Compare, erase, Exp.kindOf, compareList_eq_zero ih]

theorem compareList_swap {xs : List Exp}
    (ih : ∀ x ∈ xs, ∀ y, Compare y x = -Compare x y) :
    ∀ ys, CompareList ys xs = -CompareList xs ys := by
  induction xs with
  | nil => intro ys; cases ys <;> simp [CompareList]
  | cons x xs ihl =>
      intro ys
      cases ys with
      | nil => simp [CompareList]
      | cons y ys =>
          simp only [CompareList]
          rw [ih x (List.mem_cons_self _ _) y]
          by_cases h : Compare x y = 0
          · simp [h, ihl (fun z hz => ih z (List.mem_cons_of_mem _ hz)) ys]
          · have h' : ¬(-Compare x y = 0) := by
              rw [neg_eq_zero]; exact h
            simp [h, h']

theorem compare_swap : ∀ (x y : Exp), Compare y x = -Compare x y := by
  intro x
  induction x using expInd with
  | hes => intro y; cases y <;> simp [Compare, Exp.kindOf]
  | hee => intro y; cases y <;> simp [Compare, Exp.kindOf]
  | hac => intro y; cases y <;> simp [Compare, Exp.kindOf]
  | hch c =>
      intro y
      cases y <;> simp [Compare, Exp.kindOf]
      exact cmpInt_swap c _
  | hcc s f =>
      intro y
      cases y <;> simp [Compare, Exp.kindOf]
      exact cmpIntList_swap _ _
  | hkl x f ih => intro y; cases y <;> simp [Compare, Exp.kindOf, ih]
  | hcat a b f ih1 ih2 =>
      intro y
      cases y with
      | concatenation a' b' f' =>
          simp only [Compare, Exp.kindOf, lt_self_iff_false, if_false]
          rw [ih1 a', ih2 b']
          by_cases h : Compare a a' = 0
          · simp [h]
          · have h' : ¬(-Compare a a' = 0) := by
              rw [neg_eq_zero]; exact h
            simp [h, h']
      | emptySet => simp [Compare, Exp.kindOf]
      | emptyString => simp [Compare, Exp.kindOf]
      | anyCharacter => simp [Compare, Exp.kindOf]
      | character c => simp [Compare, Exp.kindOf]
      | characterClass s g => simp [Compare, Exp.kindOf]
      | kleeneClosure z g => simp [Compare, Exp.kindOf]
      | complement z g => simp [Compare, Exp.kindOf]
      | conjunction zs g => simp [Compare, Exp.kindOf]
      | disjunction zs g => simp [Compare, Exp.kindOf]
  | hcmp x f ih => intro y; cases y <;> simp [Compare, Exp.kindOf, ih]
  | hconj xs f ih =>
      intro y
      cases y <;> simp [Compare, Exp.kindOf, compareList_swap ih]
  | hdisj xs f ih =>
      intro y
      cases y <;> simp [Compare, Exp.kindOf, compareList_swap ih]

theorem compare_zero_congr_left {x y : Exp} (h : Compare x y = 0) (z : Exp) :
    Compare x z = Compare y z := by
  have he := (compare_eq_zero x y).mp h
  rw [← compare_erase x z, ← compare_erase y z, he]

theorem compare_zero_congr_right {y z : Exp} (h : Compare y z = 0) (x : Exp) :
    Compare x y = Compare x z := by
  have he := (compare_eq_zero y z).mp h
  rw [← compare_erase x y, ← compare_erase x z, he]

theorem compareList_trans {xs : List Exp}
    (ih : ∀ x ∈ xs, ∀ y z, Compare x y = -1 → Compare y z = -1 → Compare x z = -1) :
    ∀ ys zs, CompareList xs ys = -1 → CompareList ys zs = -1 →
      CompareList xs zs = -1 := by
  induction xs with
  | nil =>
      intro ys zs h1 h2
      cases ys with
      | nil => simp [CompareList] at h1
      | cons y ys =>
          cases zs with
          | nil => simp [CompareList] at h2
          | cons z zs => simp [CompareList]
  | cons x xs ihl =>
      intro ys zs h1 h2
      cases ys with
      | nil => simp [CompareList] at h1
      | cons y ys =>
          cases zs with
          | nil => simp [CompareList] at h2
          | cons z zs =>
              simp only [CompareList] at h1 h2 ⊢
              by_cases hxy : Compare x y = 0
              · rw [if_pos hxy] at h1
                by_cases hyz : Compare y z = 0
                · rw [if_pos hyz] at h2
                  have hxz : Compare x z = 0 := by
                    rw [compare_zero_congr_left hxy]; exact hyz
                  rw [if_pos hxz]
                  exact ihl (fun w hw => ih w (List.mem_cons_of_mem _ hw)) ys zs h1 h2
                · rw [if_neg hyz] at h2
                  have hxz : Compare x z = -1 := by
                    rw [compare_zero_congr_left hxy]; exact h2
                  simp [hxz]
              · rw [if_neg hxy] at h1
                by_cases hyz : Compare y z = 0
                · have hxz : Compare x z = -1 := by
                    rw [← compare_zero_congr_right hyz]; exact h1
                  simp [hxz]
                · rw [if_neg hyz] at h2
                  have hxz := ih x (List.mem_cons_self _ _) y z h1 h2
                  simp [hxz]

theorem compare_trans_skeleton {x y z : Exp}
    (hsame : x.kindOf = y.kindOf → y.kindOf = z.kindOf → Compare x z = -1)
    (h1 : Compare x y = -1) (h2 : Compare y z = -1) : Compare x z = -1 := by
  have hxy := compare_neg_kind_le h1
  have hyz := compare_neg_kind_le h2
  rcases Nat.lt_or_ge x.kindOf y.kindOf with hk1 | hk1
  · exact compare_of_kind_lt (Nat.lt_of_lt_of_le hk1 hyz)
  · have e1 : x.kindOf = y.kindOf := Nat.le_antisymm hxy hk1
    rcases Nat.lt_or_ge y.kindOf z.kindOf with hk2 | hk2
    · exact compare_of_kind_lt (by rw [e1]; exact hk2)
    · exact hsame e1 (Nat.le_antisymm hyz hk2)

/-- Strict transitivity of the total order `Compare`. -/
theorem compare_trans :
    ∀ (x y z : Exp), Compare x y = -1 → Compare y z = -1 → Compare x z = -1 := by
  intro x
  induction x using expInd with
  | hes =>
      intro y z h1 h2
      refine compare_trans_skeleton (fun e1 e2 => ?_) h1 h2
      cases y <;> simp [Exp.kindOf] at e1
      simp [Compare, Exp.kindOf] at h1
  | hee =>
      intro y z h1 h2
      refine compare_trans_skeleton (fun e1 e2 => ?_) h1 h2
      cases y <;> simp [Exp.kindOf] at e1
      simp [Compare, Exp.kindOf] at h1
  | hac =>
      intro y z h1 h2
      refine compare_trans_skeleton (fun e1 e2 => ?_) h1 h2
      cases y <;> simp [Exp.kindOf] at e1
      simp [Compare, Exp.kindOf] at h1
  | hch c =>
      intro y z h1 h2
      refine compare_trans_skeleton (fun e1 e2 => ?_) h1 h2
      cases y <;> simp [Exp.kindOf] at e1
      case character b =>
        cases z <;> simp [Exp.kindOf] at e2
        case character d =>
          simp only [Compare, Exp.kindOf, lt_self_iff_false, if_false] at h1 h2 ⊢
          rw [cmpInt_eq_neg] at h1 h2 ⊢
          omega
  | hcc s f =>
      intro y z h1 h2
      refine compare_trans_skeleton (fun e1 e2 => ?_) h1 h2
      cases y <;> simp [Exp.kindOf] at e1
      case characterClass t g =>
        cases z <;> simp [Exp.kindOf] at e2
        case characterClass u g' =>
          simp only [Compare, Exp.kindOf, lt_self_iff_false, if_false] at h1 h2 ⊢
          exact cmpIntList_trans h1 h2
  | hkl a f ih =>
      intro y z h1 h2
      refine compare_trans_skeleton (fun e1 e2 => ?_) h1 h2
      cases y <;> simp [Exp.kindOf] at e1
      case kleeneClosure b g =>
        cases z <;> simp [Exp.kindOf] at e2
        case kleeneClosure c g' =>
          simp only [Compare, Exp.kindOf, lt_self_iff_false, if_false] at h1 h2 ⊢
          exact ih b c h1 h2
  | hcat a b f ih1 ih2 =>
      intro y z h1 h2
      refine compare_trans_skeleton (fun e1 e2 => ?_) h1 h2
      cases y <;> simp [Exp.kindOf] at e1
      case concatenation a' b' g =>
        cases z <;> simp [Exp.kindOf] at e2
        case concatenation a'' b'' g' =>
          simp only [Compare, Exp.kindOf, lt_self_iff_false, if_false] at h1 h2 ⊢
          by_cases haa : Compare a a' = 0
          · rw [if_pos haa] at h1
            by_cases haa2 : Compare a' a'' = 0
            · rw [if_pos haa2] at h2
              have hz : Compare a a'' = 0 := by
                rw [compare_zero_congr_left haa]; exact haa2
              rw [if_pos hz]
              exact ih2 b' b'' h1 h2
            · rw [if_neg haa2] at h2
              have hz : Compare a a'' = -1 := by
                rw [compare_zero_congr_left haa]; exact h2
              simp [hz]
          · rw [if_neg haa] at h1
            by_cases haa2 : Compare a' a'' = 0
            · have hz : Compare a a'' = -1 := by
                rw [← compare_zero_congr_right haa2]; exact h1
              simp [hz]
            · rw [if_neg haa2] at h2
              have hz := ih1 a' a'' h1 h2
              simp [hz]
  | hcmp a f ih =>
      intro y z h1 h2
      refine compare_trans_skeleton (fun e1 e2 => ?_) h1 h2
      cases y <;> simp [Exp.kindOf] at e1
      case complement b g =>
        cases z <;> simp [Exp.kindOf] at e2
        case complement c g' =>
          simp only [Compare, Exp.kindOf, lt_self_iff_false, if_false] at h1 h2 ⊢
          exact ih b c h1 h2
  | hconj xs f ih =>
      intro y z h1 h2
      refine compare_trans_skeleton (fun e1 e2 => ?_) h1 h2
      cases y <;> simp [Exp.kindOf] at e1
      case conjunction ys g =>
        cases z <;> simp [Exp.kindOf] at e2
        case conjunction zs g' =>
          simp only [Compare, Exp.kindOf, lt_self_iff_false, if_false] at h1 h2 ⊢
          exact compareList_trans ih ys zs h1 h2
  | hdisj xs f ih =>
      intro y z h1 h2
      refine compare_trans_skeleton (fun e1 e2 => ?_) h1 h2
      cases y <;> simp [Exp.kindOf] at e1
      case disjunction ys g =>
        cases z <;> simp [Exp.kindOf] at e2
        case disjunction zs g' =>
          simp only [Compare, Exp.kindOf, lt_self_iff_false, if_false] at h1 h2 ⊢
          exact compareList_trans ih ys zs h1 h2

/-- C9: `Compare` is a strict weak order defining structural equality,
and the `norm` flag does not participate: `Compare` is reflexive-zero,
its strict part is transitive, it is antisymmetric under swap, and it
returns 0 exactly on expressions that are structurally identical except
for their `norm` flags (equal after erasing the flags) — so a
normalised expression and its un-normalised twin are equal as container
keys. -/
theorem claim_C9 :
    (∀ x : Exp, Compare x x = 0) ∧
    (∀ x y z : Exp, Compare x y = -1 → Compare y z = -1 → Compare x z = -1) ∧
    (∀ x y : Exp, Compare y x = -Compare x y) ∧
    (∀ x y : Exp, Compare x y = 0 ↔ erase x = erase y) :=
  ⟨compare_refl, compare_trans, compare_swap, compare_eq_zero⟩

/-- Witness for C9 at concrete inputs: a strict chain of characters and
a normalised/un-normalised twin pair. -/
theorem claim_C9_witness :
    Compare (Character 97) (Character 97) = 0 ∧
    Compare (Character 97) (Character 99) = -1 ∧
    Compare (Character 98) (Character 97) = -Compare (Character 97) (Character 98) ∧
    Compare (Exp.kleeneClosure (Character 97) true) (Exp.kleeneClosure (Character 97) false) = 0 :=
  ⟨claim_C9.1 _,
   claim_C9.2.1 (Character 97) (Character 98) (Character 99) (by decide) (by decide),
   claim_C9.2.2.1 _ _,
   (claim_C9.2.2.2 _ _).mpr rfl⟩

theorem concatFactors_canon {x : Exp} (h : concatCanon x = true) :
    ∀ y ∈ concatFactors x, concatCanon y = true :=
  concatFactors_pred concatCanon
    (by
      intro a b f hp
      simp only [concatCanon, Bool.and_eq_true] at hp
      exact ⟨hp.1.2, hp.2⟩) h

theorem conjFactors_canon {x : Exp} (h : concatCanon x = true) :
    ∀ y ∈ conjFactors x, concatCanon y = true := by
  cases x <;> simp [conjFactors] <;> try simpa using h
  case conjunction xs f =>
    simp [concatCanon] at h
    exact concatCanonList_iff.mp h

theorem disjFactors_canon {x : Exp} (h : concatCanon x = true) :
    ∀ y ∈ disjFactors x, concatCanon y = true := by
  cases x <;> simp [disjFactors] <;> try simpa using h
  case disjunction xs f =>
    simp [concatCanon] at h
    exact concatCanonList_iff.mp h

theorem flattenConj_canon {l : List Exp} (h : ∀ x ∈ l, concatCanon x = true) :
    ∀ y ∈ flattenConj l, concatCanon y = true := by
  induction l with
  | nil => simp [flattenConj]
  | cons x xs ih =>
      intro y hy
      rw [flattenConj] at hy
      rcases List.mem_append.mp hy with h' | h'
      · exact conjFactors_canon (h x (List.mem_cons_self _ _)) y h'
      · exact ih (fun z hz => h z (List.mem_cons_of_mem _ hz)) y h'

theorem flattenDisj_canon {l : List Exp} (h : ∀ x ∈ l, concatCanon x = true) :
    ∀ y ∈ flattenDisj l, concatCanon y = true := by
  induction l with
  | nil => simp [flattenDisj]
  | cons x xs ih =>
      intro y hy
      rw [flattenDisj] at hy
      rcases List.mem_append.mp hy with h' | h'
      · exact disjFactors_canon (h x (List.mem_cons_self _ _)) y h'
      · exact ih (fun z hz => h z (List.mem_cons_of_mem _ hz)) y h'

theorem buildConcat_canon :
    ∀ {ys : List Exp} {x : Exp}, isConcat x = false → concatCanon x = true →
      (∀ y ∈ ys, isConcat y = false ∧ concatCanon y = true) →
      concatCanon (buildConcat x ys) = true := by
  intro ys
  induction ys with
  | nil => intro x _ hx _; simpa [buildConcat]
  | cons y ys ih =>
      intro x hnc hx hys
      rw [buildConcat]
      have h2 := ih (hys y (List.mem_cons_self _ _)).1 (hys y (List.mem_cons_self _ _)).2
        fun z hz => hys z (List.mem_cons_of_mem _ hz)
      simp [concatCanon, hnc, hx, h2]

theorem mkConcatList_canon {fs : List Exp}
    (h : ∀ y ∈ fs, isConcat y = false ∧ concatCanon y = true) :
    concatCanon (mkConcatList fs) = true := by
  rw [mkConcatList]
  split
  · simp [concatCanon]
  · split
    · simp [concatCanon]
    · next x xs heq =>
        have hsub : ∀ y ∈ x :: xs, isConcat y = false ∧ concatCanon y = true := by
          intro y hy
          rw [← heq] at hy
          exact h y (List.mem_filter.mp hy).1
        exact buildConcat_canon (hsub x (List.mem_cons_self _ _)).1
          (hsub x (List.mem_cons_self _ _)).2
          fun z hz => hsub z (List.mem_cons_of_mem _ hz)

theorem mkConcat_canon {a b : Exp} (ha : concatCanon a = true) (hb : concatCanon b = true) :
    concatCanon (mkConcat a b) = true := by
  rw [mkConcat]
  refine mkConcatList_canon ?_
  intro y hy
  rcases List.mem_append.mp hy with h' | h'
  · exact ⟨concatFactors_not_concat y h', concatFactors_canon ha y h'⟩
  · exact ⟨concatFactors_not_concat y h', concatFactors_canon hb y h'⟩

theorem mkCharClass_canon (s : Finset Int) : concatCanon (mkCharClass s) = true := by
  rw [mkCharClass]
  rcases h : s.sort (· ≤ ·) with _ | ⟨c, _ | ⟨d, l⟩⟩ <;> simp [concatCanon]

theorem mkKleene_canon {x : Exp} (h : concatCanon x = true) :
    concatCanon (mkKleene x) = true := by
  cases x <;> simp_all [mkKleene, concatCanon]
  case complement y f =>
    cases y <;> simp_all [mkKleene, concatCanon]

theorem mkComplement_canon {x : Exp} (h : concatCanon x = true) :
    concatCanon (mkComplement x) = true := by
  cases x <;> simp_all [mkComplement, concatCanon]

theorem conjIdent_canon {l : List Exp} (h : ∀ x ∈ l, concatCanon x = true) :
    concatCanon (conjIdent l) = true := by
  rw [conjIdent]
  split
  · simp [concatCanon]
  · split
    · simp [concatCanon]
    · split
      · simp [concatCanon]
      · next x heq =>
          have hx : x ∈ l.filter fun z => !isSigmaStar z := by
            rw [heq]; exact List.mem_cons_self _ _
          exact h x (List.mem_filter.mp hx).1
      · next x y rest heq =>
          have hsub : ∀ z ∈ x :: y :: rest, concatCanon z = true := by
            intro z hz
            rw [← heq] at hz
            exact h z (List.mem_filter.mp hz).1
          simp only [concatCanon]
          exact concatCanonList_iff.mpr hsub

theorem disjIdent_canon {l : List Exp} (h : ∀ x ∈ l, concatCanon x = true) :
    concatCanon (disjIdent l) = true := by
  rw [disjIdent]
  split
  · simp [concatCanon]
  · split
    · simp [concatCanon]
    · split
      · simp [concatCanon]
      · next x heq =>
          have hx : x ∈ l.filter fun z => !isEmptySet z := by
            rw [heq]; exact List.mem_cons_self _ _
          exact h x (List.mem_filter.mp hx).1
      · next x y rest heq =>
          have hsub : ∀ z ∈ x :: y :: rest, concatCanon z = true := by
            intro z hz
            rw [← heq] at hz
            exact h z (List.mem_filter.mp hz).1
          simp only [concatCanon]
          exact concatCanonList_iff.mpr hsub

theorem mkConj_canon {xs : List Exp} (h : ∀ x ∈ xs, concatCanon x = true) :
    concatCanon (mkConj xs) = true := by
  rw [mkConj]
  refine conjIdent_canon ?_
  intro x hx
  exact flattenConj_canon h x (mem_sortExps.mp (dedupAdj_subset hx))

theorem mkDisj_canon {xs : List Exp} (h : ∀ x ∈ xs, concatCanon x = true) :
    concatCanon (mkDisj xs) = true := by
  rw [mkDisj]
  refine disjIdent_canon ?_
  intro x hx
  exact flattenDisj_canon h x (mem_sortExps.mp (dedupAdj_subset hx))

/-- C8 (amended): on builder-produced expressions (all `norm` flags
unset), the output of `Normalised` satisfies the right-association
invariant: no `Concatenation` subexpression has a `Concatenation` as
its head (first child); the tail may be a `Concatenation`, forming the
right spine. -/
theorem claim_C8_amended :
    ∀ e, normFree e = true → concatCanon (Normalised e) = true := by
  intro e
  induction e using expInd with
  | hes => intro _; simp [Normalised, concatCanon]
  | hee => intro _; simp [Normalised, concatCanon]
  | hac => intro _; simp [Normalised, concatCanon]
  | hch c => intro _; simp [Normalised, concatCanon]
  | hcc s f =>
      intro h
      simp [normFree] at h
      simp [Normalised, h, mkCharClass_canon]
  | hkl x f ih =>
      intro h
      simp [normFree] at h
      simp only [Normalised, h.1, if_false, Bool.false_eq_true]
      exact mkKleene_canon (ih h.2)
  | hcat a b f ih1 ih2 =>
      intro h
      simp [normFree] at h
      obtain ⟨⟨hf, ha⟩, hb⟩ := h
      simp only [Normalised, hf, if_false, Bool.false_eq_true]
      exact mkConcat_canon (ih1 ha) (ih2 hb)
  | hcmp x f ih =>
      intro h
      simp [normFree] at h
      simp only [Normalised, h.1, if_false, Bool.false_eq_true]
      exact mkComplement_canon (ih h.2)
  | hconj xs f ih =>
      intro h
      simp [normFree] at h
      simp only [Normalised, h.1, if_false, Bool.false_eq_true]
      refine mkConj_canon ?_
      rw [normList_eq]
      intro x hx
      rcases List.mem_map.mp hx with ⟨y, hy, rfl⟩
      exact ih y hy (normFreeList_iff.mp h.2 y hy)
  | hdisj xs f ih =>
      intro h
      simp [normFree] at h
      simp only [Normalised, h.1, if_false, Bool.false_eq_true]
      refine mkDisj_canon ?_
      rw [normList_eq]
      intro x hx
      rcases List.mem_map.mp hx with ⟨y, hy, rfl⟩
      exact ih y hy (normFreeList_iff.mp h.2 y hy)

/-- C8 counterexample: for the builder expression
`Concatenation(Character a, Concatenation(Character b, Character c))`
(well-formed, all `norm` flags unset), the normalised result is the
right spine `a·(b·c)` whose tail — an immediate child — is itself a
`Concatenation`, refuting "no immediate child is itself a
Concatenation". -/
theorem claim_C8_counterexample :
    normFree (ConcatenationN (Character 97) (Character 98) [Character 99]) = true ∧
    wf (ConcatenationN (Character 97) (Character 98) [Character 99]) = true ∧
    Normalised (ConcatenationN (Character 97) (Character 98) [Character 99]) =
      Exp.concatenation (Character 97)
        (Exp.concatenation (Character 98) (Character 99) true) true ∧
    isConcat ((Normalised (ConcatenationN (Character 97) (Character 98) [Character 99])).tail)
      = true :=
  ⟨rfl, rfl, rfl, rfl⟩

/-- Witness for the amended C8 at a concrete input. -/
theorem claim_C8_witness :
    normFree (ConcatenationN (Character 97) (Character 98) [Character 99]) = true ∧
    concatCanon (Normalised (ConcatenationN (Character 97) (Character 98) [Character 99]))
      = true :=
  ⟨by decide, claim_C8_amended _ (by decide)⟩

/-- The Kleene closure of a language over rune strings. -/
inductive Star (l : List Int → Prop) : List Int → Prop where
  | nil : Star l []
  | app (u v : List Int) : l u → Star l v → Star l (u ++ v)

mutual

/-- The regular language denoted by an expression: the reference
semantics of the algebra (spec §3 and the glossary), against which the
engine's operations are verified.  `AnyCharacter` matches any single
rune of the alphabet (runes are modelled as `Int`). -/
def LangOf : Exp → List Int → Prop
  | .emptySet, _ => False
  | .emptyString, w => w = []
  | .anyCharacter, w => ∃ a : Int, w = [a]
  | .character c, w => w = [c]
  | .characterClass s _, w => ∃ a ∈ s, w = [a]
  | .kleeneClosure x _, w => Star (fun u => LangOf x u) w
  | .concatenation h t _, w => ∃ u v, w = u ++ v ∧ LangOf h u ∧ LangOf t v
  | .complement x _, w => ¬LangOf x w
  | .conjunction xs _, w => AllLang xs w
  | .disjunction xs _, w => AnyLang xs w

/-- Simultaneous membership in the languages of all list elements. -/
def AllLang : List Exp → List Int → Prop
  | [], _ => True
  | x :: xs, w => LangOf x w ∧ AllLang xs w

/-- Membership in the language of some list element. -/
def AnyLang : List Exp → List Int → Prop
  | [], _ => False
  | x :: xs, w => LangOf x w ∨ AnyLang xs w

end

theorem allLang_iff {xs : List Exp} {w : List Int} :
    AllLang xs w ↔ ∀ x ∈ xs, LangOf x w := by
  induction xs with
  | nil => simp [AllLang]
  | cons x xs ih => simp [AllLang, ih]

theorem anyLang_iff {xs : List Exp} {w : List Int} :
    AnyLang xs w ↔ ∃ x ∈ xs, LangOf x w := by
  induction xs with
  | nil => simp [AnyLang]
  | cons x xs ih => simp [AnyLang, ih]

theorem star_mono {l l' : List Int → Prop} (h : ∀ u, l u → l' u) :
    ∀ {w}, Star l w → Star l' w := by
  intro w hw
  induction hw with
  | nil => exact .nil
  | app u v hu _ ih => exact .app u v (h u hu) ih

theorem star_congr {l l' : List Int → Prop} (h : ∀ u, l u ↔ l' u) (w : List Int) :
    Star l w ↔ Star l' w :=
  ⟨star_mono fun u => (h u).mp, star_mono fun u => (h u).mpr⟩

theorem star_single {l : List Int → Prop} {w : List Int} (h : l w) : Star l w := by
  have := Star.app w [] h Star.nil
  simpa using this

theorem star_append {l : List Int → Prop} :
    ∀ {u v : List Int}, Star l u → Star l v → Star l (u ++ v) := by
  intro u v hu hv
  induction hu with
  | nil => simpa using hv
  | app p q hp _ ih =>
      have := Star.app p (q ++ v) hp ih
      simpa using this

theorem star_cons {l : List Int → Prop} {a : Int} {w : List Int} :
    Star l (a :: w) ↔ ∃ u v, w = u ++ v ∧ l (a :: u) ∧ Star l v := by
  constructor
  · intro h
    have key : ∀ s, Star l s → ∀ w', s = a :: w' →
        ∃ u v, w' = u ++ v ∧ l (a :: u) ∧ Star l v := by
      intro s hs
      induction hs with
      | nil => intro w' he; cases he
      | app u v hu hv ih =>
          intro w' he
          cases u with
          | nil =>
              simp at he
              exact ih w' he
          | cons b u' =>
              rw [List.cons_append] at he
              injection he with hb ht
              subst hb
              exact ⟨u', v, ht.symm, hu, hv⟩
    exact key _ h w rfl
  · rintro ⟨u, v, rfl, hu, hv⟩
    exact Star.app (a :: u) v hu hv

theorem star_false {w : List Int} : Star (fun _ => False) w ↔ w = [] := by
  constructor
  · intro h
    cases h with
    | nil => rfl
    | app u v hu _ => exact absurd hu (by simp)
  · rintro rfl; exact .nil

theorem star_epsilon {w : List Int} : Star (fun u => u = []) w ↔ w = [] := by
  constructor
  · intro h
    induction h with
    | nil => rfl
    | app u v hu _ ih => simp [hu, ih]
  · rintro rfl; exact .nil

theorem star_star {l : List Int → Prop} (w : List Int) :
    Star (fun u => Star l u) w ↔ Star l w := by
  constructor
  · intro h
    induction h with
    | nil => exact .nil
    | app u v hu _ ih => exact star_append hu ih
  · exact fun h => star_single h

theorem isEmptySet_eq {x : Exp} : isEmptySet x = true ↔ x = .emptySet := by
  cases x <;> simp [isEmptySet]

theorem isEmptyString_eq {x : Exp} : isEmptyString x = true ↔ x = .emptyString := by
  cases x <;> simp [isEmptyString]

theorem isSigmaStar_eq {x : Exp} :
    isSigmaStar x = true ↔ ∃ f, x = .complement .emptySet f := by
  cases x <;> simp [isSigmaStar]
  case complement y f => cases y <;> simp

theorem isSigmaStar_lang {x : Exp} (h : isSigmaStar x = true) (w : List Int) :
    LangOf x w := by
  rcases isSigmaStar_eq.mp h with ⟨f, rfl⟩
  simp [LangOf]

/-- The language ignores the `norm` flags. -/
theorem langOf_erase : ∀ (x : Exp) (w : List Int), LangOf (erase x) w ↔ LangOf x w := by
  intro x
  induction x using expInd with
  | hes => intro w; simp [LangOf, erase]
  | hee => intro w; simp [LangOf, erase]
  | hac => intro w; simp [LangOf, erase]
  | hch c => intro w; simp [LangOf, erase]
  | hcc s f => intro w; simp [LangOf, erase]
  | hkl x f ih =>
      intro w
      simp only [LangOf, erase]
      exact star_congr (fun u => ih u) w
  | hcat a b f ih1 ih2 =>
      intro w
      simp only [LangOf, erase]
      constructor
      · rintro ⟨u, v, rfl, h1, h2⟩
        exact ⟨u, v, rfl, (ih1 u).mp h1, (ih2 v).mp h2⟩
      · rintro ⟨u, v, rfl, h1, h2⟩
        exact ⟨u, v, rfl, (ih1 u).mpr h1, (ih2 v).mpr h2⟩
  | hcmp x f ih =>
      intro w
      simp only [LangOf, erase]
      exact not_congr (ih w)
  | hconj xs f ih =>
      intro w
      simp only [LangOf, erase, allLang_iff, eraseList_eq]
      constructor
      · intro h x hx
        exact (ih x hx w).mp (h (erase x) (List.mem_map_of_mem _ hx))
      · intro h y hy
        rcases List.mem_map.mp hy with ⟨x, hx, rfl⟩
        exact (ih x hx w).mpr (h x hx)
  | hdisj xs f ih =>
      intro w
      simp only [LangOf, erase, anyLang_iff, eraseList_eq]
      constructor
      · rintro ⟨y, hy, h⟩
        rcases List.mem_map.mp hy with ⟨x, hx, rfl⟩
        exact ⟨x, hx, (ih x hx w).mp h⟩
      · rintro ⟨x, hx, h⟩
        exact ⟨erase x, List.mem_map_of_mem _ hx, (ih x hx w).mpr h⟩

theorem langOf_congr_erase {x y : Exp} (h : erase x = erase y) (w : List Int) :
    LangOf x w ↔ LangOf y w := by
  rw [← langOf_erase x w, ← langOf_erase y w, h]

theorem langOf_congr_compare {x y : Exp} (h : Compare x y = 0) (w : List Int) :
    LangOf x w ↔ LangOf y w :=
  langOf_congr_erase ((compare_eq_zero x y).mp h) w

/-- The language of a factor list: the concatenation of the factor
languages. -/
def LangCat : List Exp → List Int → Prop
  | [], w => w = []
  | x :: xs, w => ∃ u v, w = u ++ v ∧ LangOf x u ∧ LangCat xs v

theorem langCat_append :
    ∀ {l₁ l₂ : List Exp} {w : List Int},
      LangCat (l₁ ++ l₂) w ↔ ∃ u v, w = u ++ v ∧ LangCat l₁ u ∧ LangCat l₂ v := by
  intro l₁
  induction l₁ with
  | nil =>
      intro l₂ w
      simp only [List.nil_append, LangCat]
      constructor
      · intro h
        exact ⟨[], w, rfl, rfl, h⟩
      · rintro ⟨u, v, rfl, rfl, h⟩
        simpa using h
  | cons x l₁ ih =>
      intro l₂ w
      simp only [List.cons_append, LangCat]
      constructor
      · rintro ⟨u, v, rfl, hx, hv⟩
        rcases ih.mp hv with ⟨p, q, rfl, h1, h2⟩
        exact ⟨u ++ p, q, by rw [List.append_assoc], ⟨u, p, rfl, hx, h1⟩, h2⟩
      · rintro ⟨p, q, rfl, ⟨u, v, rfl, hx, h1⟩, h2⟩
        exact ⟨u, v ++ q, by rw [List.append_assoc], hx, ih.mpr ⟨v, q, rfl, h1, h2⟩⟩

theorem concatFactors_lang : ∀ (x : Exp) (w : List Int),
    LangCat (concatFactors x) w ↔ LangOf x w := by
  intro x
  induction x using expInd with
  | hcat a b f ih1 ih2 =>
      intro w
      rw [concatFactors]
      simp only [LangOf, langCat_append]
      constructor
      · rintro ⟨u, v, rfl, h1, h2⟩
        exact ⟨u, v, rfl, (ih1 u).mp h1, (ih2 v).mp h2⟩
      · rintro ⟨u, v, rfl, h1, h2⟩
        exact ⟨u, v, rfl, (ih1 u).mpr h1, (ih2 v).mpr h2⟩
  | hes => intro w; simp [concatFactors, LangCat]
  | hee => intro w; simp [concatFactors, LangCat]
  | hac => intro w; simp [concatFactors, LangCat]
  | hch c => intro w; simp [concatFactors, LangCat]
  | hcc s f => intro w; simp [concatFactors, LangCat]
  | hkl x f ih => intro w; simp [concatFactors, LangCat]
  | hcmp x f ih => intro w; simp [concatFactors, LangCat]
  | hconj xs f ih => intro w; simp [concatFactors, LangCat]
  | hdisj xs f ih => intro w; simp [concatFactors, LangCat]

theorem langCat_emptyset {fs : List Exp} (h : fs.any isEmptySet = true)
    {w : List Int} : ¬LangCat fs w := by
  induction fs generalizing w with
  | nil => simp at h
  | cons x fs ih =>
      rcases List.any_eq_true.mp h with ⟨y, hy, hset⟩
      rintro ⟨u, v, rfl, hx, hv⟩
      rcases List.mem_cons.mp hy with h' | h'
      · have hxe : x = .emptySet := by rw [← h']; exact isEmptySet_eq.mp hset
        rw [hxe] at hx
        simp [LangOf] at hx
      · exact ih (List.any_eq_true.mpr ⟨y, h', hset⟩) hv

theorem langCat_filter_eps {fs : List Exp} {w : List Int} :
    LangCat (fs.filter fun f => !isEmptyString f) w ↔ LangCat fs w := by
  induction fs generalizing w with
  | nil => simp [LangCat]
  | cons x fs ih =>
      by_cases hx : isEmptyString x = true
      · rw [isEmptyString_eq.mp hx]
        rw [List.filter_cons_of_neg (by simp [isEmptyString])]
        constructor
        · intro h
          exact ⟨[], w, rfl, rfl, ih.mp h⟩
        · rintro ⟨u, v, hw, hu, hv⟩
          simp only [LangOf] at hu
          subst hu
          simp only [List.nil_append] at hw
          subst hw
          exact ih.mpr hv
      · rw [List.filter_cons_of_pos (by simp [hx])]
        simp only [LangCat]
        constructor
        · rintro ⟨u, v, rfl, h1, h2⟩
          exact ⟨u, v, rfl, h1, ih.mp h2⟩
        · rintro ⟨u, v, rfl, h1, h2⟩
          exact ⟨u, v, rfl, h1, ih.mpr h2⟩

theorem buildConcat_lang :
    ∀ {ys : List Exp} {x : Exp} {w : List Int},
      LangOf (buildConcat x ys) w ↔ LangCat (x :: ys) w := by
  intro ys
  induction ys with
  | nil =>
      intro x w
      simp [buildConcat, LangCat]
  | cons y ys ih =>
      intro x w
      rw [buildConcat]
      simp only [LangOf, LangCat]
      constructor
      · rintro ⟨u, v, rfl, h1, h2⟩
        exact ⟨u, v, rfl, h1, ih.mp h2⟩
      · rintro ⟨u, v, rfl, h1, h2⟩
        exact ⟨u, v, rfl, h1, ih.mpr h2⟩

theorem mkConcatList_lang {fs : List Exp} {w : List Int} :
    LangOf (mkConcatList fs) w ↔ LangCat fs w := by
  rw [mkConcatList]
  split
  · next h =>
      simp only [LangOf]
      exact iff_of_false (by simp) (langCat_emptyset h)
  · next h =>
      rw [← langCat_filter_eps]
      split
      · next heq => rw [heq]; simp [LangOf, LangCat]
      · next x xs heq => rw [heq, buildConcat_lang]

theorem mkConcat_lang {a b : Exp} {w : List Int} :
    LangOf (mkConcat a b) w ↔ ∃ u v, w = u ++ v ∧ LangOf a u ∧ LangOf b v := by
  rw [mkConcat, mkConcatList_lang, langCat_append]
  constructor
  · rintro ⟨u, v, rfl, h1, h2⟩
    exact ⟨u, v, rfl, (concatFactors_lang a u).mp h1, (concatFactors_lang b v).mp h2⟩
  · rintro ⟨u, v, rfl, h1, h2⟩
    exact ⟨u, v, rfl, (concatFactors_lang a u).mpr h1, (concatFactors_lang b v).mpr h2⟩

theorem hasComplPair_spec {l : List Exp} (h : hasComplPair l = true) :
    ∃ x ∈ l, ∃ y ∈ l, erase y = .complement (erase x) false := by
  rw [hasComplPair] at h
  rcases List.any_eq_true.mp h with ⟨x, hx, h2⟩
  rcases List.any_eq_true.mp h2 with ⟨y, hy, h3⟩
  refine ⟨x, hx, y, hy, ?_⟩
  have hc := (compare_eq_zero y (.complement x false)).mp (of_decide_eq_true h3)
  rw [hc]
  simp [erase]

theorem dedupFrom_rep :
    ∀ {l : List Exp} {x z : Exp}, (z = x ∨ z ∈ l) →
      ∃ w ∈ dedupFrom x l, erase z = erase w := by
  intro l
  induction l with
  | nil =>
      rintro x z (rfl | hz)
      · exact ⟨z, by simp [dedupFrom], rfl⟩
      · simp at hz
  | cons y rest ih =>
      intro x z hz
      rw [dedupFrom]
      by_cases h : Compare x y = 0
      · rw [if_pos h]
        rcases hz with rfl | hz
        · exact ih (Or.inl rfl)
        · rcases List.mem_cons.mp hz with rfl | hz'
          · rcases ih (Or.inl rfl : x = x ∨ x ∈ rest) with ⟨w, hw, he⟩
            refine ⟨w, hw, ?_⟩
            rw [← ((compare_eq_zero x z).mp h)]
            exact he
          · exact ih (Or.inr hz')
      · rw [if_neg h]
        rcases hz with rfl | hz
        · exact ⟨z, List.mem_cons_self _ _, rfl⟩
        · rcases List.mem_cons.mp hz with rfl | hz'
          · rcases ih (Or.inl rfl : z = z ∨ z ∈ rest) with ⟨w, hw, he⟩
            exact ⟨w, List.mem_cons_of_mem _ hw, he⟩
          · rcases ih (Or.inr hz' : z = y ∨ z ∈ rest) with ⟨w, hw, he⟩
            exact ⟨w, List.mem_cons_of_mem _ hw, he⟩

theorem dedupAdj_rep {l : List Exp} {z : Exp} (hz : z ∈ l) :
    ∃ w ∈ dedupAdj l, erase z = erase w := by
  cases l with
  | nil => simp at hz
  | cons x rest =>
      rw [dedupAdj]
      rcases List.mem_cons.mp hz with rfl | hz'
      · exact dedupFrom_rep (Or.inl rfl)
      · exact dedupFrom_rep (Or.inr hz')

theorem forall_dedup_lang {l : List Exp} {w : List Int} :
    (∀ x ∈ dedupAdj l, LangOf x w) ↔ ∀ x ∈ l, LangOf x w := by
  constructor
  · intro h z hz
    rcases dedupAdj_rep hz with ⟨y, hy, he⟩
    exact (langOf_congr_erase he w).mpr (h y hy)
  · intro h z hz
    exact h z (dedupAdj_subset hz)

theorem exists_dedup_lang {l : List Exp} {w : List Int} :
    (∃ x ∈ dedupAdj l, LangOf x w) ↔ ∃ x ∈ l, LangOf x w := by
  constructor
  · rintro ⟨z, hz, h⟩
    exact ⟨z, dedupAdj_subset hz, h⟩
  · rintro ⟨z, hz, h⟩
    rcases dedupAdj_rep hz with ⟨y, hy, he⟩
    exact ⟨y, hy, (langOf_congr_erase he w).mp h⟩

theorem conjFactors_lang {x : Exp} {w : List Int} :
    (∀ y ∈ conjFactors x, LangOf y w) ↔ LangOf x w := by
  cases x <;> simp [conjFactors, LangOf, allLang_iff]

theorem disjFactors_lang {x : Exp} {w : List Int} :
    (∃ y ∈ disjFactors x, LangOf y w) ↔ LangOf x w := by
  cases x <;> simp [disjFactors, LangOf, anyLang_iff]

theorem forall_flattenConj_lang {l : List Exp} {w : List Int} :
    (∀ y ∈ flattenConj l, LangOf y w) ↔ ∀ x ∈ l, LangOf x w := by
  induction l with
  | nil => simp [flattenConj]
  | cons x xs ih =>
      rw [flattenConj]
      constructor
      · intro h
        intro z hz
        rcases List.mem_cons.mp hz with rfl | hz'
        · exact conjFactors_lang.mp (fun y hy => h y (List.mem_append.mpr (Or.inl hy)))
        · exact ih.mp (fun y hy => h y (List.mem_append.mpr (Or.inr hy))) z hz'
      · intro h y hy
        rcases List.mem_append.mp hy with h' | h'
        · exact conjFactors_lang.mpr (h x (List.mem_cons_self _ _)) y h'
        · exact ih.mpr (fun z hz => h z (List.mem_cons_of_mem _ hz)) y h'

theorem exists_flattenDisj_lang {l : List Exp} {w : List Int} :
    (∃ y ∈ flattenDisj l, LangOf y w) ↔ ∃ x ∈ l, LangOf x w := by
  induction l with
  | nil => simp [flattenDisj]
  | cons x xs ih =>
      rw [flattenDisj]
      constructor
      · rintro ⟨y, hy, h⟩
        rcases List.mem_append.mp hy with h' | h'
        · exact ⟨x, List.mem_cons_self _ _, disjFactors_lang.mp ⟨y, h', h⟩⟩
        · rcases ih.mp ⟨y, h', h⟩ with ⟨z, hz, h''⟩
          exact ⟨z, List.mem_cons_of_mem _ hz, h''⟩
      · rintro ⟨z, hz, h⟩
        rcases List.mem_cons.mp hz with rfl | hz'
        · rcases disjFactors_lang.mpr h with ⟨y, hy, h'⟩
          exact ⟨y, List.mem_append.mpr (Or.inl hy), h'⟩
        · rcases ih.mpr ⟨z, hz', h⟩ with ⟨y, hy, h'⟩
          exact ⟨y, List.mem_append.mpr (Or.inr hy), h'⟩

theorem filter_sigma_lang {l : List Exp} {w : List Int} :
    (∀ x ∈ l.filter fun z => !isSigmaStar z, LangOf x w) ↔ ∀ x ∈ l, LangOf x w := by
  constructor
  · intro h x hx
    by_cases hs : isSigmaStar x = true
    · exact isSigmaStar_lang hs w
    · exact h x (List.mem_filter.mpr ⟨hx, by simp [hs]⟩)
  · intro h x hx
    exact h x (List.mem_filter.mp hx).1

theorem filter_empty_lang {l : List Exp} {w : List Int} :
    (∃ x ∈ l.filter fun z => !isEmptySet z, LangOf x w) ↔ ∃ x ∈ l, LangOf x w := by
  constructor
  · rintro ⟨x, hx, h⟩
    exact ⟨x, (List.mem_filter.mp hx).1, h⟩
  · rintro ⟨x, hx, h⟩
    refine ⟨x, List.mem_filter.mpr ⟨hx, ?_⟩, h⟩
    by_contra hc
    have hc' : isEmptySet x = true := by
      cases hce : isEmptySet x
      · simp [hce] at hc
      · rfl
    rw [isEmptySet_eq.mp hc'] at h
    simp [LangOf] at h

theorem conjIdent_lang {l : List Exp} {w : List Int} :
    LangOf (conjIdent l) w ↔ ∀ x ∈ l, LangOf x w := by
  rw [conjIdent]
  split
  · next h =>
      rcases List.any_eq_true.mp h with ⟨x, hx, hset⟩
      refine iff_of_false (by simp [LangOf]) ?_
      intro hall
      have hxw := hall x hx
      rw [isEmptySet_eq.mp hset] at hxw
      simp [LangOf] at hxw
  · split
    · next h =>
        rcases hasComplPair_spec h with ⟨x, hx, y, hy, he⟩
        refine iff_of_false (by simp [LangOf]) ?_
        intro hall
        have h1 := hall x (List.mem_filter.mp hx).1
        have h2 := hall y (List.mem_filter.mp hy).1
        have hyw : LangOf (erase y) w := (langOf_erase y w).mpr h2
        rw [he] at hyw
        simp only [LangOf] at hyw
        exact hyw ((langOf_erase x w).mpr h1)
    · split
      · next heq =>
          rw [← filter_sigma_lang, heq]
          simp [LangOf]
      · next x heq =>
          rw [← filter_sigma_lang, heq]
          simp
      · next x y rest heq =>
          rw [← filter_sigma_lang (l := l), heq]
          simp only [LangOf, allLang_iff]

theorem disjIdent_lang {l : List Exp} {w : List Int} :
    LangOf (disjIdent l) w ↔ ∃ x ∈ l, LangOf x w := by
  rw [disjIdent]
  split
  · next h =>
      rcases List.any_eq_true.mp h with ⟨x, hx, hss⟩
      refine iff_of_true (by simp [LangOf]) ⟨x, hx, isSigmaStar_lang hss w⟩
  · split
    · next h =>
        rcases hasComplPair_spec h with ⟨x, hx, y, hy, he⟩
        refine iff_of_true (by simp [LangOf]) ?_
        by_cases hxw : LangOf x w
        · exact ⟨x, (List.mem_filter.mp hx).1, hxw⟩
        · refine ⟨y, (List.mem_filter.mp hy).1, ?_⟩
          rw [← langOf_erase y w, he]
          simp only [LangOf]
          intro hc
          exact hxw ((langOf_erase x w).mp hc)
    · split
      · next heq =>
          rw [← filter_empty_lang, heq]
          simp [LangOf]
      · next x heq =>
          rw [← filter_empty_lang, heq]
          simp
      · next x y rest heq =>
          rw [← filter_empty_lang (l := l), heq]
          simp only [LangOf, anyLang_iff]

theorem mkConj_lang {xs : List Exp} {w : List Int} :
    LangOf (mkConj xs) w ↔ ∀ x ∈ xs, LangOf x w := by
  rw [mkConj, conjIdent_lang, forall_dedup_lang]
  rw [show (∀ x ∈ sortExps (flattenConj xs), LangOf x w) ↔
      ∀ x ∈ flattenConj xs, LangOf x w from
    ⟨fun h x hx => h x (mem_sortExps.mpr hx), fun h x hx => h x (mem_sortExps.mp hx)⟩]
  exact forall_flattenConj_lang

theorem mkDisj_lang {xs : List Exp} {w : List Int} :
    LangOf (mkDisj xs) w ↔ ∃ x ∈ xs, LangOf x w := by
  rw [mkDisj, disjIdent_lang, exists_dedup_lang]
  rw [show (∃ x ∈ sortExps (flattenDisj xs), LangOf x w) ↔
      ∃ x ∈ flattenDisj xs, LangOf x w from
    ⟨fun ⟨x, hx, h⟩ => ⟨x, mem_sortExps.mp hx, h⟩,
     fun ⟨x, hx, h⟩ => ⟨x, mem_sortExps.mpr hx, h⟩⟩]
  exact exists_flattenDisj_lang

theorem sort_eq_nil {s : Finset Int} (h : s.sort (· ≤ ·) = []) : s = ∅ := by
  ext a
  simp only [Finset.not_mem_empty, iff_false]
  intro ha
  have hm : a ∈ s.sort (· ≤ ·) := (Finset.mem_sort (· ≤ ·)).mpr ha
  rw [h] at hm
  simp at hm

theorem sort_eq_singleton {s : Finset Int} {c : Int} (h : s.sort (· ≤ ·) = [c]) :
    s = {c} := by
  ext a
  rw [← Finset.mem_sort (α := Int) (· ≤ ·) (s := s), h]
  simp

theorem mkCharClass_lang {s : Finset Int} {w : List Int} :
    LangOf (mkCharClass s) w ↔ ∃ a ∈ s, w = [a] := by
  rw [mkCharClass]
  split
  · next h => rw [sort_eq_nil h]; simp [LangOf]
  · next c h => rw [sort_eq_singleton h]; simp [LangOf]
  · next h1 h2 => simp [LangOf]

theorem mkKleene_lang {x : Exp} {w : List Int} :
    LangOf (mkKleene x) w ↔ Star (fun u => LangOf x u) w := by
  cases x with
  | emptySet =>
      rw [show (fun u => LangOf Exp.emptySet u) = fun _ : List Int => False from rfl,
        star_false]
      simp [mkKleene, LangOf]
  | emptyString =>
      rw [show (fun u => LangOf Exp.emptyString u) = fun u : List Int => u = [] from rfl,
        star_epsilon]
      simp [mkKleene, LangOf]
  | kleeneClosure y g =>
      rw [show (fun u => LangOf (Exp.kleeneClosure y g) u) =
        fun u => Star (fun v => LangOf y v) u from rfl, star_star]
      simp [mkKleene, LangOf]
  | complement y g =>
      cases y with
      | emptySet =>
          refine iff_of_true (by simp [mkKleene, LangOf]) ?_
          exact star_single (by simp [LangOf])
      | emptyString => simp [mkKleene, LangOf]
      | anyCharacter => simp [mkKleene, LangOf]
      | character c => simp [mkKleene, LangOf]
      | characterClass s f => simp [mkKleene, LangOf]
      | kleeneClosure z f => simp [mkKleene, LangOf]
      | concatenation a b f => simp [mkKleene, LangOf]
      | complement z f => simp [mkKleene, LangOf]
      | conjunction zs f => simp [mkKleene, LangOf]
      | disjunction zs f => simp [mkKleene, LangOf]
  | anyCharacter => simp [mkKleene, LangOf]
  | character c => simp [mkKleene, LangOf]
  | characterClass s f => simp [mkKleene, LangOf]
  | concatenation a b f => simp [mkKleene, LangOf]
  | conjunction xs f => simp [mkKleene, LangOf]
  | disjunction xs f => simp [mkKleene, LangOf]

theorem mkComplement_lang {x : Exp} {w : List Int} :
    LangOf (mkComplement x) w ↔ ¬LangOf x w := by
  cases x <;> simp [mkComplement, LangOf]

theorem cmpInt_range (a b : Int) : cmpInt a b = -1 ∨ cmpInt a b = 0 ∨ cmpInt a b = 1 := by
  unfold cmpInt; split_ifs <;> simp

theorem cmpIntList_range :
    ∀ (l m : List Int), cmpIntList l m = -1 ∨ cmpIntList l m = 0 ∨ cmpIntList l m = 1
  | [], [] => by simp [cmpIntList]
  | [], _ :: _ => by simp [cmpIntList]
  | _ :: _, [] => by simp [cmpIntList]
  | a :: as, b :: bs => by
      rw [cmpIntList]
      by_cases h : cmpInt a b = 0
      · rw [if_pos h]; exact cmpIntList_range as bs
      · rw [if_neg h]; exact cmpInt_range a b

theorem compareList_range {xs : List Exp}
    (ih : ∀ x ∈ xs, ∀ y, Compare x y = -1 ∨ Compare x y = 0 ∨ Compare x y = 1) :
    ∀ ys, CompareList xs ys = -1 ∨ CompareList xs ys = 0 ∨ CompareList xs ys = 1 := by
  induction xs with
  | nil => intro ys; cases ys <;> simp [CompareList]
  | cons x xs ihl =>
      intro ys
      cases ys with
      | nil => simp [CompareList]
      | cons y ys =>
          rw [CompareList]
          by_cases h : Compare x y = 0
          · rw [if_pos h]
            exact ihl (fun z hz => ih z (List.mem_cons_of_mem _ hz)) ys
          · rw [if_neg h]
            exact ih x (List.mem_cons_self _ _) y

/-- `Compare` only ever returns −1, 0 or +1 (`src/regexp.h:110`). -/
theorem compare_range :
    ∀ (x y : Exp), Compare x y = -1 ∨ Compare x y = 0 ∨ Compare x y = 1 := by
  intro x
  induction x using expInd with
  | hes => intro y; cases y <;> simp [Compare, Exp.kindOf]
  | hee => intro y; cases y <;> simp [Compare, Exp.kindOf]
  | hac => intro y; cases y <;> simp [Compare, Exp.kindOf]
  | hch c =>
      intro y
      cases y <;> simp [Compare, Exp.kindOf]
      exact cmpInt_range c _
  | hcc s f =>
      intro y
      cases y <;> simp [Compare, Exp.kindOf]
      exact cmpIntList_range _ _
  | hkl x f ih =>
      intro y
      cases y <;> simp [Compare, Exp.kindOf]
      exact ih _
  | hcat a b f ih1 ih2 =>
      intro y
      cases y <;> simp [Compare, Exp.kindOf]
      next a' b' f' =>
        by_cases h : Compare a a' = 0
        · rw [if_pos h]; exact ih2 b'
        · rw [if_neg h]; exact ih1 a'
  | hcmp x f ih =>
      intro y
      cases y <;> simp [Compare, Exp.kindOf]
      exact ih _
  | hconj xs f ih =>
      intro y
      cases y <;> simp [Compare, Exp.kindOf]
      exact compareList_range ih _
  | hdisj xs f ih =>
      intro y
      cases y <;> simp [Compare, Exp.kindOf]
      exact compareList_range ih _

theorem compare_le_total : ∀ x y : Exp, Compare x y ≤ 0 ∨ Compare y x ≤ 0 := by
  intro x y
  rcases compare_range x y with h | h | h
  · left; rw [h]; norm_num
  · left; rw [h]
  · right; rw [compare_swap x y, h]; norm_num

theorem compare_le_trans :
    ∀ x y z : Exp, Compare x y ≤ 0 → Compare y z ≤ 0 → Compare x z ≤ 0 := by
  intro x y z h1 h2
  rcases compare_range x y with hxy | hxy | hxy
  · rcases compare_range y z with hyz | hyz | hyz
    · rw [compare_trans x y z hxy hyz]; norm_num
    · rw [← compare_zero_congr_right hyz x, hxy]; norm_num
    · rw [hyz] at h2; norm_num at h2
  · rw [compare_zero_congr_left hxy z]; exact h2
  · rw [hxy] at h1; norm_num at h1

instance : IsTotal Exp (fun x y => Compare x y ≤ 0) := ⟨compare_le_total⟩

instance : IsTrans Exp (fun x y => Compare x y ≤ 0) :=
  ⟨fun x y z => compare_le_trans x y z⟩

theorem sortExps_sorted (l : List Exp) :
    List.Sorted (fun x y => Compare x y ≤ 0) (sortExps l) :=
  List.sorted_insertionSort _ l

theorem sortExps_ne_nil {l : List Exp} (h : l ≠ []) : sortExps l ≠ [] := by
  intro hc
  have hp := List.perm_insertionSort (fun x y => Compare x y ≤ 0) l
  rw [sortExps] at hc
  rw [hc] at hp
  exact h (hp.symm.eq_nil)

theorem dedupFrom_ne_nil : ∀ (x : Exp) (m : List Exp), dedupFrom x m ≠ [] := by
  intro x m
  induction m generalizing x with
  | nil => simp [dedupFrom]
  | cons y rest ih =>
      rw [dedupFrom]
      by_cases h : Compare x y = 0
      · rw [if_pos h]; exact ih x
      · rw [if_neg h]; simp

theorem dedupFrom_all_eps :
    ∀ {m : List Exp}, (∀ z ∈ m, z = Exp.emptyString) →
      dedupFrom Exp.emptyString m = [Exp.emptyString] := by
  intro m
  induction m with
  | nil => intro _; rfl
  | cons y rest ih =>
      intro h
      rw [dedupFrom]
      rw [h y (List.mem_cons_self _ _)]
      rw [if_pos (by decide)]
      exact ih fun z hz => h z (List.mem_cons_of_mem _ hz)

theorem sorted_eps_head {m : List Exp}
    (hs : List.Sorted (fun x y => Compare x y ≤ 0) (Exp.emptyString :: m))
    (hat : ∀ z ∈ m, z = Exp.emptySet ∨ z = Exp.emptyString) :
    ∀ z ∈ m, z = Exp.emptyString := by
  intro z hz
  rcases hat z hz with rfl | rfl
  · have h2 := (List.sorted_cons.mp hs).1 Exp.emptySet hz
    exact absurd h2 (by decide)
  · rfl

theorem dedupFrom_empty :
    ∀ {m : List Exp}, List.Sorted (fun x y => Compare x y ≤ 0) m →
      (∀ z ∈ m, z = Exp.emptySet ∨ z = Exp.emptyString) →
      (dedupFrom Exp.emptySet m = [Exp.emptySet] ∨
        dedupFrom Exp.emptySet m = [Exp.emptySet, Exp.emptyString]) := by
  intro m
  induction m with
  | nil => intro _ _; left; rfl
  | cons y rest ih =>
      intro hs hat
      rcases hat y (List.mem_cons_self _ _) with rfl | rfl
      · rw [dedupFrom, if_pos (by decide)]
        exact ih hs.of_cons fun z hz => hat z (List.mem_cons_of_mem _ hz)
      · rw [dedupFrom, if_neg (by decide)]
        right
        have hall : ∀ z ∈ rest, z = Exp.emptyString :=
          sorted_eps_head hs fun z hz => hat z (List.mem_cons_of_mem _ hz)
        rw [dedupFrom_all_eps hall]

theorem dedup_sort_atom {m : List Exp}
    (hs : List.Sorted (fun x y => Compare x y ≤ 0) m)
    (hat : ∀ z ∈ m, z = Exp.emptySet ∨ z = Exp.emptyString) :
    dedupAdj m = [] ∨ dedupAdj m = [Exp.emptySet] ∨
      dedupAdj m = [Exp.emptyString] ∨ dedupAdj m = [Exp.emptySet, Exp.emptyString] := by
  cases m with
  | nil => left; rfl
  | cons x rest =>
      rw [dedupAdj]
      rcases hat x (List.mem_cons_self _ _) with rfl | rfl
      · rcases dedupFrom_empty hs.of_cons
          (fun z hz => hat z (List.mem_cons_of_mem _ hz)) with h | h
        · right; left; exact h
        · right; right; right; exact h
      · right; right; left
        exact dedupFrom_all_eps
          (sorted_eps_head hs fun z hz => hat z (List.mem_cons_of_mem _ hz))

theorem flattenConj_atom {l : List Exp}
    (hat : ∀ z ∈ l, z = Exp.emptySet ∨ z = Exp.emptyString) : flattenConj l = l := by
  induction l with
  | nil => rfl
  | cons x xs ih =>
      rw [flattenConj, ih fun z hz => hat z (List.mem_cons_of_mem _ hz)]
      rcases hat x (List.mem_cons_self _ _) with rfl | rfl <;> rfl

theorem flattenDisj_atom {l : List Exp}
    (hat : ∀ z ∈ l, z = Exp.emptySet ∨ z = Exp.emptyString) : flattenDisj l = l := by
  induction l with
  | nil => rfl
  | cons x xs ih =>
      rw [flattenDisj, ih fun z hz => hat z (List.mem_cons_of_mem _ hz)]
      rcases hat x (List.mem_cons_self _ _) with rfl | rfl <;> rfl

theorem mkConj_atom {l : List Exp} (hne : l ≠ [])
    (hat : ∀ z ∈ l, z = Exp.emptySet ∨ z = Exp.emptyString) :
    mkConj l = Exp.emptySet ∨ mkConj l = Exp.emptyString := by
  rw [mkConj, flattenConj_atom hat]
  rcases dedup_sort_atom (sortExps_sorted l)
    (fun z hz => hat z (mem_sortExps.mp hz)) with h | h | h | h
  · exfalso
    cases hse : sortExps l with
    | nil => exact sortExps_ne_nil hne hse
    | cons a rest =>
        rw [hse, dedupAdj] at h
        exact dedupFrom_ne_nil a rest h
  · rw [h]; left; rfl
  · rw [h]; right; rfl
  · rw [h]; left; rfl

theorem mkDisj_atom {l : List Exp} (hne : l ≠ [])
    (hat : ∀ z ∈ l, z = Exp.emptySet ∨ z = Exp.emptyString) :
    mkDisj l = Exp.emptySet ∨ mkDisj l = Exp.emptyString := by
  rw [mkDisj, flattenDisj_atom hat]
  rcases dedup_sort_atom (sortExps_sorted l)
    (fun z hz => hat z (mem_sortExps.mp hz)) with h | h | h | h
  · exfalso
    cases hse : sortExps l with
    | nil => exact sortExps_ne_nil hne hse
    | cons a rest =>
        rw [hse, dedupAdj] at h
        exact dedupFrom_ne_nil a rest h
  · rw [h]; left; rfl
  · rw [h]; right; rfl
  · rw [h]; right; rfl

/-- Normalisation preserves the denoted language (spec §4.2: "each rule
preserves the regular language denoted"). -/
theorem Normalised_lang : ∀ (e : Exp) (w : List Int),
    LangOf (Normalised e) w ↔ LangOf e w := by
  intro e
  induction e using expInd with
  | hes => intro w; simp [Normalised]
  | hee => intro w; simp [Normalised]
  | hac => intro w; simp [Normalised]
  | hch c => intro w; simp [Normalised]
  | hcc s f =>
      intro w
      rw [Normalised]
      cases f with
      | true => simp
      | false => rw [if_neg (by simp)]; rw [mkCharClass_lang]; simp [LangOf]
  | hkl x f ih =>
      intro w
      rw [Normalised]
      cases f with
      | true => simp
      | false =>
          rw [if_neg (by simp), mkKleene_lang]
          simp only [LangOf]
          exact star_congr (fun u => ih u) w
  | hcat a b f ih1 ih2 =>
      intro w
      rw [Normalised]
      cases f with
      | true => simp
      | false =>
          rw [if_neg (by simp), mkConcat_lang]
          simp only [LangOf]
          constructor
          · rintro ⟨u, v, rfl, h1, h2⟩
            exact ⟨u, v, rfl, (ih1 u).mp h1, (ih2 v).mp h2⟩
          · rintro ⟨u, v, rfl, h1, h2⟩
            exact ⟨u, v, rfl, (ih1 u).mpr h1, (ih2 v).mpr h2⟩
  | hcmp x f ih =>
      intro w
      rw [Normalised]
      cases f with
      | true => simp
      | false =>
          rw [if_neg (by simp), mkComplement_lang]
          simp only [LangOf]
          exact not_congr (ih w)
  | hconj xs f ih =>
      intro w
      rw [Normalised]
      cases f with
      | true => simp
      | false =>
          rw [if_neg (by simp), mkConj_lang]
          rw [normList_eq]
          simp only [LangOf, allLang_iff]
          constructor
          · intro h x hx
            exact (ih x hx w).mp (h (Normalised x) (List.mem_map_of_mem _ hx))
          · intro h y hy
            rcases List.mem_map.mp hy with ⟨x, hx, rfl⟩
            exact (ih x hx w).mpr (h x hx)
  | hdisj xs f ih =>
      intro w
      rw [Normalised]
      cases f with
      | true => simp
      | false =>
          rw [if_neg (by simp), mkDisj_lang]
          rw [normList_eq]
          simp only [LangOf, anyLang_iff]
          constructor
          · rintro ⟨y, hy, h⟩
            rcases List.mem_map.mp hy with ⟨x, hx, rfl⟩
            exact ⟨x, hx, (ih x hx w).mp h⟩
          · rintro ⟨x, hx, h⟩
            exact ⟨Normalised x, List.mem_map_of_mem _ hx, (ih x hx w).mpr h⟩

theorem normList_atom {l : List Exp}
    (hat : ∀ z ∈ l, z = Exp.emptySet ∨ z = Exp.emptyString) : normList l = l := by
  induction l with
  | nil => rfl
  | cons x xs ih =>
      rw [normList, ih fun z hz => hat z (List.mem_cons_of_mem _ hz)]
      rcases hat x (List.mem_cons_self _ _) with rfl | rfl <;> rfl

theorem normalised_conj_atoms {l : List Exp} (hne : l ≠ [])
    (hat : ∀ z ∈ l, z = Exp.emptySet ∨ z = Exp.emptyString) :
    Normalised (.conjunction l false) = Exp.emptySet ∨
      Normalised (.conjunction l false) = Exp.emptyString := by
  rw [Normalised]
  simp only [Bool.false_eq_true, if_false]
  rw [normList_atom hat]
  exact mkConj_atom hne hat

theorem normalised_disj_atoms {l : List Exp} (hne : l ≠ [])
    (hat : ∀ z ∈ l, z = Exp.emptySet ∨ z = Exp.emptyString) :
    Normalised (.disjunction l false) = Exp.emptySet ∨
      Normalised (.disjunction l false) = Exp.emptyString := by
  rw [Normalised]
  simp only [Bool.false_eq_true, if_false]
  rw [normList_atom hat]
  exact mkDisj_atom hne hat

/-- `Nullability` always returns `EmptySet` or `EmptyString` on
well-formed expressions (spec §4.3 and the comment at
`src/regexp.h:189`). -/
theorem nullability_atom : ∀ {e : Exp}, wf e = true →
    Nullability e = Exp.emptySet ∨ Nullability e = Exp.emptyString := by
  intro e
  induction e using expInd with
  | hes => intro _; left; rfl
  | hee => intro _; right; rfl
  | hac => intro _; left; rfl
  | hch c => intro _; left; rfl
  | hcc s f => intro _; left; rfl
  | hkl x f ih => intro _; right; rfl
  | hcat a b f ih1 ih2 =>
      intro hw
      simp only [wf, Bool.and_eq_true] at hw
      have h1 := ih1 hw.1
      have h2 := ih2 hw.2
      have hat : ∀ z ∈ [Nullability a, Nullability b],
          z = Exp.emptySet ∨ z = Exp.emptyString := by
        intro z hz
        rcases List.mem_cons.mp hz with rfl | hz'
        · exact h1
        · rcases List.mem_cons.mp hz' with rfl | hz''
          · exact h2
          · simp at hz''
      rw [Nullability]
      exact normalised_conj_atoms (by simp) hat
  | hcmp x f ih =>
      intro hw
      rw [Nullability]
      split
      · left; rfl
      · right; rfl
  | hconj xs f ih =>
      intro hw
      simp only [wf, Bool.and_eq_true, decide_eq_true_eq] at hw
      have hat : ∀ z ∈ nullList xs, z = Exp.emptySet ∨ z = Exp.emptyString := by
        rw [nullList_eq]
        intro z hz
        rcases List.mem_map.mp hz with ⟨x, hx, rfl⟩
        exact ih x hx (wfList_iff.mp hw.2 x hx)
      have hne : nullList xs ≠ [] := by
        rw [nullList_eq]
        intro hc
        rw [List.map_eq_nil_iff] at hc
        rw [hc] at hw
        simp at hw
      rw [Nullability]
      exact normalised_conj_atoms hne hat
  | hdisj xs f ih =>
      intro hw
      simp only [wf, Bool.and_eq_true, decide_eq_true_eq] at hw
      have hat : ∀ z ∈ nullList xs, z = Exp.emptySet ∨ z = Exp.emptyString := by
        rw [nullList_eq]
        intro z hz
        rcases List.mem_map.mp hz with ⟨x, hx, rfl⟩
        exact ih x hx (wfList_iff.mp hw.2 x hx)
      have hne : nullList xs ≠ [] := by
        rw [nullList_eq]
        intro hc
        rw [List.map_eq_nil_iff] at hc
        rw [hc] at hw
        simp at hw
      rw [Nullability]
      exact normalised_disj_atoms hne hat

theorem atom_lang_eps {x : Exp}
    (h : x = Exp.emptySet ∨ x = Exp.emptyString) :
    x = Exp.emptyString ↔ LangOf x [] := by
  rcases h with rfl | rfl <;> simp [LangOf]

/-- `Nullability` decides membership of the empty string (spec §4.3):
it returns `EmptyString` exactly when ε is in the language. -/
theorem nullability_lang : ∀ {e : Exp}, wf e = true →
    (Nullability e = Exp.emptyString ↔ LangOf e []) := by
  intro e
  induction e using expInd with
  | hes => intro _; simp [Nullability, LangOf]
  | hee => intro _; simp [Nullability, LangOf]
  | hac => intro _; simp [Nullability, LangOf]
  | hch c => intro _; simp [Nullability, LangOf]
  | hcc s f => intro _; simp [Nullability, LangOf]
  | hkl x f ih =>
      intro _
      refine iff_of_true ?_ ?_
      · rfl
      · exact Star.nil
  | hcat a b f ih1 ih2 =>
      intro hw
      simp only [wf, Bool.and_eq_true] at hw
      rw [atom_lang_eps (nullability_atom (by simp [wf, hw.1, hw.2]))]
      rw [Nullability, Normalised_lang]
      simp only [LangOf, AllLang]
      rw [← atom_lang_eps (nullability_atom hw.1),
        ← atom_lang_eps (nullability_atom hw.2)]
      rw [ih1 hw.1, ih2 hw.2]
      constructor
      · rintro ⟨ha, hb, -⟩
        exact ⟨[], [], rfl, ha, hb⟩
      · rintro ⟨u, v, huv, ha, hb⟩
        rcases List.append_eq_nil.mp huv.symm with ⟨rfl, rfl⟩
        exact ⟨ha, hb, trivial⟩
  | hcmp x f ih =>
      intro hw
      have hwx : wf x = true := by simpa [wf] using hw
      rw [Nullability]
      rcases nullability_atom hwx with hx | hx
      · rw [hx]
        simp only [isEmptyString, Bool.false_eq_true, if_false]
        simp only [LangOf]
        refine iff_of_true (by trivial) ?_
        intro hl
        have h2 := (ih hwx).mpr hl
        rw [hx] at h2
        simp at h2
      · rw [hx]
        simp only [isEmptyString, if_true]
        simp only [LangOf]
        refine iff_of_false (by simp) ?_
        intro hc
        exact hc ((ih hwx).mp hx)
  | hconj xs f ih =>
      intro hw
      have hw' := hw
      simp only [wf, Bool.and_eq_true, decide_eq_true_eq] at hw
      rw [atom_lang_eps (nullability_atom hw')]
      rw [Nullability, Normalised_lang]
      simp only [LangOf, allLang_iff, nullList_eq]
      constructor
      · intro h x hx
        have hx' := h (Nullability x) (List.mem_map_of_mem _ hx)
        have hwx := wfList_iff.mp hw.2 x hx
        exact (ih x hx hwx).mp
          ((atom_lang_eps (nullability_atom hwx)).mpr hx')
      · intro h y hy
        rcases List.mem_map.mp hy with ⟨x, hx, rfl⟩
        have hwx := wfList_iff.mp hw.2 x hx
        exact (atom_lang_eps (nullability_atom hwx)).mp
          ((ih x hx hwx).mpr (h x hx))
  | hdisj xs f ih =>
      intro hw
      have hw' := hw
      simp only [wf, Bool.and_eq_true, decide_eq_true_eq] at hw
      rw [atom_lang_eps (nullability_atom hw')]
      rw [Nullability, Normalised_lang]
      simp only [LangOf, anyLang_iff, nullList_eq]
      constructor
      · rintro ⟨y, hy, h⟩
        rcases List.mem_map.mp hy with ⟨x, hx, rfl⟩
        have hwx := wfList_iff.mp hw.2 x hx
        exact ⟨x, hx, (ih x hx hwx).mp
          ((atom_lang_eps (nullability_atom hwx)).mpr h)⟩
      · rintro ⟨x, hx, h⟩
        have hwx := wfList_iff.mp hw.2 x hx
        exact ⟨Nullability x, List.mem_map_of_mem _ hx,
          (atom_lang_eps (nullability_atom hwx)).mp ((ih x hx hwx).mpr h)⟩

/-- The word-level language of `Nullability e`: only ε, and only when
`e` is nullable. -/
theorem nullability_lang_word {e : Exp} (hw : wf e = true) (u : List Int) :
    LangOf (Nullability e) u ↔ u = [] ∧ LangOf e [] := by
  rcases nullability_atom hw with h | h
  · rw [h]
    refine iff_of_false (by simp [LangOf]) ?_
    rintro ⟨rfl, hl⟩
    have h2 := (nullability_lang hw).mpr hl
    rw [h] at h2
    simp at h2
  · rw [h]
    simp only [LangOf]
    constructor
    · rintro rfl
      exact ⟨rfl, (nullability_lang hw).mp h⟩
    · rintro ⟨rfl, -⟩
      rfl

theorem concatFactors_wf {x : Exp} (h : wf x = true) :
    ∀ y ∈ concatFactors x, wf y = true :=
  concatFactors_pred wf
    (by
      intro a b f hp
      simp only [wf, Bool.and_eq_true] at hp
      exact hp) h

theorem conjFactors_wf {x : Exp} (h : wf x = true) :
    ∀ y ∈ conjFactors x, wf y = true := by
  cases x <;> simp [conjFactors] <;> try simpa using h
  case conjunction xs f =>
    simp only [wf, Bool.and_eq_true] at h
    exact wfList_iff.mp h.2

theorem disjFactors_wf {x : Exp} (h : wf x = true) :
    ∀ y ∈ disjFactors x, wf y = true := by
  cases x <;> simp [disjFactors] <;> try simpa using h
  case disjunction xs f =>
    simp only [wf, Bool.and_eq_true] at h
    exact wfList_iff.mp h.2

theorem flattenConj_wf {l : List Exp} (h : ∀ x ∈ l, wf x = true) :
    ∀ y ∈ flattenConj l, wf y = true := by
  induction l with
  | nil => simp [flattenConj]
  | cons x xs ih =>
      intro y hy
      rw [flattenConj] at hy
      rcases List.mem_append.mp hy with h' | h'
      · exact conjFactors_wf (h x (List.mem_cons_self _ _)) y h'
      · exact ih (fun z hz => h z (List.mem_cons_of_mem _ hz)) y h'

theorem flattenDisj_wf {l : List Exp} (h : ∀ x ∈ l, wf x = true) :
    ∀ y ∈ flattenDisj l, wf y = true := by
  induction l with
  | nil => simp [flattenDisj]
  | cons x xs ih =>
      intro y hy
      rw [flattenDisj] at hy
      rcases List.mem_append.mp hy with h' | h'
      · exact disjFactors_wf (h x (List.mem_cons_self _ _)) y h'
      · exact ih (fun z hz => h z (List.mem_cons_of_mem _ hz)) y h'

theorem mkCharClass_wf {s : Finset Int} (h : ∀ r ∈ s, (0:Int) ≤ r) :
    wf (mkCharClass s) = true := by
  rw [mkCharClass]
  split
  · simp [wf]
  · next c heq =>
      have : c ∈ s := by
        rw [← Finset.mem_sort (α := Int) (· ≤ ·) (s := s), heq]
        simp
      simp [wf, h c this]
  · simp only [wf, decide_eq_true_eq]
    exact h

theorem mkKleene_wf {x : Exp} (h : wf x = true) : wf (mkKleene x) = true := by
  cases x <;> simp_all [mkKleene, wf]
  case complement y f =>
    cases y <;> simp_all [mkKleene, wf]

theorem mkComplement_wf {x : Exp} (h : wf x = true) : wf (mkComplement x) = true := by
  cases x <;> simp_all [mkComplement, wf]

theorem buildConcat_wf :
    ∀ {ys : List Exp} {x : Exp}, wf x = true → (∀ y ∈ ys, wf y = true) →
      wf (buildConcat x ys) = true := by
  intro ys
  induction ys with
  | nil => intro x hx _; simpa [buildConcat]
  | cons y ys ih =>
      intro x hx hys
      rw [buildConcat]
      have h2 := ih (hys y (List.mem_cons_self _ _))
        fun z hz => hys z (List.mem_cons_of_mem _ hz)
      simp [wf, hx, h2]

theorem mkConcatList_wf {fs : List Exp} (h : ∀ y ∈ fs, wf y = true) :
    wf (mkConcatList fs) = true := by
  rw [mkConcatList]
  split
  · simp [wf]
  · split
    · simp [wf]
    · next x xs heq =>
        have hsub : ∀ y ∈ x :: xs, wf y = true := by
          intro y hy
          rw [← heq] at hy
          exact h y (List.mem_filter.mp hy).1
        exact buildConcat_wf (hsub x (List.mem_cons_self _ _))
          fun z hz => hsub z (List.mem_cons_of_mem _ hz)

theorem mkConcat_wf {a b : Exp} (ha : wf a = true) (hb : wf b = true) :
    wf (mkConcat a b) = true := by
  rw [mkConcat]
  refine mkConcatList_wf ?_
  intro y hy
  rcases List.mem_append.mp hy with h' | h'
  · exact concatFactors_wf ha y h'
  · exact concatFactors_wf hb y h'

theorem conjIdent_wf {l : List Exp} (h : ∀ x ∈ l, wf x = true) :
    wf (conjIdent l) = true := by
  rw [conjIdent]
  split
  · simp [wf]
  · split
    · simp [wf]
    · split
      · simp [wf]
      · next x heq =>
          have hx : x ∈ l.filter fun z => !isSigmaStar z := by
            rw [heq]; exact List.mem_cons_self _ _
          exact h x (List.mem_filter.mp hx).1
      · next x y rest heq =>
          have hsub : ∀ z ∈ x :: y :: rest, wf z = true := by
            intro z hz
            rw [← heq] at hz
            exact h z (List.mem_filter.mp hz).1
          simp only [wf, Bool.and_eq_true, decide_eq_true_eq]
          refine ⟨by simp, wfList_iff.mpr hsub⟩

theorem disjIdent_wf {l : List Exp} (h : ∀ x ∈ l, wf x = true) :
    wf (disjIdent l) = true := by
  rw [disjIdent]
  split
  · simp [wf]
  · split
    · simp [wf]
    · split
      · simp [wf]
      · next x heq =>
          have hx : x ∈ l.filter fun z => !isEmptySet z := by
            rw [heq]; exact List.mem_cons_self _ _
          exact h x (List.mem_filter.mp hx).1
      · next x y rest heq =>
          have hsub : ∀ z ∈ x :: y :: rest, wf z = true := by
            intro z hz
            rw [← heq] at hz
            exact h z (List.mem_filter.mp hz).1
          simp only [wf, Bool.and_eq_true, decide_eq_true_eq]
          refine ⟨by simp, wfList_iff.mpr hsub⟩

theorem mkConj_wf {xs : List Exp} (h : ∀ x ∈ xs, wf x = true) :
    wf (mkConj xs) = true := by
  rw [mkConj]
  refine conjIdent_wf ?_
  intro x hx
  exact flattenConj_wf h x (mem_sortExps.mp (dedupAdj_subset hx))

theorem mkDisj_wf {xs : List Exp} (h : ∀ x ∈ xs, wf x = true) :
    wf (mkDisj xs) = true := by
  rw [mkDisj]
  refine disjIdent_wf ?_
  intro x hx
  exact flattenDisj_wf h x (mem_sortExps.mp (dedupAdj_subset hx))

/-- `Normalised` preserves well-formedness. -/
theorem wf_Normalised : ∀ {e : Exp}, wf e = true → wf (Normalised e) = true := by
  intro e
  induction e using expInd with
  | hes => intro h; exact h
  | hee => intro h; exact h
  | hac => intro h; exact h
  | hch c => intro h; exact h
  | hcc s f =>
      intro h
      rw [Normalised]
      split
      · exact h
      · exact mkCharClass_wf (by simpa [wf] using h)
  | hkl x f ih =>
      intro h
      have hx : wf x = true := by simpa [wf] using h
      rw [Normalised]
      split
      · exact h
      · exact mkKleene_wf (ih hx)
  | hcat a b f ih1 ih2 =>
      intro h
      simp only [wf, Bool.and_eq_true] at h
      rw [Normalised]
      split
      · simp [wf, h.1, h.2]
      · exact mkConcat_wf (ih1 h.1) (ih2 h.2)
  | hcmp x f ih =>
      intro h
      have hx : wf x = true := by simpa [wf] using h
      rw [Normalised]
      split
      · exact h
      · exact mkComplement_wf (ih hx)
  | hconj xs f ih =>
      intro h
      simp only [wf, Bool.and_eq_true, decide_eq_true_eq] at h
      rw [Normalised]
      split
      · simp only [wf, Bool.and_eq_true, decide_eq_true_eq]
        exact ⟨h.1, h.2⟩
      · refine mkConj_wf ?_
        rw [normList_eq]
        intro x hx
        rcases List.mem_map.mp hx with ⟨y, hy, rfl⟩
        exact ih y hy (wfList_iff.mp h.2 y hy)
  | hdisj xs f ih =>
      intro h
      simp only [wf, Bool.and_eq_true, decide_eq_true_eq] at h
      rw [Normalised]
      split
      · simp only [wf, Bool.and_eq_true, decide_eq_true_eq]
        exact ⟨h.1, h.2⟩
      · refine mkDisj_wf ?_
        rw [normList_eq]
        intro x hx
        rcases List.mem_map.mp hx with ⟨y, hy, rfl⟩
        exact ih y hy (wfList_iff.mp h.2 y hy)

/-- `Derivative` preserves well-formedness. -/
theorem wf_Derivative : ∀ {e : Exp}, wf e = true → ∀ a : Int, wf (Derivative e a) = true := by
  intro e
  induction e using expInd with
  | hes => intro _ a; rfl
  | hee => intro _ a; rfl
  | hac => intro _ a; rfl
  | hch c =>
      intro _ a
      rw [Derivative]
      split <;> rfl
  | hcc s f =>
      intro _ a
      rw [Derivative]
      split <;> rfl
  | hkl x f ih =>
      intro h a
      have hx : wf x = true := by simpa [wf] using h
      rw [Derivative]
      simp [wf, ih hx a, hx]
  | hcat a b f ih1 ih2 =>
      intro h c
      simp only [wf, Bool.and_eq_true] at h
      have hn : wf (Nullability a) = true := by
        rcases nullability_atom h.1 with hh | hh <;> rw [hh] <;> rfl
      rw [Derivative]
      simp [wf, wfList, ih1 h.1 c, ih2 h.2 c, h.1, h.2, hn]
  | hcmp x f ih =>
      intro h a
      have hx : wf x = true := by simpa [wf] using h
      rw [Derivative]
      simp [wf, ih hx a]
  | hconj xs f ih =>
      intro h a
      simp only [wf, Bool.and_eq_true, decide_eq_true_eq] at h
      rw [Derivative]
      simp only [wf, Bool.and_eq_true, decide_eq_true_eq]
      constructor
      · rw [derivList_eq]
        simpa using h.1
      · refine wfList_iff.mpr ?_
        rw [derivList_eq]
        intro z hz
        rcases List.mem_map.mp hz with ⟨y, hy, rfl⟩
        exact ih y hy (wfList_iff.mp h.2 y hy) a
  | hdisj xs f ih =>
      intro h a
      simp only [wf, Bool.and_eq_true, decide_eq_true_eq] at h
      rw [Derivative]
      simp only [wf, Bool.and_eq_true, decide_eq_true_eq]
      constructor
      · rw [derivList_eq]
        simpa using h.1
      · refine wfList_iff.mpr ?_
        rw [derivList_eq]
        intro z hz
        rcases List.mem_map.mp hz with ⟨y, hy, rfl⟩
        exact ih y hy (wfList_iff.mp h.2 y hy) a

/-- The Brzozowski derivative computes the left quotient of the
language (spec §4.4 and the glossary): `w ∈ L(∂ₐe)` iff `a·w ∈ L(e)`. -/
theorem derivative_lang : ∀ {e : Exp}, wf e = true →
    ∀ (a : Int) (w : List Int), LangOf (Derivative e a) w ↔ LangOf e (a :: w) := by
  intro e
  induction e using expInd with
  | hes => intro _ a w; simp [Derivative, LangOf]
  | hee => intro _ a w; simp [Derivative, LangOf]
  | hac => intro _ a w; simp [Derivative, LangOf]
  | hch c =>
      intro _ a w
      rw [Derivative]
      by_cases h : a = c
      · rw [if_pos h]
        subst h
        simp [LangOf]
      · rw [if_neg h]
        simp only [LangOf]
        refine iff_of_false (by simp) ?_
        intro hc
        injection hc with h1 h2
        exact h h1
  | hcc s f =>
      intro _ a w
      rw [Derivative]
      by_cases h : a ∈ s
      · rw [if_pos h]
        simp only [LangOf]
        constructor
        · rintro rfl
          exact ⟨a, h, rfl⟩
        · rintro ⟨r, hr, heq⟩
          simp only [List.cons.injEq] at heq
          exact heq.2
      · rw [if_neg h]
        simp only [LangOf]
        refine iff_of_false (by simp) ?_
        rintro ⟨r, hr, heq⟩
        simp only [List.cons.injEq] at heq
        exact h (heq.1 ▸ hr)
  | hkl x f ih =>
      intro hw a w
      have hx : wf x = true := by simpa [wf] using hw
      rw [Derivative]
      simp only [LangOf]
      rw [star_cons]
      constructor
      · rintro ⟨u, v, rfl, h1, h2⟩
        exact ⟨u, v, rfl, (ih hx a u).mp h1, h2⟩
      · rintro ⟨u, v, rfl, h1, h2⟩
        exact ⟨u, v, rfl, (ih hx a u).mpr h1, h2⟩
  | hcat h t f ih1 ih2 =>
      intro hw a w
      simp only [wf, Bool.and_eq_true] at hw
      rw [Derivative]
      simp only [LangOf, AnyLang]
      constructor
      · intro hr
        rcases hr with ⟨u, v, hww, h1, h2⟩ | hr'
        · subst hww
          exact ⟨a :: u, v, rfl, (ih1 hw.1 a u).mp h1, h2⟩
        · rcases hr' with ⟨u, v, hww, h1, h2⟩ | hF
          · rcases (nullability_lang_word hw.1 u).mp h1 with ⟨rfl, hnull⟩
            simp only [List.nil_append] at hww
            subst hww
            exact ⟨[], a :: w, rfl, hnull, (ih2 hw.2 a w).mp h2⟩
          · exact hF.elim
      · rintro ⟨u, v, hww, h1, h2⟩
        cases u with
        | nil =>
            simp only [List.nil_append] at hww
            subst hww
            right; left
            exact ⟨[], w, rfl, (nullability_lang_word hw.1 []).mpr ⟨rfl, h1⟩,
              (ih2 hw.2 a w).mpr h2⟩
        | cons b u' =>
            rw [List.cons_append] at hww
            injection hww with hb ht'
            subst hb
            left
            exact ⟨u', v, ht', (ih1 hw.1 a u').mpr h1, h2⟩
  | hcmp x f ih =>
      intro hw a w
      have hx : wf x = true := by simpa [wf] using hw
      rw [Derivative]
      simp only [LangOf]
      exact not_congr (ih hx a w)
  | hconj xs f ih =>
      intro hw a w
      simp only [wf, Bool.and_eq_true, decide_eq_true_eq] at hw
      rw [Derivative]
      simp only [LangOf, allLang_iff, derivList_eq]
      constructor
      · intro h x hx
        exact (ih x hx (wfList_iff.mp hw.2 x hx) a w).mp
          (h (Derivative x a) (List.mem_map_of_mem _ hx))
      · intro h y hy
        rcases List.mem_map.mp hy with ⟨x, hx, rfl⟩
        exact (ih x hx (wfList_iff.mp hw.2 x hx) a w).mpr (h x hx)
  | hdisj xs f ih =>
      intro hw a w
      simp only [wf, Bool.and_eq_true, decide_eq_true_eq] at hw
      rw [Derivative]
      simp only [LangOf, anyLang_iff, derivList_eq]
      constructor
      · rintro ⟨y, hy, h⟩
        rcases List.mem_map.mp hy with ⟨x, hx, rfl⟩
        exact ⟨x, hx, (ih x hx (wfList_iff.mp hw.2 x hx) a w).mp h⟩
      · rintro ⟨x, hx, h⟩
        exact ⟨Derivative x a, List.mem_map_of_mem _ hx,
          (ih x hx (wfList_iff.mp hw.2 x hx) a w).mpr h⟩

/-- The direct matcher decides language membership (spec §4.6). -/
theorem match_lang : ∀ (s : List Int) (e : Exp), wf e = true →
    (Match e s = true ↔ LangOf e s) := by
  intro s
  induction s with
  | nil =>
      intro e hw
      simp only [Match, List.foldl_nil]
      rw [isEmptyString_eq]
      exact nullability_lang hw
  | cons a t ih =>
      intro e hw
      have h1 : Match e (a :: t) = Match (matchStep e a) t := by
        simp [Match, List.foldl_cons]
      rw [h1]
      simp only [matchStep]
      rw [ih _ (wf_Normalised (wf_Derivative hw a)), Normalised_lang]
      exact derivative_lang hw a t

/-- C2: matching `a·t` against `e` is equivalent to matching `t`
against the derivative: `Match(e, a·t) = Match(Derivative(e, a), t)`
for every well-formed expression. -/
theorem claim_C2 : ∀ (e : Exp) (a : Int) (t : List Int), wf e = true →
    Match e (a :: t) = Match (Derivative e a) t := by
  intro e a t hw
  have h1 := match_lang (a :: t) e hw
  have h2 := match_lang t (Derivative e a) (wf_Derivative hw a)
  have h3 := derivative_lang hw a t
  cases hm1 : Match e (a :: t) <;> cases hm2 : Match (Derivative e a) t <;> simp_all

/-- Witness for C2 at a concrete input. -/
theorem claim_C2_witness :
    wf (Concatenation (Character 97) (KleeneClosure (Character 98))) = true ∧
    Match (Concatenation (Character 97) (KleeneClosure (Character 98))) [97, 98] =
      Match (Derivative (Concatenation (Character 97) (KleeneClosure (Character 98))) 97)
        [98] :=
  ⟨by decide, claim_C2 _ 97 [98] (by decide)⟩

/-- C3: `Nullability e` returns `EmptyString` exactly when ε is in the
language of `e` and returns `EmptySet` otherwise, and
`Match(e, ε) = true` iff `Nullability e = EmptyString` — for every
well-formed expression. -/
theorem claim_C3 : ∀ e : Exp, wf e = true →
    ((Nullability e = EmptyString ↔ LangOf e []) ∧
     (Nullability e ≠ EmptyString → Nullability e = EmptySet) ∧
     (Match e [] = true ↔ Nullability e = EmptyString)) := by
  intro e hw
  refine ⟨nullability_lang hw, ?_, ?_⟩
  · intro h
    exact (nullability_atom hw).resolve_right h
  · simp only [Match, List.foldl_nil]
    exact isEmptyString_eq

/-- Witness for C3 at a concrete input. -/
theorem claim_C3_witness :
    wf (KleeneClosure (Character 98)) = true ∧
    (Nullability (KleeneClosure (Character 98)) = EmptyString ↔
      LangOf (KleeneClosure (Character 98)) []) ∧
    (Nullability (KleeneClosure (Character 98)) ≠ EmptyString →
      Nullability (KleeneClosure (Character 98)) = EmptySet) ∧
    (Match (KleeneClosure (Character 98)) [] = true ↔
      Nullability (KleeneClosure (Character 98)) = EmptyString) :=
  ⟨by decide, claim_C3 _ (by decide)⟩

/-- Union of a list of rune sets. -/
def unionl : List (Finset Int) → Finset Int
  | [] => ∅
  | c :: cs => c ∪ unionl cs

theorem mem_unionl {l : List (Finset Int)} {a : Int} :
    a ∈ unionl l ↔ ∃ c ∈ l, a ∈ c := by
  induction l with
  | nil => simp [unionl]
  | cons c cs ih => simp [unionl, ih]

theorem subset_unionl {l : List (Finset Int)} {c : Finset Int} (h : c ∈ l) :
    c ⊆ unionl l := by
  intro a ha
  exact mem_unionl.mpr ⟨c, h, ha⟩

/-- The structural invariant of a partition (spec §4.5): explicit
classes are non-empty and pairwise disjoint, and the exception set of
the Σ-covering default class is exactly the union of the explicit
classes (the default class is the complement of the explicit ones). -/
def PartInv (p : Partition) : Prop :=
  (∀ c ∈ p.2, c ≠ ∅) ∧
  List.Pairwise (fun c₁ c₂ => Disjoint c₁ c₂) p.2 ∧
  p.1 = unionl p.2

theorem unionl_filter_ne {l : List (Finset Int)} :
    unionl (l.filter (· ≠ ∅)) = unionl l := by
  induction l with
  | nil => rfl
  | cons c cs ih =>
      by_cases h : c = ∅
      · rw [List.filter_cons_of_neg (by simp [h])]
        rw [unionl, ih, h]
        simp
      · rw [List.filter_cons_of_pos (by simp [h])]
        rw [unionl, unionl, ih]

theorem refinePart_inv {p q : Partition} (hp : PartInv p) (hq : PartInv q) :
    PartInv (refinePart p q) := by
  obtain ⟨hp1, hp2, hp3⟩ := hp
  obtain ⟨hq1, hq2, hq3⟩ := hq
  have hpA : ∀ A ∈ p.2, A ⊆ p.1 := fun A hA => hp3 ▸ subset_unionl hA
  have hqB : ∀ B ∈ q.2, B ⊆ q.1 := fun B hB => hq3 ▸ subset_unionl hB
  refine ⟨?_, ?_, ?_⟩
  · intro c hc
    simp only [refinePart, List.mem_filter] at hc
    exact of_decide_eq_true hc.2
  · simp only [refinePart]
    refine List.Pairwise.filter _ ?_
    rw [List.pairwise_append]
    refine ⟨?_, ?_, ?_⟩
    · rw [List.pairwise_append]
      refine ⟨?_, ?_, ?_⟩
      · refine List.Pairwise.map _ ?_ hp2
        intro A A' hAA'
        rw [Finset.disjoint_left] at hAA' ⊢
        intro x hx hx'
        exact hAA' (Finset.mem_sdiff.mp hx).1 (Finset.mem_sdiff.mp hx').1
      · refine List.Pairwise.map _ ?_ hq2
        intro B B' hBB'
        rw [Finset.disjoint_left] at hBB' ⊢
        intro x hx hx'
        exact hBB' (Finset.mem_sdiff.mp hx).1 (Finset.mem_sdiff.mp hx').1
      · intro a ha b hb
        rcases List.mem_map.mp ha with ⟨A, hA, rfl⟩
        rcases List.mem_map.mp hb with ⟨B, hB, rfl⟩
        rw [Finset.disjoint_left]
        intro x hx hx'
        have hx1 : x ∈ p.1 := hpA A hA (Finset.mem_sdiff.mp hx).1
        exact (Finset.mem_sdiff.mp hx').2 hx1
    · rw [List.pairwise_flatten]
      refine ⟨?_, ?_⟩
      · intro s hs
        rcases List.mem_map.mp hs with ⟨A, hA, rfl⟩
        refine List.Pairwise.map _ ?_ hq2
        intro B B' hBB'
        rw [Finset.disjoint_left] at hBB' ⊢
        intro x hx hx'
        exact hBB' (Finset.mem_inter.mp hx).2 (Finset.mem_inter.mp hx').2
      · refine List.Pairwise.map _ ?_ hp2
        intro A A' hAA' s hs t ht
        rcases List.mem_map.mp hs with ⟨B, hB, rfl⟩
        rcases List.mem_map.mp ht with ⟨B', hB', rfl⟩
        rw [Finset.disjoint_left] at hAA' ⊢
        intro x hx hx'
        exact hAA' (Finset.mem_inter.mp hx).1 (Finset.mem_inter.mp hx').1
    · intro a ha b hb
      rcases List.mem_append.mp ha with ha' | ha'
      · rcases List.mem_map.mp ha' with ⟨A, hA, rfl⟩
        rcases List.mem_flatten.mp hb with ⟨s, hs, hbs⟩
        rcases List.mem_map.mp hs with ⟨A', hA', rfl⟩
        rcases List.mem_map.mp hbs with ⟨B, hB, rfl⟩
        rw [Finset.disjoint_left]
        intro x hx hx'
        have hx2 : x ∈ q.1 := hqB B hB (Finset.mem_inter.mp hx').2
        exact (Finset.mem_sdiff.mp hx).2 hx2
      · rcases List.mem_map.mp ha' with ⟨B, hB, rfl⟩
        rcases List.mem_flatten.mp hb with ⟨s, hs, hbs⟩
        rcases List.mem_map.mp hs with ⟨A, hA, rfl⟩
        rcases List.mem_map.mp hbs with ⟨B', hB', rfl⟩
        rw [Finset.disjoint_left]
        intro x hx hx'
        have hx1 : x ∈ p.1 := hpA A hA (Finset.mem_inter.mp hx').1
        exact (Finset.mem_sdiff.mp hx).2 hx1
  · simp only [refinePart]
    rw [unionl_filter_ne]
    ext a
    constructor
    · intro ha
      rw [mem_unionl]
      rcases Finset.mem_union.mp ha with ha' | ha'
      · rcases mem_unionl.mp (hp3 ▸ ha') with ⟨A, hA, haA⟩
        by_cases hd : a ∈ q.1
        · rcases mem_unionl.mp (hq3 ▸ hd) with ⟨B, hB, haB⟩
          refine ⟨A ∩ B, ?_, Finset.mem_inter.mpr ⟨haA, haB⟩⟩
          refine List.mem_append.mpr (Or.inr ?_)
          exact List.mem_flatten.mpr ⟨_, List.mem_map_of_mem _ hA,
            List.mem_map_of_mem _ hB⟩
        · refine ⟨A \ q.1, ?_, Finset.mem_sdiff.mpr ⟨haA, hd⟩⟩
          refine List.mem_append.mpr (Or.inl (List.mem_append.mpr (Or.inl ?_)))
          exact List.mem_map_of_mem _ hA
      · rcases mem_unionl.mp (hq3 ▸ ha') with ⟨B, hB, haB⟩
        by_cases hd : a ∈ p.1
        · rcases mem_unionl.mp (hp3 ▸ hd) with ⟨A, hA, haA⟩
          refine ⟨A ∩ B, ?_, Finset.mem_inter.mpr ⟨haA, haB⟩⟩
          refine List.mem_append.mpr (Or.inr ?_)
          exact List.mem_flatten.mpr ⟨_, List.mem_map_of_mem _ hA,
            List.mem_map_of_mem _ hB⟩
        · refine ⟨B \ p.1, ?_, Finset.mem_sdiff.mpr ⟨haB, hd⟩⟩
          refine List.mem_append.mpr (Or.inl (List.mem_append.mpr (Or.inr ?_)))
          exact List.mem_map_of_mem _ hB
    · intro ha
      rcases mem_unionl.mp ha with ⟨c, hc, hac⟩
      rcases List.mem_append.mp hc with hc' | hc'
      · rcases List.mem_append.mp hc' with hc'' | hc''
        · rcases List.mem_map.mp hc'' with ⟨A, hA, rfl⟩
          exact Finset.mem_union.mpr (Or.inl (hpA A hA (Finset.mem_sdiff.mp hac).1))
        · rcases List.mem_map.mp hc'' with ⟨B, hB, rfl⟩
          exact Finset.mem_union.mpr (Or.inr (hqB B hB (Finset.mem_sdiff.mp hac).1))
      · rcases List.mem_flatten.mp hc' with ⟨s, hs, hcs⟩
        rcases List.mem_map.mp hs with ⟨A, hA, rfl⟩
        rcases List.mem_map.mp hcs with ⟨B, hB, rfl⟩
        exact Finset.mem_union.mpr (Or.inl (hpA A hA (Finset.mem_inter.mp hac).1))

theorem partInv_nil : PartInv ((∅ : Finset Int), ([] : List (Finset Int))) :=
  ⟨by simp, List.Pairwise.nil, rfl⟩

theorem partList_inv {xs : List Exp}
    (ih : ∀ x ∈ xs, PartInv (Partitions x)) : PartInv (partList xs) := by
  induction xs with
  | nil => exact partInv_nil
  | cons x xs ihl =>
      rw [partList]
      exact refinePart_inv (ih x (List.mem_cons_self _ _))
        (ihl fun z hz => ih z (List.mem_cons_of_mem _ hz))

/-- Every partition computed by `Partitions` satisfies the structural
invariant. -/
theorem partitions_inv : ∀ e : Exp, PartInv (Partitions e) := by
  intro e
  induction e using expInd with
  | hes => exact partInv_nil
  | hee => exact partInv_nil
  | hac => exact partInv_nil
  | hch c =>
      refine ⟨?_, ?_, ?_⟩
      · intro c' hc'
        simp only [Partitions, List.mem_singleton] at hc'
        subst hc'
        exact Finset.singleton_ne_empty c
      · simp [Partitions]
      · simp [Partitions, unionl]
  | hcc s f =>
      rw [Partitions]
      split
      · exact partInv_nil
      · next h =>
          refine ⟨?_, ?_, ?_⟩
          · intro c' hc'
            simp only [List.mem_singleton] at hc'
            subst hc'
            exact h
          · simp
          · simp [unionl]
  | hkl x f ih => exact ih
  | hcat a b f ih1 ih2 =>
      rw [Partitions]
      split
      · exact refinePart_inv ih1 ih2
      · exact ih1
  | hcmp x f ih => exact ih
  | hconj xs f ih => exact partList_inv ih
  | hdisj xs f ih => exact partList_inv ih

/-- C6: the classes output by `Partitions e` form a partition of the
alphabet Σ: the explicit classes are pairwise disjoint, the first class
is the Σ-covering default, represented as the complement of the
explicit classes (its exception set is exactly their union), and every
rune lies in the default class or in some explicit class. -/
theorem claim_C6 : ∀ e : Exp,
    List.Pairwise (fun c₁ c₂ => Disjoint c₁ c₂) (Partitions e).2 ∧
    (Partitions e).1 = unionl (Partitions e).2 ∧
    (∀ a : Int, cMem a (true, (Partitions e).1) = true ∨
      ∃ c ∈ (Partitions e).2, a ∈ c) := by
  intro e
  obtain ⟨h1, h2, h3⟩ := partitions_inv e
  refine ⟨h2, h3, ?_⟩
  intro a
  by_cases h : a ∈ (Partitions e).1
  · right
    rw [h3] at h
    exact mem_unionl.mp h
  · left
    simp [cMem, h]

/-- The classes of an arbitrary partition value. -/
def classesOfP (p : Partition) : List RuneClass :=
  (true, p.1) :: p.2.map fun c => (false, c)

theorem classesOf_eq (e : Exp) : classesOf e = classesOfP (Partitions e) := rfl

theorem refinePart_subclass {p q : Partition} {C : RuneClass}
    (hC : C ∈ classesOfP (refinePart p q)) :
    ∃ C₁ ∈ classesOfP p, ∃ C₂ ∈ classesOfP q,
      ∀ a : Int, cMem a C = true → cMem a C₁ = true ∧ cMem a C₂ = true := by
  rcases List.mem_cons.mp hC with rfl | hC'
  · refine ⟨(true, p.1), List.mem_cons_self _ _, (true, q.1),
      List.mem_cons_self _ _, ?_⟩
    intro a ha
    simp only [cMem, decide_eq_true_eq, refinePart, Finset.mem_union] at ha ⊢
    constructor
    · exact fun h => ha (Or.inl h)
    · exact fun h => ha (Or.inr h)
  · rcases List.mem_map.mp hC' with ⟨c, hc, rfl⟩
    simp only [refinePart, List.mem_filter, List.mem_append] at hc
    rcases hc.1 with (hc' | hc') | hc'
    · rcases List.mem_map.mp hc' with ⟨A, hA, rfl⟩
      refine ⟨(false, A), List.mem_cons_of_mem _ (List.mem_map_of_mem _ hA),
        (true, q.1), List.mem_cons_self _ _, ?_⟩
      intro a ha
      simp only [cMem, decide_eq_true_eq] at ha ⊢
      exact ⟨(Finset.mem_sdiff.mp ha).1, (Finset.mem_sdiff.mp ha).2⟩
    · rcases List.mem_map.mp hc' with ⟨B, hB, rfl⟩
      refine ⟨(true, p.1), List.mem_cons_self _ _,
        (false, B), List.mem_cons_of_mem _ (List.mem_map_of_mem _ hB), ?_⟩
      intro a ha
      simp only [cMem, decide_eq_true_eq] at ha ⊢
      exact ⟨(Finset.mem_sdiff.mp ha).2, (Finset.mem_sdiff.mp ha).1⟩
    · rcases List.mem_flatten.mp hc' with ⟨s, hs, hcs⟩
      rcases List.mem_map.mp hs with ⟨A, hA, rfl⟩
      rcases List.mem_map.mp hcs with ⟨B, hB, rfl⟩
      refine ⟨(false, A), List.mem_cons_of_mem _ (List.mem_map_of_mem _ hA),
        (false, B), List.mem_cons_of_mem _ (List.mem_map_of_mem _ hB), ?_⟩
      intro a ha
      simp only [cMem, decide_eq_true_eq] at ha ⊢
      exact ⟨(Finset.mem_inter.mp ha).1, (Finset.mem_inter.mp ha).2⟩

theorem partList_subclass : ∀ {xs : List Exp} {C : RuneClass},
    C ∈ classesOfP (partList xs) →
    ∀ x ∈ xs, ∃ Cx ∈ classesOfP (Partitions x),
      ∀ a : Int, cMem a C = true → cMem a Cx = true := by
  intro xs
  induction xs with
  | nil => intro C _ x hx; simp at hx
  | cons x xs ih =>
      intro C hC y hy
      rw [partList] at hC
      rcases refinePart_subclass hC with ⟨C₁, hC₁, C₂, hC₂, hmem⟩
      rcases List.mem_cons.mp hy with rfl | hy'
      · exact ⟨C₁, hC₁, fun a ha => (hmem a ha).1⟩
      · rcases ih hC₂ y hy' with ⟨Cy, hCy, hmy⟩
        exact ⟨Cy, hCy, fun a ha => hmy a (hmem a ha).2⟩

theorem norm_kleene (x : Exp) :
    Normalised (.kleeneClosure x false) = mkKleene (Normalised x) := by
  rw [Normalised]
  simp

theorem norm_concat (p q : Exp) :
    Normalised (.concatenation p q false) = mkConcat (Normalised p) (Normalised q) := by
  rw [Normalised]
  simp

theorem norm_compl (x : Exp) :
    Normalised (.complement x false) = mkComplement (Normalised x) := by
  rw [Normalised]
  simp

theorem norm_conj (xs : List Exp) :
    Normalised (.conjunction xs false) = mkConj (normList xs) := by
  rw [Normalised]
  simp

theorem norm_disj (xs : List Exp) :
    Normalised (.disjunction xs false) = mkDisj (normList xs) := by
  rw [Normalised]
  simp

theorem mkConcat_emptyset (x : Exp) : mkConcat Exp.emptySet x = Exp.emptySet := by
  have hc : ((concatFactors Exp.emptySet ++ concatFactors x).any isEmptySet) = true := by
    simp [concatFactors, isEmptySet]
  rw [mkConcat, mkConcatList, if_pos hc]

/-- Partition soundness (spec §4.5): two runes of one class of
`Partitions e` have structurally equal normalised derivatives. -/
theorem partition_sound : ∀ {e : Exp}, wf e = true →
    ∀ C ∈ classesOf e, ∀ a b : Int, cMem a C = true → cMem b C = true →
      Normalised (Derivative e a) = Normalised (Derivative e b) := by
  intro e
  induction e using expInd with
  | hes => intro _ C _ a b _ _; rfl
  | hee => intro _ C _ a b _ _; rfl
  | hac => intro _ C _ a b _ _; rfl
  | hch c =>
      intro _ C hC a b ha hb
      rw [classesOf_eq] at hC
      simp only [Partitions, classesOfP, List.map_cons, List.map_nil] at hC
      rcases List.mem_cons.mp hC with rfl | hC'
      · simp only [cMem, decide_eq_true_eq, Finset.mem_singleton] at ha hb
        rw [Derivative, Derivative, if_neg ha, if_neg hb]
      · rcases List.mem_singleton.mp hC' with rfl
        simp only [cMem, decide_eq_true_eq, Finset.mem_singleton] at ha hb
        subst ha; subst hb; rfl
  | hcc s f =>
      intro _ C hC a b ha hb
      rw [classesOf_eq] at hC
      by_cases hs : s = ∅
      · rw [show Partitions (Exp.characterClass s f) = (∅, []) from by
          rw [Partitions, if_pos hs]] at hC
        simp only [classesOfP, List.map_nil] at hC
        rcases List.mem_singleton.mp hC with rfl
        rw [Derivative, Derivative, if_neg (by simp [hs]), if_neg (by simp [hs])]
      · rw [show Partitions (Exp.characterClass s f) = (s, [s]) from by
          rw [Partitions, if_neg hs]] at hC
        simp only [classesOfP, List.map_cons, List.map_nil] at hC
        rcases List.mem_cons.mp hC with rfl | hC'
        · simp only [cMem, decide_eq_true_eq] at ha hb
          rw [Derivative, Derivative, if_neg ha, if_neg hb]
        · rcases List.mem_singleton.mp hC' with rfl
          simp only [cMem, decide_eq_true_eq] at ha hb
          rw [Derivative, Derivative, if_pos ha, if_pos hb]
  | hkl x f ih =>
      intro hw C hC a b ha hb
      have hx : wf x = true := by simpa [wf] using hw
      have hC' : C ∈ classesOf x := hC
      rw [Derivative, Derivative, norm_concat, norm_concat, ih hx C hC' a b ha hb]
  | hcat h t f ih1 ih2 =>
      intro hw C hC a b ha hb
      simp only [wf, Bool.and_eq_true] at hw
      rw [Derivative, Derivative, norm_disj, norm_disj]
      simp only [normList]
      rw [norm_concat, norm_concat, norm_concat, norm_concat]
      by_cases hnull : isEmptyString (Nullability h) = true
      · have hC' : C ∈ classesOfP (refinePart (Partitions h) (Partitions t)) := by
          rw [classesOf_eq] at hC
          simp only [Partitions, hnull, if_pos] at hC
          exact hC
        rcases refinePart_subclass hC' with ⟨C₁, h₁, C₂, h₂, hmem⟩
        rw [ih1 hw.1 C₁ h₁ a b (hmem a ha).1 (hmem b hb).1,
          ih2 hw.2 C₂ h₂ a b (hmem a ha).2 (hmem b hb).2]
      · have hne : Nullability h = Exp.emptySet := by
          rcases nullability_atom hw.1 with hh | hh
          · exact hh
          · rw [hh] at hnull; simp [isEmptyString] at hnull
        rw [hne]
        simp only [Normalised]
        rw [mkConcat_emptyset, mkConcat_emptyset]
        have hC' : C ∈ classesOf h := by
          rw [classesOf_eq] at hC
          simp only [Partitions, hnull, if_neg, Bool.false_eq_true] at hC
          exact hC
        rw [ih1 hw.1 C hC' a b ha hb]
  | hcmp x f ih =>
      intro hw C hC a b ha hb
      have hx : wf x = true := by simpa [wf] using hw
      have hC' : C ∈ classesOf x := hC
      rw [Derivative, Derivative, norm_compl, norm_compl, ih hx C hC' a b ha hb]
  | hconj xs f ih =>
      intro hw C hC a b ha hb
      simp only [wf, Bool.and_eq_true, decide_eq_true_eq] at hw
      rw [Derivative, Derivative, norm_conj, norm_conj]
      have hl : ∀ c : Int, normList (derivList xs c) =
          xs.map fun x => Normalised (Derivative x c) := by
        intro c
        rw [normList_eq, derivList_eq, List.map_map]
        rfl
      rw [hl a, hl b]
      have hC' : C ∈ classesOfP (partList xs) := hC
      congr 1
      refine List.map_congr_left ?_
      intro x hx
      rcases partList_subclass hC' x hx with ⟨Cx, hCx, hm⟩
      exact ih x hx (wfList_iff.mp hw.2 x hx) Cx hCx a b (hm a ha) (hm b hb)
  | hdisj xs f ih =>
      intro hw C hC a b ha hb
      simp only [wf, Bool.and_eq_true, decide_eq_true_eq] at hw
      rw [Derivative, Derivative, norm_disj, norm_disj]
      have hl : ∀ c : Int, normList (derivList xs c) =
          xs.map fun x => Normalised (Derivative x c) := by
        intro c
        rw [normList_eq, derivList_eq, List.map_map]
        rfl
      rw [hl a, hl b]
      have hC' : C ∈ classesOfP (partList xs) := hC
      congr 1
      refine List.map_congr_left ?_
      intro x hx
      rcases partList_subclass hC' x hx with ⟨Cx, hCx, hm⟩
      exact ih x hx (wfList_iff.mp hw.2 x hx) Cx hCx a b (hm a ha) (hm b hb)

/-- C5: partition soundness — for every well-formed expression `e`,
every class `C` of `Partitions e` and any two runes `a, b ∈ C`, the
normalised derivatives coincide structurally:
`Normalised (Derivative e a) = Normalised (Derivative e b)`. -/
theorem claim_C5 : ∀ e : Exp, wf e = true → ∀ C ∈ classesOf e, ∀ a b : Int,
    cMem a C = true → cMem b C = true →
    Normalised (Derivative e a) = Normalised (Derivative e b) :=
  fun _ hw => partition_sound hw

/-- Witness for C5 at a concrete input: both runes 98 and 99 lie in
the default class of `Partitions (Character 97)`. -/
theorem claim_C5_witness :
    wf (Character 97) = true ∧
    (true, ({97} : Finset Int)) ∈ classesOf (Character 97) ∧
    cMem 98 (true, ({97} : Finset Int)) = true ∧
    cMem 99 (true, ({97} : Finset Int)) = true ∧
    Normalised (Derivative (Character 97) 98) =
      Normalised (Derivative (Character 97) 99) :=
  ⟨by decide, by simp [classesOf, Partitions, Character], by decide, by decide,
   claim_C5 (Character 97) (by decide) (true, ({97} : Finset Int))
     (by simp [classesOf, Partitions, Character]) 98 99 (by decide) (by decide)⟩

/-- C7 counterexample: compiling `a·b*` does **not** yield 2 states.
The worklist of spec §4.7 interns the normalised derivative of every
class, including the dead `EmptySet` state reached by the default
transitions, so the DFA has 3 states. -/
theorem claim_C7_counterexample :
    (Compile 100 (Concatenation (Character 97) (KleeneClosure (Character 98)))).map
      Prod.fst ≠ some 2 := by decide

/-- C7 (amended): for `e = Concatenation(Character a, KleeneClosure
(Character b))`: `Match(e, "a")` and `Match(e, "abbb")` return true,
`Match(e, "")` and `Match(e, "b")` return false, and `Compile(e)`
returns exactly 3 as the number of DFA states (the start state, the
`b*` state, and the dead `EmptySet` state). -/
theorem claim_C7_amended :
    Match (Concatenation (Character 97) (KleeneClosure (Character 98))) [97] = true ∧
    Match (Concatenation (Character 97) (KleeneClosure (Character 98)))
      [97, 98, 98, 98] = true ∧
    Match (Concatenation (Character 97) (KleeneClosure (Character 98))) [] = false ∧
    Match (Concatenation (Character 97) (KleeneClosure (Character 98))) [98] = false ∧
    (Compile 100 (Concatenation (Character 97) (KleeneClosure (Character 98)))).map
      Prod.fst = some 3 :=
  ⟨by decide, by decide, by decide, by decide, by decide⟩

/-- Resolution of a transition: an explicit entry if present, else the
`InvalidRune` default entry of the same state (spec §4.8). -/
def resolveT (tr : List ((Nat × Int) × Nat)) (k : Nat × Int) : Option Nat :=
  match lookupT tr k with
  | some j => some j
  | none => lookupT tr (k.1, InvalidRune)

theorem resolveT_dfaNext {dfa : DFA} {q : Nat} {a : Int} {j : Nat}
    (h : resolveT dfa.transition (q, a) = some j) : dfaNext dfa q a = j := by
  rw [resolveT] at h
  cases hl : lookupT dfa.transition (q, a) with
  | some j' =>
      rw [hl] at h
      injection h with h'
      rw [dfaNext, hl]
      exact h'
  | none =>
      rw [hl] at h
      have h2 : lookupT dfa.transition (q, InvalidRune) = some j := h
      rw [dfaNext, hl, h2]
      rfl

theorem lookupT_append_some {tr tr' : List ((Nat × Int) × Nat)} {k : Nat × Int}
    {j : Nat} (h : lookupT tr k = some j) : lookupT (tr ++ tr') k = some j := by
  induction tr with
  | nil => simp [lookupT] at h
  | cons en rest ih =>
      rw [lookupT] at h
      rw [List.cons_append, lookupT]
      split at h
      · next he => rw [if_pos he]; exact h
      · next he => rw [if_neg he]; exact ih h

theorem lookupT_append_none {tr tr' : List ((Nat × Int) × Nat)} {k : Nat × Int}
    (h : lookupT tr k = none) : lookupT (tr ++ tr') k = lookupT tr' k := by
  induction tr with
  | nil => rfl
  | cons en rest ih =>
      rw [lookupT] at h
      rw [List.cons_append, lookupT]
      split at h
      · exact absurd h (by simp)
      · next he => rw [if_neg he]; exact ih h

theorem lookupT_state_none {tr : List ((Nat × Int) × Nat)} {i : Nat} {a : Int}
    (h : ∀ en ∈ tr, en.1.1 ≠ i) : lookupT tr (i, a) = none := by
  induction tr with
  | nil => rfl
  | cons en rest ih =>
      rw [lookupT]
      rw [if_neg ?_]
      · exact ih fun en' hen' => h en' (List.mem_cons_of_mem _ hen')
      · intro he
        exact h en (List.mem_cons_self _ _) (by rw [he])

theorem lookupT_map_mem {q : Nat} {tgt : Nat} {a : Int} :
    ∀ {l : List Int}, a ∈ l →
      lookupT (l.map fun r => ((q, r), tgt)) (q, a) = some tgt := by
  intro l h
  induction l with
  | nil => simp at h
  | cons r rest ih =>
      rw [List.map_cons, lookupT]
      by_cases he : r = a
      · rw [if_pos (by rw [he])]
      · have hk : ((q, r) : Nat × Int) ≠ (q, a) := by simp [he]
        rw [if_neg hk]
        apply ih
        rcases List.mem_cons.mp h with h1 | h1
        · exact absurd h1.symm he
        · exact h1

theorem lookupT_map_none {q q' : Nat} {tgt : Nat} {a : Int} :
    ∀ {l : List Int}, (∀ r ∈ l, ((q, r) : Nat × Int) ≠ (q', a)) →
      lookupT (l.map fun r => ((q, r), tgt)) (q', a) = none := by
  intro l h
  induction l with
  | nil => rfl
  | cons r rest ih =>
      rw [List.map_cons, lookupT]
      rw [if_neg (h r (List.mem_cons_self _ _))]
      exact ih fun r' hr' => h r' (List.mem_cons_of_mem _ hr')

theorem sortM_coe (m : Multiset Int) : ((sortM m : List Int) : Multiset Int) = m := by
  induction m using Quotient.inductionOn with
  | h l => exact Quot.sound (List.perm_insertionSort _ l)

theorem sortM_sorted (m : Multiset Int) : List.Sorted (· ≤ ·) (sortM m) := by
  induction m using Quotient.inductionOn with
  | h l => exact List.sorted_insertionSort _ l

theorem sortRunes_eq_sort (c : Finset Int) : sortRunes c = c.sort (· ≤ ·) := by
  refine List.eq_of_perm_of_sorted ?_ (sortM_sorted _) (Finset.sort_sorted _ _)
  rw [← Multiset.coe_eq_coe]
  rw [show ((sortRunes c : List Int) : Multiset Int) = c.val from sortM_coe c.val]
  rw [Finset.sort]
  rw [Multiset.sort_eq]

theorem lookupT_addTrans_mem {q : Nat} {c : Finset Int} {tgt : Nat} {a : Int}
    (h : a ∈ c) : lookupT (addTrans q c tgt) (q, a) = some tgt := by
  rw [addTrans, sortRunes_eq_sort]
  exact lookupT_map_mem ((Finset.mem_sort _).mpr h)

theorem lookupT_addTrans_not_mem {q q' : Nat} {c : Finset Int} {tgt : Nat} {a : Int}
    (h : a ∉ c ∨ q' ≠ q) : lookupT (addTrans q c tgt) (q', a) = none := by
  rw [addTrans, sortRunes_eq_sort]
  apply lookupT_map_none
  intro r hr he
  rcases h with h | h
  · have hra : r = a := congrArg Prod.snd he
    exact h (hra ▸ (Finset.mem_sort _).mp hr)
  · exact h (congrArg Prod.fst he).symm

theorem partList_nonneg {xs : List Exp}
    (ih : ∀ x ∈ xs, ∀ r ∈ (Partitions x).1, (0 : Int) ≤ r) :
    ∀ r ∈ (partList xs).1, (0 : Int) ≤ r := by
  induction xs with
  | nil => intro r hr; simp [partList] at hr
  | cons x xs ihl =>
      intro r hr
      rw [partList] at hr
      have hr' : r ∈ (Partitions x).1 ∪ (partList xs).1 := hr
      rcases Finset.mem_union.mp hr' with h | h
      · exact ih x (List.mem_cons_self _ _) r h
      · exact ihl (fun y hy => ih y (List.mem_cons_of_mem _ hy)) r h

/-- All runes mentioned in the exception set of the Σ-covering default
class of a well-formed expression are genuine scalar values, so the
sentinel `InvalidRune = −1` always falls in the default class. -/
theorem partitions_nonneg : ∀ {e : Exp}, wf e = true →
    ∀ r ∈ (Partitions e).1, (0 : Int) ≤ r := by
  intro e
  induction e using expInd with
  | hes => intro _ r hr; simp [Partitions] at hr
  | hee => intro _ r hr; simp [Partitions] at hr
  | hac => intro _ r hr; simp [Partitions] at hr
  | hch c =>
      intro h r hr
      have hc : (0 : Int) ≤ c := by simpa [wf] using h
      have hr' : r ∈ ({c} : Finset Int) := hr
      rw [Finset.mem_singleton] at hr'
      rw [hr']; exact hc
  | hcc s f =>
      intro h r hr
      have hs : ∀ x ∈ s, (0 : Int) ≤ x := by simpa [wf] using h
      by_cases he : s = ∅
      · rw [Partitions, if_pos he] at hr; simp at hr
      · rw [Partitions, if_neg he] at hr
        exact hs r hr
  | hkl x f ih => intro h r hr; exact ih h r hr
  | hcat h t f ih1 ih2 =>
      intro hw r hr
      have hw' : wf h = true ∧ wf t = true := by
        simpa [wf, Bool.and_eq_true] using hw
      rw [Partitions] at hr
      by_cases hn : isEmptyString (Nullability h) = true
      · rw [if_pos hn] at hr
        have hr' : r ∈ (Partitions h).1 ∪ (Partitions t).1 := hr
        rcases Finset.mem_union.mp hr' with h1 | h1
        · exact ih1 hw'.1 r h1
        · exact ih2 hw'.2 r h1
      · rw [if_neg hn] at hr
        exact ih1 hw'.1 r hr
  | hcmp x f ih => intro h r hr; exact ih h r hr
  | hconj xs f ih =>
      intro hw r hr
      have hw2 : wfList xs = true := by
        rw [wf, Bool.and_eq_true] at hw; exact hw.2
      exact partList_nonneg (fun x hx => ih x hx (wfList_iff.mp hw2 x hx)) r hr
  | hdisj xs f ih =>
      intro hw r hr
      have hw2 : wfList xs = true := by
        rw [wf, Bool.and_eq_true] at hw; exact hw.2
      exact partList_nonneg (fun x hx => ih x hx (wfList_iff.mp hw2 x hx)) r hr

theorem defaultRep_not_mem (d : Finset Int) : defaultRep d ∉ d := by
  rw [defaultRep]
  split
  · next h =>
      intro hm
      have := Finset.le_max' d _ hm
      omega
  · next h => intro hm; exact h ⟨_, hm⟩

theorem classRep_mem {c : Finset Int} (h : c.Nonempty) : classRep c ∈ c := by
  rw [classRep, dif_pos h]
  exact Finset.min'_mem c h

theorem getD_append_left : ∀ {S : List Exp} (ext : List Exp) {i : Nat},
    i < S.length → (S ++ ext).getD i Exp.emptySet = S.getD i Exp.emptySet := by
  intro S
  induction S with
  | nil => intro ext i h; simp at h
  | cons x S ih =>
      intro ext i h
      cases i with
      | zero => rfl
      | succ n => exact ih ext (Nat.lt_of_succ_lt_succ h)

theorem getD_append_self : ∀ (S : List Exp) (x : Exp),
    (S ++ [x]).getD S.length Exp.emptySet = x := by
  intro S x
  induction S with
  | nil => rfl
  | cons y S ih => exact ih

theorem getD_mem : ∀ {S : List Exp} {i : Nat}, i < S.length →
    S.getD i Exp.emptySet ∈ S := by
  intro S
  induction S with
  | nil => intro i h; simp at h
  | cons x S ih =>
      intro i h
      cases i with
      | zero => exact List.mem_cons_self _ _
      | succ n => exact List.mem_cons_of_mem _ (ih (Nat.lt_of_succ_lt_succ h))

theorem internIdx_spec : ∀ {S : List Exp} {x : Exp} {i : Nat},
    internIdx S x = some i →
      i < S.length ∧ Compare (S.getD i Exp.emptySet) x = 0 := by
  intro S
  induction S with
  | nil => intro x i h; simp [internIdx] at h
  | cons s rest ih =>
      intro x i h
      rw [internIdx] at h
      by_cases hc : Compare s x = 0
      · rw [if_pos hc] at h
        injection h with h'
        subst h'
        exact ⟨Nat.succ_pos _, hc⟩
      · rw [if_neg hc] at h
        cases hr : internIdx rest x with
        | none => rw [hr] at h; simp at h
        | some i' =>
            rw [hr] at h
            simp only [Option.map_some'] at h
            injection h with h'
            subst h'
            obtain ⟨h1, h2⟩ := ih hr
            exact ⟨Nat.succ_lt_succ h1, h2⟩

theorem intern_spec (S : List Exp) (x : Exp) :
    ((intern S x).2 = S ∨ (intern S x).2 = S ++ [x]) ∧
    (intern S x).1 < (intern S x).2.length ∧
    Compare ((intern S x).2.getD (intern S x).1 Exp.emptySet) x = 0 := by
  rw [intern]
  cases hr : internIdx S x with
  | some i =>
      obtain ⟨h1, h2⟩ := internIdx_spec hr
      exact ⟨Or.inl rfl, h1, h2⟩
  | none =>
      refine ⟨Or.inr rfl, ?_, ?_⟩
      · simp
      · rw [getD_append_self]
        exact compare_refl x

/-- Whether the accepting table records an entry for state `i`. -/
def containsA : List (Nat × Bool) → Nat → Bool
  | [], _ => false
  | (k, _) :: rest, i => decide (k = i) || containsA rest i

theorem containsA_append : ∀ (acc rest : List (Nat × Bool)) (i : Nat),
    containsA (acc ++ rest) i = (containsA acc i || containsA rest i) := by
  intro acc
  induction acc with
  | nil => intro rest i; rfl
  | cons en acc ih =>
      intro rest i
      obtain ⟨k, v⟩ := en
      rw [List.cons_append, containsA, containsA, ih, Bool.or_assoc]

theorem lookupA_append_of_contains : ∀ {acc : List (Nat × Bool)}
    (rest : List (Nat × Bool)) {i : Nat}, containsA acc i = true →
    lookupA (acc ++ rest) i = lookupA acc i := by
  intro acc
  induction acc with
  | nil => intro rest i h; simp [containsA] at h
  | cons en acc ih =>
      intro rest i h
      obtain ⟨k, v⟩ := en
      rw [containsA] at h
      rw [List.cons_append, lookupA, lookupA]
      by_cases he : k = i
      · rw [if_pos he, if_pos he]
      · rw [if_neg he, if_neg he]
        apply ih
        simp only [Bool.or_eq_true, decide_eq_true_eq] at h
        rcases h with h | h
        · exact absurd h he
        · exact h

theorem lookupA_append_of_not_contains : ∀ {acc : List (Nat × Bool)}
    (rest : List (Nat × Bool)) {i : Nat}, containsA acc i = false →
    lookupA (acc ++ rest) i = lookupA rest i := by
  intro acc
  induction acc with
  | nil => intro rest i _; rfl
  | cons en acc ih =>
      intro rest i h
      obtain ⟨k, v⟩ := en
      rw [containsA] at h
      simp only [Bool.or_eq_false_iff, decide_eq_false_iff_not] at h
      rw [List.cons_append, lookupA, if_neg h.1]
      exact ih rest h.2

theorem containsA_false_of_keys {acc : List (Nat × Bool)} {i : Nat}
    (h : ∀ en ∈ acc, en.1 ≠ i) : containsA acc i = false := by
  induction acc with
  | nil => rfl
  | cons en acc ih =>
      obtain ⟨k, v⟩ := en
      rw [containsA]
      simp only [Bool.or_eq_false_iff, decide_eq_false_iff_not]
      exact ⟨h (k, v) (List.mem_cons_self _ _), ih fun en' hen' => h en' (List.mem_cons_of_mem _ hen')⟩

/-- Any rune of the Σ-covering default class has the same normalised
derivative as the default representative (spec §4.5/§4.7). -/
theorem defaultClass_lang {e : Exp} (hwe : wf e = true) {a : Int}
    (ha : a ∉ (Partitions e).1) (w : List Int) :
    LangOf (Normalised (Derivative e (defaultRep (Partitions e).1))) w ↔
      LangOf e (a :: w) := by
  have hclass : ((true, (Partitions e).1) : RuneClass) ∈ classesOf e :=
    List.mem_cons_self _ _
  have hnd : Normalised (Derivative e a) =
      Normalised (Derivative e (defaultRep (Partitions e).1)) :=
    partition_sound hwe _ hclass a _ (by simp [cMem, ha])
      (by simp [cMem, defaultRep_not_mem])
  rw [← hnd, Normalised_lang]
  exact derivative_lang hwe a w

/-- Correctness of `processClasses` (spec §4.7 step 2, explicit classes):
the state list only grows and stays well-formed, every recorded key
belongs to state `q`, every rune of a listed class resolves to a state
whose language is the left quotient, and runes outside all listed
classes are not recorded. -/
theorem processClasses_spec (e : Exp) (q : Nat) (hwe : wf e = true) :
    ∀ (cs : List (Finset Int)) (S : List Exp),
      (∀ x ∈ S, wf x = true) →
      (∀ c ∈ cs, ((false, c) : RuneClass) ∈ classesOf e) →
      (∀ c ∈ cs, c ≠ ∅) →
      (∃ ext, (processClasses e q cs S).1 = S ++ ext) ∧
      (∀ x ∈ (processClasses e q cs S).1, wf x = true) ∧
      (∀ en ∈ (processClasses e q cs S).2, en.1.1 = q) ∧
      (∀ a : Int, (∃ c ∈ cs, a ∈ c) →
        ∃ j, j < (processClasses e q cs S).1.length ∧
          lookupT (processClasses e q cs S).2 (q, a) = some j ∧
          ∀ w, LangOf ((processClasses e q cs S).1.getD j Exp.emptySet) w ↔
            LangOf e (a :: w)) ∧
      (∀ a : Int, (¬ ∃ c ∈ cs, a ∈ c) →
        lookupT (processClasses e q cs S).2 (q, a) = none) := by
  intro cs
  induction cs with
  | nil =>
      intro S hS _ _
      refine ⟨⟨[], (List.append_nil S).symm⟩, hS, ?_, ?_, ?_⟩
      · intro en hen; simp [processClasses] at hen
      · intro a ha; simp at ha
      · intro a _; rfl
  | cons c cs ih =>
      intro S hS hcls hne
      obtain ⟨i1, S2, hP⟩ :
          ∃ i1 S2, intern S (Normalised (Derivative e (classRep c))) = (i1, S2) :=
        ⟨_, _, rfl⟩
      have hwx : wf (Normalised (Derivative e (classRep c))) = true :=
        wf_Normalised (wf_Derivative hwe _)
      obtain ⟨hp2, hp1lt, hpcmp⟩ :=
        intern_spec S (Normalised (Derivative e (classRep c)))
      simp only [hP] at hp2 hp1lt hpcmp
      have hS2 : ∀ x ∈ S2, wf x = true := by
        rcases hp2 with h | h
        · rw [h]; exact hS
        · rw [h]
          intro y hy
          rcases List.mem_append.mp hy with hy | hy
          · exact hS y hy
          · rw [List.mem_singleton.mp hy]; exact hwx
      have hSext : ∃ e0, S2 = S ++ e0 := by
        rcases hp2 with h | h
        · exact ⟨[], by rw [h, List.append_nil]⟩
        · exact ⟨[Normalised (Derivative e (classRep c))], h⟩
      obtain ⟨⟨ext', hre⟩, hrwf, hrkeys, hrfound, hrnone⟩ :=
        ih S2 hS2 (fun c' hc' => hcls c' (List.mem_cons_of_mem _ hc'))
          (fun c' hc' => hne c' (List.mem_cons_of_mem _ hc'))
      have hstep : processClasses e q (c :: cs) S =
          ((processClasses e q cs S2).1,
            addTrans q c i1 ++ (processClasses e q cs S2).2) := by
        simp only [processClasses, hP]
      rw [hstep]
      refine ⟨?_, ?_, ?_, ?_, ?_⟩
      · obtain ⟨e0, he0⟩ := hSext
        exact ⟨e0 ++ ext', by
          show (processClasses e q cs S2).1 = S ++ (e0 ++ ext')
          rw [hre, he0, List.append_assoc]⟩
      · exact hrwf
      · intro en hen
        have hen' : en ∈ addTrans q c i1 ++ (processClasses e q cs S2).2 := hen
        rcases List.mem_append.mp hen' with h1 | h1
        · rw [addTrans] at h1
          obtain ⟨r, _, hr⟩ := List.mem_map.mp h1
          rw [← hr]
        · exact hrkeys en h1
      · intro a ha
        by_cases hac : a ∈ c
        · refine ⟨i1, ?_, ?_, ?_⟩
          · show i1 < (processClasses e q cs S2).1.length
            rw [hre, List.length_append]
            exact Nat.lt_of_lt_of_le hp1lt (Nat.le_add_right _ _)
          · exact lookupT_append_some (lookupT_addTrans_mem hac)
          · intro w
            show LangOf ((processClasses e q cs S2).1.getD i1 Exp.emptySet) w ↔
              LangOf e (a :: w)
            rw [hre, getD_append_left ext' hp1lt]
            rw [langOf_congr_compare hpcmp w]
            have hcc : c.Nonempty :=
              Finset.nonempty_iff_ne_empty.mpr (hne c (List.mem_cons_self _ _))
            have hclass : ((false, c) : RuneClass) ∈ classesOf e :=
              hcls c (List.mem_cons_self _ _)
            have hnd : Normalised (Derivative e a) =
                Normalised (Derivative e (classRep c)) :=
              partition_sound hwe _ hclass a (classRep c) (by simp [cMem, hac])
                (by simp [cMem, classRep_mem hcc])
            rw [← hnd, Normalised_lang]
            exact derivative_lang hwe a w
        · obtain ⟨c', hc', ha'⟩ := ha
          rcases List.mem_cons.mp hc' with rfl | hc'
          · exact absurd ha' hac
          · obtain ⟨j, hj, hlook, hlang⟩ := hrfound a ⟨c', hc', ha'⟩
            refine ⟨j, hj, ?_, hlang⟩
            show lookupT (addTrans q c i1 ++ (processClasses e q cs S2).2) (q, a) =
              some j
            rw [lookupT_append_none (lookupT_addTrans_not_mem (Or.inl hac))]
            exact hlook
      · intro a ha
        have hac : a ∉ c := fun h => ha ⟨c, List.mem_cons_self _ _, h⟩
        show lookupT (addTrans q c i1 ++ (processClasses e q cs S2).2) (q, a) = none
        rw [lookupT_append_none (lookupT_addTrans_not_mem (Or.inl hac))]
        exact hrnone a fun h =>
          ha ⟨h.choose, List.mem_cons_of_mem _ h.choose_spec.1, h.choose_spec.2⟩

/-- Correctness of `compileState` (spec §4.7 step 2): the state list
grows and stays well-formed, all keys belong to state `q`, the
accepting bit is the nullability of state `q`, and every rune resolves
(explicitly or through the `InvalidRune` default) to a state whose
language is the left quotient of state `q`'s language. -/
theorem compileState_sem {S : List Exp} {q : Nat} (hq : q < S.length)
    (hwf : ∀ x ∈ S, wf x = true) :
    (∃ ext, (compileState S q).1 = S ++ ext) ∧
    (∀ x ∈ (compileState S q).1, wf x = true) ∧
    (∀ en ∈ (compileState S q).2.1, en.1.1 = q) ∧
    ((compileState S q).2.2 =
      (q, isEmptyString (Nullability (S.getD q Exp.emptySet)))) ∧
    (∀ a : Int, ∃ j, j < (compileState S q).1.length ∧
      resolveT (compileState S q).2.1 (q, a) = some j ∧
      ∀ w, LangOf ((compileState S q).1.getD j Exp.emptySet) w ↔
        LangOf (S.getD q Exp.emptySet) (a :: w)) := by
  have hwe : wf (S.getD q Exp.emptySet) = true := hwf _ (getD_mem hq)
  obtain ⟨i0, S0, hD⟩ : ∃ i0 S0,
      intern S (Normalised (Derivative (S.getD q Exp.emptySet)
        (defaultRep (Partitions (S.getD q Exp.emptySet)).1))) = (i0, S0) :=
    ⟨_, _, rfl⟩
  have hwx : wf (Normalised (Derivative (S.getD q Exp.emptySet)
      (defaultRep (Partitions (S.getD q Exp.emptySet)).1))) = true :=
    wf_Normalised (wf_Derivative hwe _)
  obtain ⟨hp2, hp1lt, hpcmp⟩ :=
    intern_spec S (Normalised (Derivative (S.getD q Exp.emptySet)
      (defaultRep (Partitions (S.getD q Exp.emptySet)).1)))
  simp only [hD] at hp2 hp1lt hpcmp
  have hS0 : ∀ x ∈ S0, wf x = true := by
    rcases hp2 with h | h
    · rw [h]; exact hwf
    · rw [h]
      intro y hy
      rcases List.mem_append.mp hy with hy | hy
      · exact hwf y hy
      · rw [List.mem_singleton.mp hy]; exact hwx
  have hS0ext : ∃ e0, S0 = S ++ e0 := by
    rcases hp2 with h | h
    · exact ⟨[], by rw [h, List.append_nil]⟩
    · exact ⟨_, h⟩
  obtain ⟨hPne, hPdis, hPun⟩ := partitions_inv (S.getD q Exp.emptySet)
  obtain ⟨⟨ext', hre⟩, hrwf, hrkeys, hrfound, hrnone⟩ :=
    processClasses_spec (S.getD q Exp.emptySet) q hwe
      (Partitions (S.getD q Exp.emptySet)).2 S0 hS0
      (fun c hc => List.mem_cons_of_mem _ (List.mem_map.mpr ⟨c, hc, rfl⟩))
      (fun c hc => hPne c hc)
  have hstep : compileState S q =
      ((processClasses (S.getD q Exp.emptySet) q
          (Partitions (S.getD q Exp.emptySet)).2 S0).1,
        ((q, InvalidRune), i0) ::
          (processClasses (S.getD q Exp.emptySet) q
            (Partitions (S.getD q Exp.emptySet)).2 S0).2,
        (q, isEmptyString (Nullability (S.getD q Exp.emptySet)))) := by
    simp only [compileState, hD]
  rw [hstep]
  refine ⟨?_, ?_, ?_, rfl, ?_⟩
  · obtain ⟨e0, he0⟩ := hS0ext
    exact ⟨e0 ++ ext', by
      show (processClasses (S.getD q Exp.emptySet) q
          (Partitions (S.getD q Exp.emptySet)).2 S0).1 = S ++ (e0 ++ ext')
      rw [hre, he0, List.append_assoc]⟩
  · exact hrwf
  · intro en hen
    have hen' : en ∈ ((q, InvalidRune), i0) ::
        (processClasses (S.getD q Exp.emptySet) q
          (Partitions (S.getD q Exp.emptySet)).2 S0).2 := hen
    rcases List.mem_cons.mp hen' with rfl | h1
    · rfl
    · exact hrkeys en h1
  · intro a
    by_cases hdef : a ∈ (Partitions (S.getD q Exp.emptySet)).1
    · have hdef' : a ∈ unionl (Partitions (S.getD q Exp.emptySet)).2 := by
        rw [← hPun]; exact hdef
      obtain ⟨c, hc, hac⟩ := mem_unionl.mp hdef'
      obtain ⟨j, hj, hlook, hlang⟩ := hrfound a ⟨c, hc, hac⟩
      refine ⟨j, hj, ?_, hlang⟩
      show resolveT (((q, InvalidRune), i0) ::
          (processClasses (S.getD q Exp.emptySet) q
            (Partitions (S.getD q Exp.emptySet)).2 S0).2) (q, a) = some j
      rw [resolveT]
      have hne1 : ((q, InvalidRune), i0).1 ≠ ((q, a) : Nat × Int) := by
        intro h
        have h2 : InvalidRune = a := congrArg Prod.snd h
        have h0 : (0 : Int) ≤ a := partitions_nonneg hwe a hdef
        rw [InvalidRune] at h2
        omega
      have h1 : lookupT (((q, InvalidRune), i0) ::
          (processClasses (S.getD q Exp.emptySet) q
            (Partitions (S.getD q Exp.emptySet)).2 S0).2) (q, a) =
          lookupT (processClasses (S.getD q Exp.emptySet) q
            (Partitions (S.getD q Exp.emptySet)).2 S0).2 (q, a) := by
        rw [lookupT, if_neg hne1]
      rw [h1, hlook]
    · refine ⟨i0, ?_, ?_, ?_⟩
      · show i0 < (processClasses (S.getD q Exp.emptySet) q
            (Partitions (S.getD q Exp.emptySet)).2 S0).1.length
        rw [hre, List.length_append]
        exact Nat.lt_of_lt_of_le hp1lt (Nat.le_add_right _ _)
      · show resolveT (((q, InvalidRune), i0) ::
            (processClasses (S.getD q Exp.emptySet) q
              (Partitions (S.getD q Exp.emptySet)).2 S0).2) (q, a) = some i0
        rw [resolveT]
        by_cases hm1 : ((q, InvalidRune), i0).1 = ((q, a) : Nat × Int)
        · have h1 : lookupT (((q, InvalidRune), i0) ::
              (processClasses (S.getD q Exp.emptySet) q
                (Partitions (S.getD q Exp.emptySet)).2 S0).2) (q, a) = some i0 := by
            rw [lookupT, if_pos hm1]
          rw [h1]
        · have h1 : lookupT (((q, InvalidRune), i0) ::
              (processClasses (S.getD q Exp.emptySet) q
                (Partitions (S.getD q Exp.emptySet)).2 S0).2) (q, a) = none := by
            rw [lookupT, if_neg hm1]
            exact hrnone a fun hex => hdef (by rw [hPun]; exact mem_unionl.mpr hex)
          rw [h1]
          show lookupT (((q, InvalidRune), i0) ::
              (processClasses (S.getD q Exp.emptySet) q
                (Partitions (S.getD q Exp.emptySet)).2 S0).2) (q, InvalidRune) =
            some i0
          rw [lookupT, if_pos rfl]
      · intro w
        show LangOf ((processClasses (S.getD q Exp.emptySet) q
            (Partitions (S.getD q Exp.emptySet)).2 S0).1.getD i0 Exp.emptySet) w ↔
          LangOf (S.getD q Exp.emptySet) (a :: w)
        rw [hre, getD_append_left ext' hp1lt]
        rw [langOf_congr_compare hpcmp w]
        exact defaultClass_lang hwe hdef w

theorem resolveT_append_right {tr new : List ((Nat × Int) × Nat)} {i : Nat}
    {a : Int} {j : Nat} (hkeys : ∀ en ∈ new, en.1.1 ≠ i)
    (h : resolveT tr (i, a) = some j) : resolveT (tr ++ new) (i, a) = some j := by
  rw [resolveT] at h ⊢
  cases h1 : lookupT tr (i, a) with
  | some j' =>
      rw [h1] at h
      rw [lookupT_append_some h1]
      exact h
  | none =>
      rw [h1] at h
      have h2 : lookupT tr (i, InvalidRune) = some j := h
      have h3 : lookupT (tr ++ new) (i, a) = none := by
        rw [lookupT_append_none h1]
        exact lookupT_state_none fun en hen => hkeys en hen
      rw [h3]
      show lookupT (tr ++ new) (i, InvalidRune) = some j
      exact lookupT_append_some h2

theorem resolveT_append_left {tr new : List ((Nat × Int) × Nat)} {i : Nat}
    {a : Int} {j : Nat} (hkeys : ∀ en ∈ tr, en.1.1 ≠ i)
    (h : resolveT new (i, a) = some j) : resolveT (tr ++ new) (i, a) = some j := by
  rw [resolveT] at h ⊢
  have h1 : lookupT tr (i, a) = none := lookupT_state_none hkeys
  have h2 : lookupT tr (i, InvalidRune) = none := lookupT_state_none hkeys
  rw [lookupT_append_none h1]
  cases h3 : lookupT new (i, a) with
  | some j' => rw [h3] at h; exact h
  | none =>
      rw [h3] at h
      have h4 : lookupT new (i, InvalidRune) = some j := h
      show lookupT (tr ++ new) (i, InvalidRune) = some j
      rw [lookupT_append_none h2]
      exact h4

/-- The invariant of the `Compile` worklist loop: the first `q` states
have been processed, their accepting bits and transitions are recorded
and semantically correct, and all states are well-formed normalised
derivatives. -/
structure LoopInv (S : List Exp) (tr : List ((Nat × Int) × Nat))
    (acc : List (Nat × Bool)) (q : Nat) : Prop where
  wfS : ∀ x ∈ S, wf x = true
  qle : q ≤ S.length
  keys : ∀ en ∈ tr, en.1.1 < q
  accKeys : ∀ en ∈ acc, en.1 < q
  accDom : ∀ i, i < q → containsA acc i = true
  accSem : ∀ i, i < q →
    lookupA acc i = isEmptyString (Nullability (S.getD i Exp.emptySet))
  transSem : ∀ i, i < q → ∀ a : Int, ∃ j, j < S.length ∧
    resolveT tr (i, a) = some j ∧
    ∀ w, LangOf (S.getD j Exp.emptySet) w ↔
      LangOf (S.getD i Exp.emptySet) (a :: w)

theorem loopInv_step {S : List Exp} {tr : List ((Nat × Int) × Nat)}
    {acc : List (Nat × Bool)} {q : Nat} (hinv : LoopInv S tr acc q)
    (hq : q < S.length) :
    LoopInv (compileState S q).1 (tr ++ (compileState S q).2.1)
      (acc ++ [(compileState S q).2.2]) (q + 1) := by
  obtain ⟨⟨ext, hext⟩, hwf', hkeys', haccbit, hres⟩ := compileState_sem hq hinv.wfS
  have hlen : S.length ≤ (compileState S q).1.length := by
    rw [hext, List.length_append]
    exact Nat.le_add_right _ _
  have hstable : ∀ {i : Nat}, i < S.length →
      (compileState S q).1.getD i Exp.emptySet = S.getD i Exp.emptySet := by
    intro i hi
    rw [hext]
    exact getD_append_left ext hi
  refine ⟨hwf', ?_, ?_, ?_, ?_, ?_, ?_⟩
  · exact Nat.le_trans (Nat.succ_le_of_lt hq) hlen
  · intro en hen
    rcases List.mem_append.mp hen with h | h
    · exact Nat.lt_succ_of_lt (hinv.keys en h)
    · rw [hkeys' en h]; exact Nat.lt_succ_self q
  · intro en hen
    rcases List.mem_append.mp hen with h | h
    · exact Nat.lt_succ_of_lt (hinv.accKeys en h)
    · rw [List.mem_singleton.mp h, haccbit]
      exact Nat.lt_succ_self q
  · intro i hi
    rw [containsA_append]
    rcases Nat.lt_succ_iff_lt_or_eq.mp hi with h | h
    · rw [hinv.accDom i h]; rfl
    · rw [haccbit]
      subst h
      have h2 : containsA [(i, isEmptyString (Nullability (S.getD i Exp.emptySet)))] i =
          true := by
        rw [containsA]
        simp
      rw [h2, Bool.or_true]
  · intro i hi
    rcases Nat.lt_succ_iff_lt_or_eq.mp hi with h | h
    · rw [lookupA_append_of_contains _ (hinv.accDom i h), hinv.accSem i h,
        hstable (Nat.lt_of_lt_of_le h hinv.qle)]
    · subst h
      have hca : containsA acc i = false :=
        containsA_false_of_keys fun en hen => Nat.ne_of_lt (hinv.accKeys en hen)
      rw [lookupA_append_of_not_contains _ hca, haccbit, hstable hq]
      rw [lookupA, if_pos rfl]
  · intro i hi a
    rcases Nat.lt_succ_iff_lt_or_eq.mp hi with h | h
    · obtain ⟨j, hj, hrt, hlang⟩ := hinv.transSem i h a
      refine ⟨j, Nat.lt_of_lt_of_le hj hlen, ?_, ?_⟩
      · exact resolveT_append_right
          (fun en hen => by rw [hkeys' en hen]; exact Nat.ne_of_gt h) hrt
      · intro w
        rw [hstable hj, hstable (Nat.lt_of_lt_of_le h hinv.qle)]
        exact hlang w
    · subst h
      obtain ⟨j, hj, hrt, hlang⟩ := hres a
      refine ⟨j, hj, ?_, ?_⟩
      · exact resolveT_append_left
          (fun en hen => Nat.ne_of_lt (hinv.keys en hen)) hrt
      · intro w
        rw [hstable hq]
        exact hlang w

theorem compileLoop_sem : ∀ (fuel : Nat) (S : List Exp) (q : Nat)
    (tr : List ((Nat × Int) × Nat)) (acc : List (Nat × Bool)) (n : Nat) (dfa : DFA),
    LoopInv S tr acc q → compileLoop fuel S q tr acc = some (n, dfa) →
    ∃ Sf : List Exp, (∃ ext, Sf = S ++ ext) ∧ n = Sf.length ∧
      (∀ x ∈ Sf, wf x = true) ∧
      (∀ i, i < n → ∀ a : Int, ∃ j, j < n ∧
        resolveT dfa.transition (i, a) = some j ∧
        ∀ w, LangOf (Sf.getD j Exp.emptySet) w ↔
          LangOf (Sf.getD i Exp.emptySet) (a :: w)) ∧
      (∀ i, i < n →
        lookupA dfa.accepting i = isEmptyString (Nullability (Sf.getD i Exp.emptySet))) := by
  intro fuel
  induction fuel with
  | zero => intro S q tr acc n dfa _ h; simp [compileLoop] at h
  | succ fuel ih =>
      intro S q tr acc n dfa hinv h
      rw [compileLoop] at h
      by_cases hq : q < S.length
      · rw [if_pos hq] at h
        have h' : compileLoop fuel (compileState S q).1 (q + 1)
            (tr ++ (compileState S q).2.1) (acc ++ [(compileState S q).2.2]) =
            some (n, dfa) := h
        obtain ⟨Sf, ⟨ext, hSf⟩, hn, hwfS, htrans, hacc⟩ :=
          ih _ _ _ _ _ _ (loopInv_step hinv hq) h'
        obtain ⟨ext0, hext0⟩ := (compileState_sem hq hinv.wfS).1
        exact ⟨Sf, ⟨ext0 ++ ext, by rw [hSf, hext0, List.append_assoc]⟩,
          hn, hwfS, htrans, hacc⟩
      · rw [if_neg hq] at h
        injection h with h'
        have hn : n = S.length := (congrArg Prod.fst h').symm
        have hdfa : dfa = ⟨tr, acc⟩ := (congrArg Prod.snd h').symm
        have hq' : q = S.length := Nat.le_antisymm hinv.qle (Nat.not_lt.mp hq)
        subst hn
        subst hdfa
        refine ⟨S, ⟨[], (List.append_nil S).symm⟩, rfl, hinv.wfS, ?_, ?_⟩
        · intro i hi a
          obtain ⟨j, hj, hrt, hlang⟩ := hinv.transSem i (hq' ▸ hi) a
          exact ⟨j, hj, hrt, hlang⟩
        · intro i hi
          exact hinv.accSem i (hq' ▸ hi)

/-- Running the compiled table from any live state lands in a live state
whose empty-word membership decides membership of the consumed input in
the start state's language. -/
theorem dfaRun_sem {Sf : List Exp} {dfa : DFA} {n : Nat}
    (htrans : ∀ i, i < n → ∀ a : Int, ∃ j, j < n ∧
      resolveT dfa.transition (i, a) = some j ∧
      ∀ w, LangOf (Sf.getD j Exp.emptySet) w ↔ LangOf (Sf.getD i Exp.emptySet) (a :: w)) :
    ∀ (s : List Int) (i : Nat), i < n →
      ∃ j, j < n ∧ s.foldl (dfaNext dfa) i = j ∧
        (LangOf (Sf.getD j Exp.emptySet) [] ↔ LangOf (Sf.getD i Exp.emptySet) s) := by
  intro s
  induction s with
  | nil => intro i hi; exact ⟨i, hi, rfl, Iff.rfl⟩
  | cons a t ihs =>
      intro i hi
      obtain ⟨j1, hj1, hres, hlang⟩ := htrans i hi a
      obtain ⟨j2, hj2, hfold, hlang2⟩ := ihs j1 hj1
      refine ⟨j2, hj2, ?_, ?_⟩
      · rw [List.foldl_cons, resolveT_dfaNext hres]
        exact hfold
      · rw [hlang2]
        exact hlang t

theorem bool_eq_of_iff {a b : Bool} (h : a = true ↔ b = true) : a = b := by
  cases a <;> cases b <;> simp_all

/-- C1: for every expression `e` and every input string `s`, direct
matching and compiled matching agree — whenever `Compile` (spec §4.7)
returns a DFA for a well-formed `e`, `Match(dfa, s)` (spec §4.8) equals
`Match(e, s)` (spec §4.6). -/
theorem claim_C1 (e : Exp) (s : List Int) (fuel n : Nat) (dfa : DFA)
    (hwf : wf e = true) (hc : Compile fuel e = some (n, dfa)) :
    MatchDFA dfa s = Match e s := by
  rw [Compile] at hc
  have hinv : LoopInv [Normalised e] [] [] 0 :=
    { wfS := by
        intro x hx
        rw [List.mem_singleton.mp hx]
        exact wf_Normalised hwf
      qle := Nat.zero_le _
      keys := by intro en hen; simp at hen
      accKeys := by intro en hen; simp at hen
      accDom := by intro i hi; exact absurd hi (Nat.not_lt_zero i)
      accSem := by intro i hi; exact absurd hi (Nat.not_lt_zero i)
      transSem := by intro i hi; exact absurd hi (Nat.not_lt_zero i) }
  obtain ⟨Sf, ⟨ext, hSf⟩, hn, hwfS, htrans, hacc⟩ :=
    compileLoop_sem fuel [Normalised e] 0 [] [] n dfa hinv hc
  have h0 : 0 < n := by
    rw [hn, hSf]
    simp
  have hS0 : Sf.getD 0 Exp.emptySet = Normalised e := by
    rw [hSf]
    rfl
  obtain ⟨jf, hjf, hfold, hlang⟩ := dfaRun_sem htrans s 0 h0
  rw [MatchDFA, hfold, hacc jf hjf]
  have hwfjf : wf (Sf.getD jf Exp.emptySet) = true :=
    hwfS _ (getD_mem (by rw [← hn]; exact hjf))
  apply bool_eq_of_iff
  have h1 : isEmptyString (Nullability (Sf.getD jf Exp.emptySet)) = true ↔
      LangOf (Sf.getD jf Exp.emptySet) [] := by
    rw [isEmptyString_eq]
    exact nullability_lang hwfjf
  have h3 : LangOf (Sf.getD jf Exp.emptySet) [] ↔ LangOf e s := by
    rw [hlang, hS0, Normalised_lang]
  rw [h1, h3, match_lang s e hwf]

/-- Closed witness for C1 at `e = Character 97`, `s = [97]`, with the
DFA computed by `Compile 50`. -/
theorem claim_C1_witness :
    wf (Character 97) = true ∧
    Compile 50 (Character 97) =
      some (3, ⟨[((0, -1), 1), ((0, 97), 2), ((1, -1), 1), ((2, -1), 1)],
                [(0, false), (1, false), (2, true)]⟩) ∧
    MatchDFA ⟨[((0, -1), 1), ((0, 97), 2), ((1, -1), 1), ((2, -1), 1)],
              [(0, false), (1, false), (2, true)]⟩ [97] =
      Match (Character 97) [97] :=
  ⟨by decide, by decide,
    claim_C1 (Character 97) [97] 50 3
      ⟨[((0, -1), 1), ((0, 97), 2), ((1, -1), 1), ((2, -1), 1)],
       [(0, false), (1, false), (2, true)]⟩ (by decide) (by decide)⟩

end redgrep
